import Mathlib

/-!
# Symmetry-orbit and canonical-form engine of CASM

A shallow embedding of the orbit / canonical-form machinery used by the
kinetics module, the invariant-subgroup generators, the databases and their
ranges, the reading and writing of chemical references, the enumerator of
diffusion transformations and the neighborhood of cluster orbits.

Element types, group-element types and the functions whose bodies live in
headers that are not part of the sources at hand are parameters (structure
fields); the bodies that are at hand are transcribed.
-/

namespace CASM

/-! ## SymCompare -/

/-- Modelled from the spec: the SymCompare capability (SymCompare.hh is not
among the sources; ClusterSymCompare.hh only declares the two prepare stages
and compare_impl). The two prepare stages and the strict order on prepared
elements are the data of a SymCompare instance. -/
structure SymCompare (Element : Type) where
  spatial_prepare : Element → Element
  representation_prepare : Element → Element
  compare : Element → Element → Bool

namespace SymCompare

variable {Element : Type}

/-- Modelled from the spec: prepare is the two-stage normalisation, stage 1
spatial_prepare, stage 2 representation_prepare. -/
def prepare (sc : SymCompare Element) (obj : Element) : Element :=
  sc.representation_prepare (sc.spatial_prepare obj)

/-- Modelled from the spec: equal(A, B) is !compare(A,B) && !compare(B,A). -/
def equal (sc : SymCompare Element) (A B : Element) : Bool :=
  !sc.compare A B && !sc.compare B A

end SymCompare

/-! ## Generic algorithms of the standard library used by the sources -/

/-- The loop of std::max_element: the first largest element is kept. -/
def max_element_from {α : Type} (comp : α → α → Bool) : α → List α → α
  | largest, [] => largest
  | largest, x :: xs => max_element_from comp (if comp largest x then x else largest) xs

/-- Transcription of std::max_element over a range given as a list; an empty
range has no maximum (the end iterator). -/
def max_element {α : Type} (comp : α → α → Bool) : List α → Option α
  | [] => none
  | x :: xs => some (max_element_from comp x xs)

/-- Deduplication by an equality test, keeping the first representative of
every class in order of appearance. -/
def dedup_by {α : Type} (eq : α → α → Bool) : List α → List α
  | [] => []
  | x :: xs => x :: (dedup_by eq xs).filter (fun y => !eq x y)

/-- Sorting of a sequence by a strict comparison (insertion sort; an element
goes in front of the first one that is not less than it). -/
def sort_by {α : Type} (lt : α → α → Bool) (l : List α) : List α :=
  l.insertionSort (fun a b => lt b a = false)

/-- A strict weak order given as a boolean comparison: irreflexive,
transitive, and with transitive incomparability. -/
structure StrictWeakOrder {α : Type} (lt : α → α → Bool) : Prop where
  irrefl : ∀ a, lt a a = false
  trans : ∀ a b c, lt a b = true → lt b c = true → lt a c = true
  incomp_trans : ∀ a b c, lt a b = false → lt b a = false → lt b c = false →
    lt c b = false → lt a c = false

/-! ## Symmetry setting: element type, group, action, comparison -/

/-- The collaborators the engine consumes: a SymCompare, the action of group
elements on elements (copy_apply / apply_sym), and the generating group as
an ordered finite collection with identity, composition and inverse. -/
structure SymSetting (Element Op : Type) where
  sym_compare : SymCompare Element
  copy_apply : Op → Element → Element
  generating_group : List Op
  identity : Op
  compose : Op → Op → Op
  inverse : Op → Op

namespace SymSetting

variable {Element Op : Type}

/-- Modelled from the spec: the prepared image e_g of the element under one
operation, e_g = sym_compare.prepare(apply_sym(g, prototype)). -/
def image (S : SymSetting Element Op) (e : Element) (g : Op) : Element :=
  S.sym_compare.prepare (S.copy_apply g e)

/-- Modelled from the spec: the prepared images over the whole group. -/
def images (S : SymSetting Element Op) (e : Element) : List Element :=
  S.generating_group.map (S.image e)

/-- Modelled from the spec: canonical_form is the compare-maximum of the
prepared images (none for an empty generating group, a precondition
violation). -/
def canonical_form (S : SymSetting Element Op) (e : Element) : Option Element :=
  max_element S.sym_compare.compare (S.images e)

/-- Modelled from the spec: CanonicalGenerator (its header is not among the
sources): applied to an element it returns the canonical form of the element
under the group and sym_compare it was built with; without any operation the
prepared element is all there is. -/
def canonical_generator (S : SymSetting Element Op) (e : Element) : Element :=
  (S.canonical_form e).getD (S.sym_compare.prepare e)

/-- Modelled from the spec: to_canonical is the specific operation that
takes the element to its canonical form: the first operation whose prepared
image is the compare-maximum. -/
def to_canonical (S : SymSetting Element Op) (e : Element) : Option Op :=
  max_element (fun g h => S.sym_compare.compare (S.image e g) (S.image e h))
    S.generating_group

/-- Modelled from the spec: from_canonical is the inverse of to_canonical. -/
def from_canonical (S : SymSetting Element Op) (e : Element) : Option Op :=
  (S.to_canonical e).map S.inverse

/-- Modelled from the spec: is_canonical is true iff prepare(self) == self
and no group operation produces a compare-greater image. -/
def is_canonical (S : SymSetting Element Op) (e : Element) : Bool :=
  S.sym_compare.equal (S.sym_compare.prepare e) e &&
    S.generating_group.all (fun g => !S.sym_compare.compare e (S.image e g))

/-- Equality of two elements as the engine tests it: sym_compare.equal of
the prepared forms. -/
def prepared_equal (S : SymSetting Element Op) (a b : Element) : Bool :=
  S.sym_compare.equal (S.sym_compare.prepare a) (S.sym_compare.prepare b)

/-! ### Orbit -/

/-- Modelled from the spec: the equivalents of Orbit(prototype, group,
sym_compare): the prepared images of the prototype over the group,
deduplicated with sym_compare.equal and sorted with compare (the
invariants presort only groups candidates and agrees with compare). -/
def orbit_equivalents (S : SymSetting Element Op) (prototype : Element) : List Element :=
  sort_by S.sym_compare.compare (dedup_by S.sym_compare.equal (S.images prototype))

/-- Modelled from the spec: the multiplicity is the number of equivalents. -/
def orbit_multiplicity (S : SymSetting Element Op) (prototype : Element) : Nat :=
  (S.orbit_equivalents prototype).length

/-! ### Invariant subgroup -/

/-- Modelled from the spec: the stabilizer predicate of §4.4,
sym_compare.equal(sym_compare.prepare(apply_sym(g, element)),
sym_compare.prepare(element)). -/
def leaves_invariant (S : SymSetting Element Op) (element : Element) (g : Op) : Bool :=
  S.sym_compare.equal (S.sym_compare.prepare (S.copy_apply g element))
    (S.sym_compare.prepare element)

/-- Modelled from the spec: make_invariant_subgroup(element, generating_grp,
sym_compare) of InvariantSubgroup.hh (declared there, body not among the
sources): iterate the group and retain the operations that satisfy the
stabilizer predicate. -/
def make_invariant_subgroup (S : SymSetting Element Op) (element : Element) : List Op :=
  S.generating_group.filter (S.leaves_invariant element)

/-- Modelled from the spec: the permutation-operation variant of
make_invariant_subgroup: the same predicate over a caller-supplied range. -/
def make_invariant_subgroup_range (S : SymSetting Element Op) (element : Element)
    (range : List Op) : List Op :=
  range.filter (S.leaves_invariant element)

/-- The generating group is a group: a duplicate-free collection that
contains the identity and is closed under composition and inverse, the
operations obeying the group laws. -/
structure IsGroup (S : SymSetting Element Op) : Prop where
  nodup : S.generating_group.Nodup
  identity_mem : S.identity ∈ S.generating_group
  compose_mem : ∀ g h, g ∈ S.generating_group → h ∈ S.generating_group →
    S.compose g h ∈ S.generating_group
  inverse_mem : ∀ g, g ∈ S.generating_group → S.inverse g ∈ S.generating_group
  compose_assoc : ∀ g h k, S.compose (S.compose g h) k = S.compose g (S.compose h k)
  identity_compose : ∀ g, S.compose S.identity g = g
  inverse_compose : ∀ g, S.compose (S.inverse g) g = S.identity
  compose_inverse : ∀ g, S.compose g (S.inverse g) = S.identity

/-- The sym_compare is compatible with the group action: compare is a strict
weak order, and up to equality of prepared forms the identity fixes every
element, a composition acts as its factors in turn, and operations map equal
elements to equal elements. -/
structure CompatibleAction (S : SymSetting Element Op) : Prop where
  swo : StrictWeakOrder S.sym_compare.compare
  apply_identity : ∀ e, S.prepared_equal (S.copy_apply S.identity e) e = true
  apply_compose : ∀ g h e,
    S.prepared_equal (S.copy_apply (S.compose g h) e) (S.copy_apply g (S.copy_apply h e)) = true
  apply_congr : ∀ g a b, S.prepared_equal a b = true →
    S.prepared_equal (S.copy_apply g a) (S.copy_apply g b) = true

end SymSetting

/-! ## DiffTransEnumEquivalents.cc -/

/-- The predicate of the lambda in MakeDiffTransInvariantSubgroup::operator():
f(p) || !symcompare.compare(diff_trans, copy_apply(p, diff_trans)), where f
is ConfigIsEquivalent of the background configuration (a parameter: its
class is not among the sources). -/
def diff_trans_keeps {DiffTrans Permute : Type} (f : Permute → Bool)
    (compare : DiffTrans → DiffTrans → Bool) (copy_apply : Permute → DiffTrans → DiffTrans)
    (diff_trans : DiffTrans) (p : Permute) : Bool :=
  f p || !compare diff_trans (copy_apply p diff_trans)

/-- Transcription of MakeDiffTransInvariantSubgroup::operator(): std::copy_if
over the range [begin, end) with the predicate above. -/
def MakeDiffTransInvariantSubgroup {DiffTrans Permute : Type} (f : Permute → Bool)
    (compare : DiffTrans → DiffTrans → Bool) (copy_apply : Permute → DiffTrans → DiffTrans)
    (diff_trans : DiffTrans) (range : List Permute) : List Permute :=
  range.filter (diff_trans_keeps f compare copy_apply diff_trans)

/-! ## jsonDatabase.cc : search of an orbit by a diffusion transformation -/

/-- A stored PrimPeriodicDiffTransOrbit, as far as search reads it: its
prototype (and the name given at insertion). -/
structure StoredOrbit (DiffTrans : Type) where
  name : String
  prototype : DiffTrans

/-- The lambda f of jsonDatabase<PrimPeriodicDiffTransOrbit>::search:
sym_compare.equal(canon_diff_trans, gen(orbit.prototype())). -/
def search_matches {DiffTrans : Type} (sc : SymCompare DiffTrans) (gen : DiffTrans → DiffTrans)
    (diff_trans : DiffTrans) (orbit : StoredOrbit DiffTrans) : Bool :=
  sc.equal (gen diff_trans) (gen orbit.prototype)

/-- Transcription of std::find_if as the position of the first match, the
length of the range standing for the end iterator. -/
def find_if {α : Type} (pred : α → Bool) : List α → Nat
  | [] => 0
  | x :: xs => if pred x then 0 else find_if pred xs + 1

/-- Transcription of jsonDatabase<PrimPeriodicDiffTransOrbit>::search(const
DiffusionTransformation&): std::find_if over m_orbit_list with the lambda,
gen being the CanonicalGenerator of the prim factor group (a parameter). -/
def search {DiffTrans : Type} (sc : SymCompare DiffTrans) (gen : DiffTrans → DiffTrans)
    (m_orbit_list : List (StoredOrbit DiffTrans)) (diff_trans : DiffTrans) : Nat :=
  find_if (search_matches sc gen diff_trans) m_orbit_list

/-! ## ClusterSymCompare.hh : comparison of clusters under prim periodic symmetry -/

/-- A lattice translation in units of the primitive cell: three integers. -/
abbrev UnitCell := Int × Int × Int

/-- A site of the crystal: sublattice index and unit cell. -/
structure UnitCellCoord where
  sublat : Nat
  unitcell : UnitCell
deriving DecidableEq

/-- Translation of a site by a lattice translation (UnitCellCoord + UnitCell). -/
def UnitCellCoord.translate (frac : UnitCell) (site : UnitCellCoord) : UnitCellCoord :=
  { site with unitcell := site.unitcell + frac }

/-- A cluster of sites, in the order its sites are stored. -/
abbrev IntegralCluster := List UnitCellCoord

/-- Translation of a cluster, site by site (obj + frac). -/
def cluster_translate (frac : UnitCell) (obj : IntegralCluster) : IntegralCluster :=
  obj.map (UnitCellCoord.translate frac)

/-- Modelled from the spec: representation_prepare_impl of every variant
(declared in ClusterSymCompare.hh with the comment "Returns sorted"; the body
is in ClusterSymCompare_impl.hh): the sites sorted by the order of
UnitCellCoord, a parameter. -/
def cluster_sort (site_lt : UnitCellCoord → UnitCellCoord → Bool) (obj : IntegralCluster) :
    IntegralCluster :=
  sort_by site_lt obj

/-- Modelled from the spec: PrimPeriodicSymCompare::spatial_prepare_impl
(declared with the comment "Applies lattice translation such that first site
of cluster is in UnitCell (0,0,0)"): obj - position(obj).unitcell(), an
empty cluster being returned as it is. -/
def prim_periodic_spatial_prepare : IntegralCluster → IntegralCluster
  | [] => []
  | pos :: rest => cluster_translate (-pos.unitcell) (pos :: rest)

/-- Modelled from the spec: PrimPeriodicSymCompare: first site translated
into unit cell (0,0,0), then sorted. -/
def PrimPeriodicSymCompare (site_lt : UnitCellCoord → UnitCellCoord → Bool)
    (compare : IntegralCluster → IntegralCluster → Bool) : SymCompare IntegralCluster where
  spatial_prepare := prim_periodic_spatial_prepare
  representation_prepare := cluster_sort site_lt
  compare := compare

/-- Lexicographic order of sites: unit cell first, then sublattice. -/
def lex_site_lt (a b : UnitCellCoord) : Bool :=
  decide (a.unitcell.1 < b.unitcell.1) ||
  (decide (a.unitcell.1 = b.unitcell.1) &&
    (decide (a.unitcell.2.1 < b.unitcell.2.1) ||
    (decide (a.unitcell.2.1 = b.unitcell.2.1) &&
      (decide (a.unitcell.2.2 < b.unitcell.2.2) ||
      (decide (a.unitcell.2.2 = b.unitcell.2.2) && decide (a.sublat < b.sublat))))))

/-- Lexicographic order of clusters: site by site, a proper initial segment
being less. -/
def lex_cluster_lt : IntegralCluster → IntegralCluster → Bool
  | [], [] => false
  | [], _ :: _ => true
  | _ :: _, [] => false
  | a :: as, b :: bs => lex_site_lt a b || (!lex_site_lt b a && lex_cluster_lt as bs)

/-! ## A small concrete setting: two-site clusters on a periodic chain of three sites

Used to evaluate the engine on concrete inputs: the elements are ordered
pairs of sites of a chain of three sites with periodic boundary, the group
is generated by the translations and the inversion of the chain. -/

namespace Chain3

/-- A site of the three-site periodic chain. -/
abbrev Site := Fin 3

/-- A two-site cluster, in the order its sites are listed. -/
abbrev Pair := Site × Site

/-- An operation of the chain: an optional inversion followed by a
translation. -/
abbrev ChainOp := Bool × Fin 3

/-- Action of an operation on a site. -/
def act_site (g : ChainOp) (x : Site) : Site :=
  (if g.1 then 0 - x else x) + g.2

/-- Action of an operation on a pair, site by site. -/
def act (g : ChainOp) (e : Pair) : Pair := (act_site g e.1, act_site g e.2)

/-- Composition: first h, then g. -/
def mul (g h : ChainOp) : ChainOp :=
  (xor g.1 h.1, (if g.1 then 0 - h.2 else h.2) + g.2)

/-- Inverse operation. -/
def inv (g : ChainOp) : ChainOp :=
  (g.1, if g.1 then g.2 else 0 - g.2)

/-- Sorting of the two sites of a pair. -/
def sort_pair (e : Pair) : Pair := if e.2 < e.1 then (e.2, e.1) else e

/-- Lexicographic comparison of the sorted forms. -/
def lt_pair (a b : Pair) : Bool :=
  decide ((sort_pair a).1 < (sort_pair b).1) ||
    (decide ((sort_pair a).1 = (sort_pair b).1) && decide ((sort_pair a).2 < (sort_pair b).2))

/-- All six operations, identity first. -/
def all_ops : List ChainOp :=
  [(false, 0), (false, 1), (false, 2), (true, 0), (true, 1), (true, 2)]

/-- The aperiodic comparison of pairs: no spatial stage, sites sorted,
sorted forms compared. -/
def pair_compare : SymCompare Pair where
  spatial_prepare := id
  representation_prepare := sort_pair
  compare := lt_pair

/-- The setting of pairs under the full group of the chain. -/
def setting : SymSetting Pair ChainOp where
  sym_compare := pair_compare
  copy_apply := act
  generating_group := all_ops
  identity := (false, 0)
  compose := mul
  inverse := inv

/-- An occupation of the three sites of the chain (a background
configuration). -/
abbrev Occupation := Site → Fin 2

/-- The configuration test of an operation: the operation maps the
occupation onto itself. -/
def config_is_equivalent (occ : Occupation) (g : ChainOp) : Bool :=
  decide (∀ x, occ (act_site g x) = occ x)

/-- The occupation with the same occupant on every site. -/
def uniform_occ : Occupation := fun _ => 0

/-- The occupation with a different occupant on site 0 only. -/
def marked_occ : Occupation := fun x => if x = 0 then 1 else 0

/-- A database content: two stored orbits of pairs. -/
def orbit_db : List (StoredOrbit Pair) :=
  [⟨"0", (0, 0)⟩, ⟨"1", (0, 1)⟩]

end Chain3

/-! ## jsonDatabase.cc : the ranges kept over the ordered sets of the databases

The databases keep their objects in a std::set. An iterator of the set is
identified with the element it points to (set iterators stay valid and
elements are unique), none standing for end(). -/

section SetModel

variable {C : Type} [DecidableEq C]

/-- The iterator std::next(it) for an iterator it to the element c of the
set whose elements are listed in order: the element after c, end() after the
last one. -/
def next_of : List C → C → Option C
  | [], _ => none
  | x :: xs, c => if x = c then xs.head? else next_of xs c

/-- The iterator std::prev(it) for an iterator it to the element c: the
element before c (there is none before the first one). -/
def prev_of : List C → C → Option C
  | [], _ => none
  | [_], _ => none
  | x :: y :: xs, c => if y = c then some x else prev_of (y :: xs) c

/-- Increment of an iterator (end() is not incremented). -/
def std_next (l : List C) (it : Option C) : Option C :=
  it.bind (next_of l)

/-- Decrement of an iterator. -/
def std_prev (l : List C) (it : Option C) : Option C :=
  match it with
  | none => l.getLast?
  | some c => prev_of l c

/-- The elements of boost::make_iterator_range(b, e): from the element b
points to, up to but without the element e points to. -/
def iterator_range (l : List C) (b e : Option C) : List C :=
  match b with
  | none => []
  | some f => (l.dropWhile (fun x => decide (x ≠ f))).takeWhile (fun x => decide (some x ≠ e))

/-- Insertion of std::set: the position of the new element in the order. -/
def sorted_insert (lt : C → C → Bool) (c : C) : List C → List C
  | [] => [c]
  | x :: xs => if lt c x then c :: x :: xs else x :: sorted_insert lt c xs

/-- The second component of the result of std::set::insert: false when the set
holds an element equivalent to c (neither is less than the other). -/
def set_inserts (lt : C → C → Bool) (c : C) (l : List C) : Bool :=
  !l.any (fun x => !lt x c && !lt c x)

/-- A std::map from names to pairs of iterators, with emplace or assignment
of one entry. -/
def map_set {V : Type} (m : String → Option V) (key : String) (v : V) : String → Option V :=
  fun k => if k = key then some v else m k

/-- Erasure of one entry of a std::map. -/
def map_erase {V : Type} (m : String → Option V) (key : String) : String → Option V :=
  fun k => if k = key then none else m k

/-- The update of one range in _on_insert_or_emplace, the same for every
range map: a new entry (it, it) when the key is new; else the range begins
at the new element if its old begin is std::next of the new element; else it
ends at the new element if its old last element is std::prev of it. -/
def range_after_insert (l : List C) (c : C) :
    Option (Option C × Option C) → Option C × Option C
  | none => (some c, some c)
  | some (first, second) =>
    if first = std_next l (some c) then (some c, second)
    else if second = std_prev l (some c) then (first, some c)
    else (first, second)

/-- The update of one range in erase: the entry goes when the range holds one
element; else its begin is incremented if it is the erased element; else its
last is decremented if it is the erased element. The result is none when the
entry is to be erased. -/
def range_after_erase (l : List C) (c : C) (first second : Option C) :
    Option (Option C × Option C) :=
  if first = second then none
  else if first = some c then some (std_next l first, second)
  else if second = some c then some (first, std_prev l second)
  else some (first, second)

end SetModel

/-! ### jsonDatabase<Configuration> -/

/-- The members of jsonDatabase<Configuration> that scel_range depends on:
the ordered set of configurations and the map from supercell name to the
first and last configuration of the supercell. -/
structure ConfigDatabase (C : Type) where
  m_config_list : List C
  m_scel_range : String → Option (Option C × Option C)

namespace ConfigDatabase

variable {C : Type} [DecidableEq C]

/-- The database after construction (or close): no configuration, no range. -/
def empty : ConfigDatabase C where
  m_config_list := []
  m_scel_range := fun _ => none

/-- Transcription of insert with _on_insert_or_emplace, as far as the set and
m_scel_range go: lt is Configuration::operator<, scelname is
config.supercell().name(). -/
def insert (lt : C → C → Bool) (scelname : C → String) (db : ConfigDatabase C) (config : C) :
    ConfigDatabase C :=
  if set_inserts lt config db.m_config_list then
    { m_config_list := sorted_insert lt config db.m_config_list,
      m_scel_range := map_set db.m_scel_range (scelname config)
        (range_after_insert (sorted_insert lt config db.m_config_list) config
          (db.m_scel_range (scelname config))) }
  else db

/-- Transcription of erase(pos), base_it being the element pos points to. An
entry that is not found leaves the map as it is (the source dereferences the
end iterator of the map then). -/
def erase (scelname : C → String) (db : ConfigDatabase C) (base_it : C) : ConfigDatabase C :=
  { m_config_list := db.m_config_list.erase base_it,
    m_scel_range :=
      match db.m_scel_range (scelname base_it) with
      | none => db.m_scel_range
      | some (first, second) =>
        match range_after_erase db.m_config_list base_it first second with
        | none => map_erase db.m_scel_range (scelname base_it)
        | some r => map_set db.m_scel_range (scelname base_it) r }

/-- Transcription of scel_range: (end, end) when the name has no entry, else
the range from res.first to std::next(res.second). -/
def scel_range (db : ConfigDatabase C) (scelname : String) : List C :=
  match db.m_scel_range scelname with
  | none => []
  | some (first, second) =>
    iterator_range db.m_config_list first (std_next db.m_config_list second)

/-- The states a database reaches from the empty one by insert and by erase of
a stored configuration. -/
inductive Reachable (lt : C → C → Bool) (scelname : C → String) : ConfigDatabase C → Prop
  | empty : Reachable lt scelname ConfigDatabase.empty
  | insert (db : ConfigDatabase C) (config : C) :
      Reachable lt scelname db → Reachable lt scelname (db.insert lt scelname config)
  | erase (db : ConfigDatabase C) (base_it : C) :
      Reachable lt scelname db → base_it ∈ db.m_config_list →
      Reachable lt scelname (db.erase scelname base_it)

end ConfigDatabase

/-- The order of configurations: Configuration::operator< is a strict total
order, and it keeps the configurations of one supercell contiguous. -/
structure ConfigOrder {C : Type} (lt : C → C → Bool) (scelname : C → String) : Prop where
  irrefl : ∀ a, lt a a = false
  trans : ∀ a b c, lt a b = true → lt b c = true → lt a c = true
  total : ∀ a b, a = b ∨ lt a b = true ∨ lt b a = true
  contiguous : ∀ a b c, lt a b = true → lt b c = true → scelname a = scelname c →
    scelname b = scelname a

namespace ConfigDatabase

variable {C : Type}

/-- What an entry of m_scel_range has to be for the name n: absent when no
stored configuration has the supercell, else the first and the last stored
configuration of the supercell. -/
def RangeOk (lt : C → C → Bool) (scelname : C → String) (l : List C) (n : String) :
    Option (Option C × Option C) → Prop
  | none => ∀ x ∈ l, scelname x ≠ n
  | some (some f, some s) =>
    f ∈ l ∧ s ∈ l ∧ scelname f = n ∧ scelname s = n ∧
      ∀ x ∈ l, scelname x = n → lt x f = false ∧ lt s x = false
  | some _ => False

/-- The invariant of the database: the set is in order and every range entry
is as it has to be. -/
structure Inv (lt : C → C → Bool) (scelname : C → String) (db : ConfigDatabase C) : Prop where
  sorted : db.m_config_list.Pairwise (fun a b => lt a b = true)
  ranges : ∀ n, RangeOk lt scelname db.m_config_list n (db.m_scel_range n)

end ConfigDatabase

/-! ### jsonDatabase<DiffTransConfiguration> -/

/-- The members of jsonDatabase<DiffTransConfiguration> that the range
queries depend on: the ordered set and the three range maps. -/
structure DiffTransConfigDatabase (D : Type) where
  m_diff_trans_config_list : List D
  m_scel_range : String → Option (Option D × Option D)
  m_orbit_range : String → Option (Option D × Option D)
  m_orbit_scel_range : String → Option (String → Option (Option D × Option D))

namespace DiffTransConfigDatabase

variable {D : Type} [DecidableEq D]

/-- The database after construction (or close). -/
def empty : DiffTransConfigDatabase D where
  m_diff_trans_config_list := []
  m_scel_range := fun _ => none
  m_orbit_range := fun _ => none
  m_orbit_scel_range := fun _ => none

/-- Transcription of insert with _on_insert_or_emplace, as far as the set and
the range maps go: lt is DiffTransConfiguration::operator<, orbit_name is
diff_trans_config.orbit_name(), scelname is
diff_trans_config.from_config().supercell().name(). -/
def insert (lt : D → D → Bool) (orbit_name scelname : D → String)
    (db : DiffTransConfigDatabase D) (diff_trans_config : D) : DiffTransConfigDatabase D :=
  if set_inserts lt diff_trans_config db.m_diff_trans_config_list then
    { m_diff_trans_config_list := sorted_insert lt diff_trans_config db.m_diff_trans_config_list,
      m_scel_range := map_set db.m_scel_range (scelname diff_trans_config)
        (range_after_insert (sorted_insert lt diff_trans_config db.m_diff_trans_config_list)
          diff_trans_config (db.m_scel_range (scelname diff_trans_config))),
      m_orbit_range := map_set db.m_orbit_range (orbit_name diff_trans_config)
        (range_after_insert (sorted_insert lt diff_trans_config db.m_diff_trans_config_list)
          diff_trans_config (db.m_orbit_range (orbit_name diff_trans_config))),
      m_orbit_scel_range :=
        match db.m_orbit_scel_range (orbit_name diff_trans_config) with
        | none =>
          map_set db.m_orbit_scel_range (orbit_name diff_trans_config)
            (map_set (fun _ => none) (scelname diff_trans_config)
              (some diff_trans_config, some diff_trans_config))
        | some sub =>
          map_set db.m_orbit_scel_range (orbit_name diff_trans_config)
            (map_set sub (scelname diff_trans_config)
              (range_after_insert
                (sorted_insert lt diff_trans_config db.m_diff_trans_config_list)
                diff_trans_config (sub (scelname diff_trans_config)))) }
  else db

/-- Transcription of orbit_scel_range(diff_trans_name, scelname): the outer
map is searched for diff_trans_name, and the inner map of the orbit is
searched for diff_trans_name as well, as the source does. -/
def orbit_scel_range (db : DiffTransConfigDatabase D) (diff_trans_name scelname : String) :
    List D :=
  match db.m_orbit_scel_range diff_trans_name with
  | none => []
  | some sub =>
    match sub diff_trans_name with
    | none => []
    | some (first, second) =>
      iterator_range db.m_diff_trans_config_list first
        (std_next db.m_diff_trans_config_list second)

end DiffTransConfigDatabase

/-! ### Small concrete databases -/

namespace SmallDatabase

/-- A configuration: the number of its supercell and its number within the
supercell. -/
abbrev Config := Fin 2 × Fin 3

/-- Configurations ordered by supercell first. -/
def config_lt (a b : Config) : Bool :=
  decide (a.1 < b.1) || (decide (a.1 = b.1) && decide (a.2 < b.2))

/-- The name of the supercell of a configuration. -/
def config_scelname (a : Config) : String :=
  if a.1 = 0 then "SCEL1_1_1_1_0_0_0" else "SCEL2_2_1_1_0_0_0"

/-- A database after four inserts and one erase. -/
def config_db : ConfigDatabase Config :=
  ((((ConfigDatabase.empty.insert config_lt config_scelname (0, 1)).insert
    config_lt config_scelname (1, 0)).insert config_lt config_scelname (0, 0)).insert
    config_lt config_scelname (0, 2)).erase config_scelname (0, 0)

/-- A stored DiffTransConfiguration: its orbit name, the name of the
supercell of its from-configuration, and a number. -/
abbrev StoredDTC := String × String × Nat

/-- Stored DiffTransConfigurations ordered by their number. -/
def dtc_lt (a b : StoredDTC) : Bool := decide (a.2.2 < b.2.2)

/-- The database after the insertion of one DiffTransConfiguration of orbit
"diff_trans/0" in supercell "SCEL1_1_1_1_0_0_0". -/
def dtc_db : DiffTransConfigDatabase StoredDTC :=
  DiffTransConfigDatabase.empty.insert dtc_lt (fun d => d.1) (fun d => d.2.1)
    ("diff_trans/0", "SCEL1_1_1_1_0_0_0", 0)

end SmallDatabase

/-! ## LatticeIsEquivalent.cc -/

/-- Eigen::Matrix3d, with exact rational entries in place of doubles. -/
abbrev Matrix3d := Fin 3 → Fin 3 → ℚ

namespace Matrix3d

/-- Matrix product. -/
def mul (a b : Matrix3d) : Matrix3d :=
  fun i j => a i 0 * b 0 j + a i 1 * b 1 j + a i 2 * b 2 j

/-- Determinant. -/
def determinant (a : Matrix3d) : ℚ :=
  a 0 0 * (a 1 1 * a 2 2 - a 1 2 * a 2 1) - a 0 1 * (a 1 0 * a 2 2 - a 1 2 * a 2 0) +
    a 0 2 * (a 1 0 * a 2 1 - a 1 1 * a 2 0)

/-- Inverse by cofactors, as Eigen computes it for fixed size 3. -/
def inverse (a : Matrix3d) : Matrix3d :=
  fun i j =>
    (a ((j + 1) % 3) ((i + 1) % 3) * a ((j + 2) % 3) ((i + 2) % 3) -
      a ((j + 1) % 3) ((i + 2) % 3) * a ((j + 2) % 3) ((i + 1) % 3)) / determinant a

/-- The identity matrix. -/
def identity : Matrix3d := fun i j => if i = j then 1 else 0

end Matrix3d

/-- A lattice, as far as LatticeIsEquivalent reads it: the matrix whose
columns are the lattice vectors, and the tolerance. -/
structure Lattice where
  lat_column_mat : Matrix3d
  tol : ℚ

/-- The data members of LatticeIsEquivalent: the lattice and the matrix m_U
that U() returns. -/
structure LatticeIsEquivalent where
  m_lat : Lattice
  m_U : Matrix3d

namespace LatticeIsEquivalent

variable {SymOp : Type}

/-- The constructor LatticeIsEquivalent(const Lattice &_lat) : m_lat(_lat):
m_U is not initialised, its value is whatever the second argument is. -/
def construct (_lat : Lattice) (uninitialized : Matrix3d) : LatticeIsEquivalent :=
  { m_lat := _lat, m_U := uninitialized }

/-- Transcription of operator()(const Lattice &other) const. The statement
"Eigen::Matrix3d m_U = ..." declares a local variable; the members of the
object are the same after the call, and the object is returned with the
result. is_unimodular is a parameter (LinearAlgebra.hh). -/
def call_lattice (is_unimodular : Matrix3d → ℚ → Bool) (self : LatticeIsEquivalent)
    (other : Lattice) : Bool × LatticeIsEquivalent :=
  let m_U : Matrix3d :=
    Matrix3d.mul (Matrix3d.inverse other.lat_column_mat) self.m_lat.lat_column_mat
  (is_unimodular m_U self.m_lat.tol, self)

/-- Transcription of operator()(const SymOp &B) const. -/
def call_op (is_unimodular : Matrix3d → ℚ → Bool) (copy_apply : SymOp → Lattice → Lattice)
    (self : LatticeIsEquivalent) (B : SymOp) : Bool × LatticeIsEquivalent :=
  call_lattice is_unimodular self (copy_apply B self.m_lat)

/-- Transcription of operator()(const SymOp &A, const SymOp &B) const: the
check is made by a new object f built on copy_apply(A, m_lat). -/
def call_op_op (is_unimodular : Matrix3d → ℚ → Bool) (copy_apply : SymOp → Lattice → Lattice)
    (uninitialized : Matrix3d) (self : LatticeIsEquivalent) (A B : SymOp) :
    Bool × LatticeIsEquivalent :=
  ((call_lattice is_unimodular (construct (copy_apply A self.m_lat) uninitialized)
      (copy_apply B self.m_lat)).1, self)

/-- Transcription of operator()(const SymOp &B, const Lattice &other) const. -/
def call_op_lattice (is_unimodular : Matrix3d → ℚ → Bool)
    (copy_apply : SymOp → Lattice → Lattice) (self : LatticeIsEquivalent) (B : SymOp)
    (other : Lattice) : Bool × LatticeIsEquivalent :=
  call_lattice is_unimodular self (copy_apply B other)

/-- Transcription of operator()(const SymOp &A, const SymOp &B, const Lattice
&other) const: the object f built on copy_apply(A, m_lat) is not used, the
check is made by (*this). -/
def call_op_op_lattice (is_unimodular : Matrix3d → ℚ → Bool)
    (copy_apply : SymOp → Lattice → Lattice) (uninitialized : Matrix3d)
    (self : LatticeIsEquivalent) (A B : SymOp) (other : Lattice) :
    Bool × LatticeIsEquivalent :=
  let _f := construct (copy_apply A self.m_lat) uninitialized
  call_lattice is_unimodular self (copy_apply B other)

/-- Transcription of U(): the member m_U. -/
def U (self : LatticeIsEquivalent) : Matrix3d := self.m_U

end LatticeIsEquivalent

/-! ### A concrete lattice -/

namespace SmallLattice

/-- The check of a matrix for being unimodular within a tolerance: every
entry within tol of an integer, and the absolute value of the determinant
within tol of 1. -/
def is_unimodular (M : Matrix3d) (tol : ℚ) : Bool :=
  decide (∀ i j, |M i j - round (M i j)| < tol) &&
    decide (|(|Matrix3d.determinant M|) - 1| < tol)

/-- A symmetry operation given by its matrix acts on the lattice vectors. -/
def copy_apply (op : Matrix3d) (lat : Lattice) : Lattice :=
  { lat with lat_column_mat := Matrix3d.mul op lat.lat_column_mat }

/-- The lattice with vectors (1,0,0), (0,2,0), (0,0,1). -/
def lat : Lattice where
  lat_column_mat := ![![1, 0, 0], ![0, 2, 0], ![0, 0, 1]]
  tol := 1 / 100000

/-- The rotation by a quarter turn about the third axis. -/
def rot : Matrix3d := ![![0, -1, 0], ![1, 0, 0], ![0, 0, 1]]

/-- The rotated lattice, with vectors (0,1,0), (-2,0,0), (0,0,1). -/
def rotated : Lattice := copy_apply rot lat

end SmallLattice

/-! ## ClexBasis.hh -/

/-- The data member of ClexBasis that the iteration reads: the collection of
all cluster BasisSets, one vector of BasisSet per cluster orbit. -/
structure ClexBasis (BasisSet : Type) where
  m_bset_tree : List (List BasisSet)

namespace ClexBasis

variable {BasisSet : Type}

/-- Transcription of bset_orbit(orbit_ind): m_bset_tree[orbit_ind]. -/
def bset_orbit (c : ClexBasis BasisSet) (orbit_ind : Nat) : Option (List BasisSet) :=
  c.m_bset_tree.get? orbit_ind

/-- Transcription of begin(): m_bset_tree.cbegin(), the position 0 of the
vector. -/
def begin (_c : ClexBasis BasisSet) : Nat := 0

/-- Transcription of cbegin(): m_bset_tree.cbegin(). -/
def cbegin (_c : ClexBasis BasisSet) : Nat := 0

/-- Transcription of end(): the source returns m_bset_tree.cbegin(). -/
def end_ (_c : ClexBasis BasisSet) : Nat := 0

/-- Transcription of cend(): the source returns m_bset_tree.cbegin(). -/
def cend (_c : ClexBasis BasisSet) : Nat := 0

/-- The orbits a loop from the iterator first to the iterator last visits. -/
def visited (c : ClexBasis BasisSet) (first last : Nat) : List (List BasisSet) :=
  (c.m_bset_tree.drop first).take (last - first)

end ClexBasis

/-! ## clex.cc : chemical references and JSON -/

/-- A JSON value as jsonParser holds it; numbers are exact rationals in
place of doubles, and the members of an object are listed in the order the
iteration visits them (an object holds one member per name). -/
inductive Json where
  | null : Json
  | number (x : ℚ) : Json
  | string (s : String) : Json
  | array (elements : List Json) : Json
  | object (members : List (String × Json)) : Json

namespace Json

/-- Transcription of is_obj(). -/
def is_obj : Json → Bool
  | object _ => true
  | _ => false

/-- The named members the iteration from begin() to end() visits: those of
an object (a value that is no object has no named member). -/
def members : Json → List (String × Json)
  | object ms => ms
  | _ => []

end Json

/-- ChemicalReferenceState: the number of each species (a std::map from
species name to number) and the energy per species. -/
structure ChemicalReferenceState where
  species_num : String → Option ℚ
  energy_per_species : ℚ

/-- The loop of from_json<ChemicalReferenceState> over the members of the
object, on the pair of ref_state and found_value. is_vacancy and the reading
of a double from a JSON value (which may throw) are parameters. -/
def from_json_state_loop (is_vacancy : String → Bool) (get_double : Json → Except String ℚ) :
    List (String × Json) → ChemicalReferenceState × Bool →
      Except String (ChemicalReferenceState × Bool)
  | [], st => Except.ok st
  | (name, value) :: rest, (ref_state, found_value) =>
    if name = "energy_per_species" then
      match get_double value with
      | Except.error e => Except.error e
      | Except.ok x =>
        from_json_state_loop is_vacancy get_double rest
          ({ ref_state with energy_per_species := x }, true)
    else if is_vacancy name then
      Except.error "Error reading chemical reference: Input should not include vacancies"
    else
      match get_double value with
      | Except.error e => Except.error e
      | Except.ok x =>
        from_json_state_loop is_vacancy get_double rest
          ({ ref_state with species_num := map_set ref_state.species_num name x }, found_value)

/-- Transcription of from_json<ChemicalReferenceState>(json): the loop over
the members, then the check of found_value. The state starts with no species
and an energy that is not initialised (the last argument). -/
def from_json_ChemicalReferenceState (is_vacancy : String → Bool)
    (get_double : Json → Except String ℚ) (uninitialized : ℚ) (json : Json) :
    Except String ChemicalReferenceState :=
  match from_json_state_loop is_vacancy get_double json.members
      ({ species_num := fun _ => none, energy_per_species := uninitialized }, false) with
  | Except.error e => Except.error e
  | Except.ok (ref_state, found_value) =>
    if !found_value then
      Except.error "Error reading chemical reference: No 'energy_per_species' found"
    else Except.ok ref_state

/-- An iterator of a std::map: the map object it belongs to, and its
position among the entries of that map (the number of entries for end()). -/
structure MapIterator where
  container : Nat
  position : Nat
deriving DecidableEq

/-- The loop "for(it = first; it != stop; ++it) body(*it)" over the entries
of the map container, from the position given: entries are the entries from
that position on. Reaching the end of the map without meeting stop
dereferences end(), which is undefined and rendered as an error. -/
def map_for_loop {V A : Type} (container : Nat) (stop : MapIterator)
    (body : String × V → A → A) : Nat → List (String × V) → A → Except String A
  | position, [], acc =>
    if MapIterator.mk container position = stop then Except.ok acc
    else Except.error "undefined: end() of the map dereferenced"
  | position, entry :: rest, acc =>
    if MapIterator.mk container position = stop then Except.ok acc
    else map_for_loop container stop body (position + 1) rest (body entry acc)

/-- ChemicalReference, as far as to_json reads it: the molecule names of
prim, the global reference and the per-supercell and per-configuration
references (maps from name to hyperplane vector), and the reference states
they were given by, where they were. -/
structure ChemicalReference where
  species_order : List String
  global : List ℚ
  global_ref_states : List ChemicalReferenceState
  supercell : List (String × List ℚ)
  supercell_ref_states : String → Option (List ChemicalReferenceState)
  config : List (String × List ℚ)
  config_ref_states : String → Option (List ChemicalReferenceState)

namespace ChemicalReference

/-- The map object ref.supercell() (its identity among the maps of ref). -/
def supercell_map : Nat := 0

/-- The map object ref.config(). -/
def config_map : Nat := 1

/-- The body of both loops of to_json: the member of the name of the entry is
written, from the reference states of that name if there are, else from the
hyperplane vector of the entry. -/
def write_entry (to_json_vector : List ℚ → Json)
    (to_json_states : List ChemicalReferenceState → Json)
    (ref_states : String → Option (List ChemicalReferenceState))
    (entry : String × List ℚ) (members : List (String × Json)) : List (String × Json) :=
  match ref_states entry.1 with
  | none => members ++ [(entry.1, to_json_vector entry.2)]
  | some states => members ++ [(entry.1, to_json_states states)]

/-- Transcription of to_json(const ChemicalReference &ref, jsonParser &json).
The loop over ref.supercell() ends at ref.supercell().end(); the loop over
ref.config() starts at ref.config().begin() and is compared with
ref.supercell().end() as well, as in the source. The writers of the values
(container.hh) are parameters. -/
def to_json (to_json_names : List String → Json) (to_json_vector : List ℚ → Json)
    (to_json_states : List ChemicalReferenceState → Json) (ref : ChemicalReference) :
    Except String Json :=
  match map_for_loop supercell_map ⟨supercell_map, ref.supercell.length⟩
      (write_entry to_json_vector to_json_states ref.supercell_ref_states) 0 ref.supercell [] with
  | Except.error e => Except.error e
  | Except.ok s_json =>
    match map_for_loop config_map ⟨supercell_map, ref.supercell.length⟩
        (write_entry to_json_vector to_json_states ref.config_ref_states) 0 ref.config [] with
    | Except.error e => Except.error e
    | Except.ok c_json =>
      Except.ok (Json.object
        [("species_order", to_json_names ref.species_order),
         ("global", if ref.global_ref_states.isEmpty then to_json_vector ref.global
                    else to_json_states ref.global_ref_states),
         ("supercell", Json.object s_json),
         ("config", Json.object c_json)])

end ChemicalReference

/-! ### Concrete JSON helpers -/

namespace SmallJson

/-- The names of a vacancy. -/
def is_vacancy (name : String) : Bool :=
  name = "Va" || name = "VA" || name = "va"

/-- Reading of a double: the number of a number, a failure for another
value. -/
def get_double : Json → Except String ℚ
  | Json.number x => Except.ok x
  | _ => Except.error "value type is not real"

/-- The members of the reference state {"A": 3, "energy_per_species": 2}. -/
def state_members : List (String × Json) :=
  [("A", Json.number 3), ("energy_per_species", Json.number 2)]

/-- The members of the object {"A": "x", "energy_per_species": 2}: the value
of "A" is a string. -/
def unreadable_state_members : List (String × Json) :=
  [("A", Json.string "x"), ("energy_per_species", Json.number 2)]

/-- A chemical reference without supercell and configuration references. -/
def plain_reference : ChemicalReference where
  species_order := ["A", "B"]
  global := [0, 0]
  global_ref_states := []
  supercell := []
  supercell_ref_states := fun _ => none
  config := []
  config_ref_states := fun _ => none

end SmallJson

/-! ## std::next_permutation -/

/-- The exchange step of std::next_permutation: in a range, the last element
that the pivot x is less than is replaced by x; the result is that element
and the range after the replacement (none when x is less than no element). -/
def swap_last_greater {α : Type} (lt : α → α → Bool) (x : α) : List α → Option (α × List α)
  | [] => none
  | y :: ys =>
    match swap_last_greater lt x ys with
    | some (z, ys') => some (z, y :: ys')
    | none => if lt x y then some (y, x :: ys) else none

/-- The search of std::next_permutation for the last position i with
a[i] < a[i+1]: when there is one, a[i] is exchanged with the last element
greater than it and the range after position i is reversed; none when the
range has no such position (it is in descending order). -/
def next_permutation_step {α : Type} (lt : α → α → Bool) : List α → Option (List α)
  | [] => none
  | x :: rest =>
    match next_permutation_step lt rest with
    | some rest' => some (x :: rest')
    | none =>
      match rest with
      | [] => none
      | y :: _ =>
        if lt x y then
          match swap_last_greater lt x rest with
          | some (z, rest') => some (z :: rest'.reverse)
          | none => none
        else none

/-- Transcription of std::next_permutation(first, last, comp) over a range
given as a list: the flag returned and the range afterwards. When there is
no next permutation the range is reversed, which leaves it in ascending
order, and false is returned. -/
def next_permutation {α : Type} (lt : α → α → Bool) (l : List α) : Bool × List α :=
  match next_permutation_step lt l with
  | some l' => (true, l')
  | none => (false, l.reverse)

/-! ## DiffusionTransformation.hh, DiffusionTransformationEnum.cc -/

namespace Kinetics

/-- An OccupationTransformation as the enumerator writes it: the site and the
occupant indices before and after (OccupationTransformation.hh is not among
the sources; these are the three members the enumerator sets). -/
structure OccupationTransformation where
  uccoord : UnitCellCoord
  from_value : Nat
  to_value : Nat
deriving DecidableEq

/-- SpecieLocation: the site, the occupant index and the position of the
specie in the molecule. -/
structure SpecieLocation where
  uccoord : UnitCellCoord
  occ : Nat
  pos : Nat
deriving DecidableEq

/-- SpecieTrajectory: where one specie moves from and to. -/
structure SpecieTrajectory where
  from_loc : SpecieLocation
  to_loc : SpecieLocation
deriving DecidableEq

/-- The two vectors a DiffusionTransformation holds, m_occ_transform and
m_specie_traj. -/
structure DiffusionTransformation where
  occ_transform : List OccupationTransformation
  specie_traj : List SpecieTrajectory
deriving DecidableEq

/-- What the enumerator uses and the sources do not contain. The Counter
class (Counter.hh) is given by its operations: construction from initial,
final and increment values, valid(), operator() and operator++. The prim is
read through the number of allowed occupants of a site and the number of
species of an occupant. The remaining members are the comparison of
SpecieLocation used by std::next_permutation and the two validity checks of
DiffusionTransformation, whose bodies are in DiffusionTransformation.cc. -/
structure Collaborators (κ : Type) where
  counter_make : List Nat → List Nat → List Nat → κ
  counter_valid : κ → Bool
  counter_value : κ → List Nat
  counter_incr : κ → κ
  occupant_count : UnitCellCoord → Nat
  mol_size : UnitCellCoord → Nat → Nat
  loc_lt : SpecieLocation → SpecieLocation → Bool
  is_valid_occ_transform : List OccupationTransformation → Bool
  is_valid_specie_traj : DiffusionTransformation → Bool

/-- Modelled from the spec: DiffusionTransformation::is_valid, a valid
occupation transform and a valid specie trajectory (the body is in
DiffusionTransformation.cc, not among the sources). -/
def DiffusionTransformation.is_valid {κ : Type} (E : Collaborators κ)
    (d : DiffusionTransformation) : Bool :=
  E.is_valid_occ_transform d.occ_transform && E.is_valid_specie_traj d

/-- The data members of DiffusionTransformationEnum, with the flag and the
step count of the enumerator base class. -/
structure DiffusionTransformationEnum (κ : Type) where
  m_cluster : IntegralCluster
  m_occ_counter : κ
  m_from_loc : List SpecieLocation
  m_to_loc : List SpecieLocation
  m_current : DiffusionTransformation
  m_valid : Bool
  m_step : Nat

namespace DiffusionTransformationEnum

variable {κ : Type}

/-- Transcription of _init_occ_counter: a counter over 2N values, from all 0
to the last occupant index of each site (repeated for the to values), in
steps of 1. Index is rendered as Nat; a site has at least one occupant. -/
def init_occ_counter (E : Collaborators κ) (cluster : IntegralCluster) : κ :=
  let N := cluster.length
  let init_occ := List.replicate (N * 2) 0
  let final_half := cluster.map (fun uccoord => E.occupant_count uccoord - 1)
  let final_occ := final_half ++ final_half
  let incr := List.replicate (N * 2) 1
  E.counter_make init_occ final_occ incr

/-- The loop of _init_loc from site i on: for each site the locations of all
species of the occupant occ_values[i + offset]. A read past the end of
occ_values is rendered as 0. -/
def init_loc_from (E : Collaborators κ) (occ_values : List Nat) (offset : Nat) :
    Nat → List UnitCellCoord → List SpecieLocation
  | _, [] => []
  | i, uccoord :: rest =>
    let occ := occ_values.getD (i + offset) 0
    let mol_size := E.mol_size uccoord occ
    (List.range mol_size).map (fun j => SpecieLocation.mk uccoord occ j) ++
      init_loc_from E occ_values offset (i + 1) rest

/-- Transcription of _init_loc. -/
def init_loc (E : Collaborators κ) (cluster : IntegralCluster) (occ_values : List Nat)
    (offset : Nat) : List SpecieLocation :=
  init_loc_from E occ_values offset 0 cluster

/-- Transcription of _init_from_loc: offset 0. -/
def init_from_loc (E : Collaborators κ) (cluster : IntegralCluster) (occ_values : List Nat) :
    List SpecieLocation :=
  init_loc E cluster occ_values 0

/-- Transcription of _init_to_loc: offset N. -/
def init_to_loc (E : Collaborators κ) (cluster : IntegralCluster) (occ_values : List Nat) :
    List SpecieLocation :=
  init_loc E cluster occ_values cluster.length

/-- The loop of _update_current_occ_transform from index i on: the from and
to values of each entry are read from the counter at i and i + N. -/
def update_occ_from (values : List Nat) (N : Nat) :
    Nat → List OccupationTransformation → List OccupationTransformation
  | _, [] => []
  | i, t :: rest =>
    { t with from_value := values.getD i 0, to_value := values.getD (i + N) 0 } ::
      update_occ_from values N (i + 1) rest

/-- Transcription of _update_current_occ_transform. -/
def update_current_occ_transform (E : Collaborators κ) (e : DiffusionTransformationEnum κ) :
    DiffusionTransformationEnum κ :=
  { e with m_current :=
      { e.m_current with occ_transform :=
          (update_occ_from (E.counter_value e.m_occ_counter) e.m_cluster.length 0
            e.m_current.occ_transform) } }

/-- Transcription of _set_current_loc: one trajectory per from location,
going nowhere yet. -/
def set_current_loc (e : DiffusionTransformationEnum κ) : DiffusionTransformationEnum κ :=
  { e with m_current :=
      { e.m_current with specie_traj := e.m_from_loc.map (fun t => SpecieTrajectory.mk t t) } }

/-- The loop of _update_current_to_loc: the to location of each trajectory is
read from the iterator over m_to_loc; a read past its end leaves the
remaining trajectories as they are. -/
def update_to_loc : List SpecieTrajectory → List SpecieLocation → List SpecieTrajectory
  | [], _ => []
  | t :: ts, [] => t :: ts
  | t :: ts, l :: ls => { t with to_loc := l } :: update_to_loc ts ls

/-- Transcription of _update_current_to_loc. -/
def update_current_to_loc (e : DiffusionTransformationEnum κ) : DiffusionTransformationEnum κ :=
  { e with m_current :=
      { e.m_current with specie_traj := update_to_loc e.m_current.specie_traj e.m_to_loc } }

/-- Transcription of _set_current. -/
def set_current (E : Collaborators κ) (e : DiffusionTransformationEnum κ) :
    DiffusionTransformationEnum κ :=
  let e1 := { e with m_current :=
      { e.m_current with occ_transform :=
          e.m_cluster.map (fun uccoord => OccupationTransformation.mk uccoord 0 0) } }
  update_current_to_loc (set_current_loc (update_current_occ_transform E e1))

/-- The _invalidate of the enumerator base class. -/
def invalidate (e : DiffusionTransformationEnum κ) : DiffusionTransformationEnum κ :=
  { e with m_valid := false }

/-- The enumerator base class sets the current object and becomes valid
(its member function _initialize). -/
def init_current (e : DiffusionTransformationEnum κ) : DiffusionTransformationEnum κ :=
  { e with m_valid := true }

/-- The _set_step of the enumerator base class. -/
def set_step (n : Nat) (e : DiffusionTransformationEnum κ) : DiffusionTransformationEnum κ :=
  { e with m_step := n }

/-- The _increment_step of the enumerator base class. -/
def increment_step (e : DiffusionTransformationEnum κ) : DiffusionTransformationEnum κ :=
  { e with m_step := e.m_step + 1 }

/-- The inner do-while of increment: m_occ_counter++ and
_update_current_occ_transform, repeated while the counter is valid and the
occupation transform is not. The first argument bounds the number of
passes; none is returned when it is used up. -/
def next_occ_values (E : Collaborators κ) :
    Nat → DiffusionTransformationEnum κ → Option (DiffusionTransformationEnum κ)
  | 0, _ => none
  | fuel + 1, e =>
    let e1 := update_current_occ_transform E
      { e with m_occ_counter := E.counter_incr e.m_occ_counter }
    if E.counter_valid e1.m_occ_counter &&
        !E.is_valid_occ_transform e1.m_current.occ_transform then
      next_occ_values E fuel e1
    else some e1

/-- The statements of increment that follow a successful
std::next_permutation: m_to_loc holds the next permutation and
_update_current_to_loc writes it to the trajectories. -/
def take_permutation (e : DiffusionTransformationEnum κ) (to_loc : List SpecieLocation) :
    DiffusionTransformationEnum κ :=
  update_current_to_loc { e with m_to_loc := to_loc }

/-- The else branch of increment once the counter holds the next valid
from/to occupation values: m_from_loc and m_to_loc are set from the counter,
then _update_current_occ_transform, _set_current_loc and, after the branch,
_update_current_to_loc. -/
def take_occ_values (E : Collaborators κ) (e : DiffusionTransformationEnum κ) :
    DiffusionTransformationEnum κ :=
  let e1 := { e with
    m_from_loc := init_from_loc E e.m_cluster (E.counter_value e.m_occ_counter)
    m_to_loc := init_to_loc E e.m_cluster (E.counter_value e.m_occ_counter) }
  update_current_to_loc (set_current_loc (update_current_occ_transform E e1))

/-- Transcription of increment: the outer do-while, with the early return
when the counter is used up, and _increment_step after the loop. The first
argument bounds the number of passes of each loop; none is returned when it
is used up. -/
def increment (E : Collaborators κ) :
    Nat → DiffusionTransformationEnum κ → Option (DiffusionTransformationEnum κ)
  | 0, _ => none
  | fuel + 1, e =>
    let perm := next_permutation E.loc_lt e.m_to_loc
    if perm.1 then
      let e1 := take_permutation e perm.2
      if E.is_valid_specie_traj e1.m_current then some (increment_step e1)
      else increment E fuel e1
    else
      match next_occ_values E fuel { e with m_to_loc := perm.2 } with
      | none => none
      | some e1 =>
        if E.counter_valid e1.m_occ_counter then
          let e2 := take_occ_values E e1
          if E.is_valid_specie_traj e2.m_current then some (increment_step e2)
          else increment E fuel e2
        else some (invalidate e1)

/-- The constructor from a cluster up to the call of _set_current: the
counter and the locations are set and the first DiffusionTransformation is
written. The enumerator base class starts not valid and at step 0; m_current
starts as the empty DiffusionTransformation of the prim. -/
def first_current (E : Collaborators κ) (clust : IntegralCluster) :
    DiffusionTransformationEnum κ :=
  let counter := init_occ_counter E clust
  set_current E
    { m_cluster := clust
      m_occ_counter := counter
      m_from_loc := init_from_loc E clust (E.counter_value counter)
      m_to_loc := init_to_loc E clust (E.counter_value counter)
      m_current := { occ_transform := [], specie_traj := [] }
      m_valid := false
      m_step := 0 }

/-- Transcription of the constructor from a cluster: after _set_current,
increment is called when the first DiffusionTransformation is not valid;
then the enumerator is invalidated when the counter is used up, and set to
its current object at step 0 otherwise. The first argument is the bound
passed to increment. -/
def construct (E : Collaborators κ) (fuel : Nat) (clust : IntegralCluster) :
    Option (DiffusionTransformationEnum κ) :=
  let e1 := first_current E clust
  match (if e1.m_current.is_valid E then some e1 else increment E fuel e1) with
  | none => none
  | some e2 =>
    if E.counter_valid e2.m_occ_counter then some (set_step 0 (init_current e2))
    else some (invalidate e2)

/-- The state the enumerator is in after a call: it has been invalidated, or
its current DiffusionTransformation is valid. -/
def current_ok (E : Collaborators κ) (e : DiffusionTransformationEnum κ) : Prop :=
  e.m_valid = false ∨ e.m_current.is_valid E = true

end DiffusionTransformationEnum

/-- What is assumed of the collaborators: a new counter holds its initial
values, a counter that is not valid stays so, a valid counter cannot be
incremented for ever, the comparison of SpecieLocation is a strict weak
order (the precondition of std::next_permutation), and an occupation
transform that changes no site is valid. -/
structure Collaborators.Lawful {κ : Type} (E : Collaborators κ) : Prop where
  counter_initial : ∀ i f s, E.counter_value (E.counter_make i f s) = i
  counter_stays_invalid : ∀ c, E.counter_valid c = false →
    E.counter_valid (E.counter_incr c) = false
  counter_exhausts : ∃ remaining : κ → Nat, ∀ c, E.counter_valid c = true →
    remaining (E.counter_incr c) < remaining c
  loc_lt_strict : StrictWeakOrder E.loc_lt
  unchanged_is_valid : ∀ ot : List OccupationTransformation,
    (∀ t ∈ ot, t.from_value = t.to_value) → E.is_valid_occ_transform ot = true

end Kinetics
namespace Kinetics

/-- The comparison of SpecieLocation: the header declares _tuple() as
(uccoord, occ, pos), and tuples compare lexicographically; sites compare by
unit cell, then sublattice. -/
def SpecieLocation.lt (A B : SpecieLocation) : Bool :=
  lex_site_lt A.uccoord B.uccoord ||
    (!lex_site_lt B.uccoord A.uccoord &&
      (decide (A.occ < B.occ) || (!decide (B.occ < A.occ) && decide (A.pos < B.pos))))

/-! ### A nearest-neighbour pair on a binary sublattice -/

namespace PairHop

/-- A counter over vectors of indices that runs from all 0 in steps of 1, the
first value running fastest: the final values, the current values and the
flag returned by valid(). -/
structure UnitCounter where
  m_final : List Nat
  m_current : List Nat
  m_is_valid : Bool
deriving DecidableEq

/-- One step of the counter on its values: the first value that can still
grow is incremented and those before it start again from 0; none when no
value can grow. -/
def incr_digits : List Nat → List Nat → Option (List Nat)
  | c :: cs, f :: fs =>
    if c + 1 ≤ f then some ((c + 1) :: cs)
    else (incr_digits cs fs).map (fun d => 0 :: d)
  | _, _ => none

/-- The operator++ of the counter: past the last combination of values the
counter is not valid any more and holds its initial values. -/
def UnitCounter.incr (c : UnitCounter) : UnitCounter :=
  if c.m_is_valid then
    match incr_digits c.m_current c.m_final with
    | some d => { c with m_current := d }
    | none => { c with m_current := c.m_current.map (fun _ => 0), m_is_valid := false }
  else c

/-- The number of steps the values can still take. -/
def digits_left : List Nat → List Nat → Nat
  | c :: cs, f :: fs => (f - c) + (f + 1) * digits_left cs fs
  | _, _ => 0

/-- The number of times a counter can still be incremented. -/
def UnitCounter.remaining (c : UnitCounter) : Nat :=
  if c.m_is_valid then digits_left c.m_current c.m_final + 1 else 0

/-- The number of times the species s (the occupant index of a site whose
occupants are single atoms) occurs among occupant indices. -/
def species_count (values : List Nat) (s : Nat) : Nat := values.count s

/-- The occupation transform keeps the number of atoms of both species. -/
def conserves_species (ot : List OccupationTransformation) : Bool :=
  (List.range 2).all (fun s =>
    species_count (ot.map (fun t => t.from_value)) s ==
      species_count (ot.map (fun t => t.to_value)) s)

/-- Every specie arrives as the species it left as, and none stays on its
site. -/
def moves_every_specie (d : DiffusionTransformation) : Bool :=
  d.specie_traj.all (fun t => t.from_loc.occ == t.to_loc.occ) &&
    d.specie_traj.all (fun t => t.from_loc.uccoord != t.to_loc.uccoord)

/-- The collaborators of the example: every site allows two occupants, each
a single atom. -/
def env : Collaborators UnitCounter where
  counter_make := fun init_values final_values _ =>
    { m_final := final_values, m_current := init_values, m_is_valid := !init_values.isEmpty }
  counter_valid := fun c => c.m_is_valid
  counter_value := fun c => c.m_current
  counter_incr := UnitCounter.incr
  occupant_count := fun _ => 2
  mol_size := fun _ _ => 1
  loc_lt := SpecieLocation.lt
  is_valid_occ_transform := conserves_species
  is_valid_specie_traj := moves_every_specie

/-- Two neighbouring sites of sublattice 0. -/
def pair : IntegralCluster :=
  [{ sublat := 0, unitcell := (0, 0, 0) }, { sublat := 0, unitcell := (1, 0, 0) }]

end PairHop

end Kinetics

/-! ## ClexBasisWriter_impl.hh : dependency_neighborhood -/

/-- An orbit of clusters as dependency_neighborhood reads it: its
sym_compare and its equivalents, in the order the orbit is iterated. -/
structure ClusterOrbit where
  sym_compare : SymCompare IntegralCluster
  equivalents : List IntegralCluster

/-- A std::map from UnitCellCoord to std::set of UnitCellCoord: the set
stored under a key, as the list of its members, or none for a key that is
not in the map. -/
abbrev NeighborhoodMap := UnitCellCoord → Option (List UnitCellCoord)

/-- The statement result[key].insert(value): operator[] makes an empty set
for a key that is not in the map yet, and insert adds a value that the set
does not hold. -/
def map_set_insert (result : NeighborhoodMap) (key value : UnitCellCoord) : NeighborhoodMap :=
  fun k =>
    if k = key then
      let s := (result key).getD []
      some (if value ∈ s then s else s ++ [value])
    else result k

/-- The search for a first site among the equivalents of one orbit: the
first site of the first cluster that has one. -/
def first_site_of_equivalents : List IntegralCluster → Option UnitCellCoord
  | [] => none
  | [] :: rest => first_site_of_equivalents rest
  | (ucc :: _) :: _ => some ucc

/-- The first loop of dependency_neighborhood: ucc_ptr, the first site met
in the range, or none (the null pointer) when the range has no site. -/
def first_site : List ClusterOrbit → Option UnitCellCoord
  | [] => none
  | orbit :: rest =>
    match first_site_of_equivalents orbit.equivalents with
    | some ucc => some ucc
    | none => first_site rest

/-- Modelled from the spec: the prototype of empty_orbit, the orbit that the
identity alone generates from the empty cluster (the constructor of Orbit is
not among the sources): its only image e_g = sym_compare.prepare(apply_sym(g,
prototype)) is the prepared empty cluster. -/
def empty_orbit_prototype (sym_compare : SymCompare IntegralCluster) : IntegralCluster :=
  sym_compare.prepare []

/-- The innermost loop: result[key].insert(ucc2 + trans) for every site ucc2
of the cluster equiv. -/
def insert_translated (key : UnitCellCoord) (trans : UnitCell) :
    List UnitCellCoord → NeighborhoodMap → NeighborhoodMap
  | [], result => result
  | ucc2 :: rest, result =>
    insert_translated key trans rest
      (map_set_insert result key (UnitCellCoord.translate trans ucc2))

/-- The body of the loop over the sites ucc of equiv: the test cluster is the
prototype of empty_orbit with ucc added, prepared by the sym_compare of the
orbit; its first site is the key and the translation that was applied to ucc
is applied to every site of equiv. test.element(0) of an empty cluster is
rendered as none. -/
def site_step (prototype : IntegralCluster) (orbit : ClusterOrbit) (equiv : IntegralCluster)
    (ucc : UnitCellCoord) (result : NeighborhoodMap) : Option NeighborhoodMap :=
  match orbit.sym_compare.prepare (prototype ++ [ucc]) with
  | [] => none
  | key :: _ =>
    let trans := key.unitcell - ucc.unitcell
    some (insert_translated key trans equiv result)

/-- The loop over the sites of one cluster equiv. -/
def sites_loop (prototype : IntegralCluster) (orbit : ClusterOrbit) (equiv : IntegralCluster) :
    List UnitCellCoord → NeighborhoodMap → Option NeighborhoodMap
  | [], result => some result
  | ucc :: rest, result =>
    match site_step prototype orbit equiv ucc result with
    | none => none
    | some result' => sites_loop prototype orbit equiv rest result'

/-- The loop over the equivalents of one orbit. -/
def equivalents_loop (prototype : IntegralCluster) (orbit : ClusterOrbit) :
    List IntegralCluster → NeighborhoodMap → Option NeighborhoodMap
  | [], result => some result
  | equiv :: rest, result =>
    match sites_loop prototype orbit equiv equiv result with
    | none => none
    | some result' => equivalents_loop prototype orbit rest result'

/-- The loop over the orbits of the range. -/
def orbits_loop (prototype : IntegralCluster) :
    List ClusterOrbit → NeighborhoodMap → Option NeighborhoodMap
  | [], result => some result
  | orbit :: rest, result =>
    match equivalents_loop prototype orbit orbit.equivalents result with
    | none => none
    | some result' => orbits_loop prototype rest result'

/-- Transcription of dependency_neighborhood over a range of orbits given as
a list: the empty map for an empty range and for a range without sites;
otherwise the loops over each site of each cluster of each orbit, with the
prototype of the empty orbit made from the sym_compare of the first orbit. -/
def dependency_neighborhood (orbits : List ClusterOrbit) : Option NeighborhoodMap :=
  match orbits with
  | [] => some (fun _ => none)
  | first :: _ =>
    match first_site orbits with
    | none => some (fun _ => none)
    | some _ => orbits_loop (empty_orbit_prototype first.sym_compare) orbits (fun _ => none)

/-- What dependency_neighborhood relies on in a sym_compare of clusters:
prepare leaves the empty cluster empty, prepares a cluster of one site by a
lattice translation of the site, and prepares the result to itself. -/
structure PreparesSites (sym_compare : SymCompare IntegralCluster) : Prop where
  prepare_nil : sym_compare.prepare [] = []
  prepare_site : ∀ ucc, ∃ trans, sym_compare.prepare [ucc] = [UnitCellCoord.translate trans ucc]
  prepare_idem : ∀ ucc, sym_compare.prepare (sym_compare.prepare [ucc]) = sym_compare.prepare [ucc]

/-- A pair of neighbouring sites and its image one cell further, as an orbit
under prim periodic comparison. -/
def pair_orbit : ClusterOrbit where
  sym_compare := PrimPeriodicSymCompare lex_site_lt lex_cluster_lt
  equivalents :=
    [[{ sublat := 0, unitcell := (0, 0, 0) }, { sublat := 1, unitcell := (0, 0, 0) }],
     [{ sublat := 1, unitcell := (2, 0, 0) }, { sublat := 0, unitcell := (3, 0, 0) }]]

/-! # Properties -/

/-! ## Maximum element -/

theorem max_element_from_map {α β : Type} (comp : β → β → Bool) (f : α → β) (x : α)
    (l : List α) :
    max_element_from comp (f x) (l.map f) =
      f (max_element_from (fun a b => comp (f a) (f b)) x l) := by
  induction l generalizing x with
  | nil => rfl
  | cons y ys ih =>
    simp only [List.map_cons, max_element_from]
    split
    · exact ih y
    · exact ih x

theorem max_element_map {α β : Type} (comp : β → β → Bool) (f : α → β) (l : List α) :
    max_element comp (l.map f) = (max_element (fun a b => comp (f a) (f b)) l).map f := by
  cases l with
  | nil => rfl
  | cons x xs => simp [max_element, max_element_from_map]

theorem max_element_from_mem {α : Type} (comp : α → α → Bool) (x : α) (l : List α) :
    max_element_from comp x l ∈ x :: l := by
  induction l generalizing x with
  | nil => simp [max_element_from]
  | cons y ys ih =>
    simp only [max_element_from]
    split
    · exact List.mem_cons_of_mem _ (ih y)
    · have := ih x
      simp only [List.mem_cons] at this ⊢
      rcases this with h | h
      · exact Or.inl h
      · exact Or.inr (Or.inr h)

theorem max_element_mem {α : Type} (comp : α → α → Bool) (l : List α) (m : α)
    (h : max_element comp l = some m) : m ∈ l := by
  cases l with
  | nil => simp [max_element] at h
  | cons x xs =>
    simp only [max_element, Option.some.injEq] at h
    exact h ▸ max_element_from_mem comp x xs

theorem max_element_isSome {α : Type} (comp : α → α → Bool) (l : List α) (h : l ≠ []) :
    ∃ m, max_element comp l = some m := by
  cases l with
  | nil => exact absurd rfl h
  | cons x xs => exact ⟨_, rfl⟩

/-! ## Strict weak orders -/

namespace StrictWeakOrder

variable {α : Type} {lt : α → α → Bool}

theorem asymm (h : StrictWeakOrder lt) {a b : α} (hab : lt a b = true) : lt b a = false := by
  cases hba : lt b a with
  | false => rfl
  | true =>
    have := h.trans a b a hab hba
    rw [h.irrefl] at this
    cases this

theorem neg_trans (h : StrictWeakOrder lt) {a b c : α} (hab : lt a b = false)
    (hbc : lt b c = false) : lt a c = false := by
  cases hac : lt a c with
  | false => rfl
  | true =>
    have hba : lt b a = false := by
      cases hba : lt b a with
      | false => rfl
      | true => rw [h.trans b a c hba hac] at hbc; cases hbc
    have hcb : lt c b = false := by
      cases hcb : lt c b with
      | false => rfl
      | true => rw [h.trans a c b hac hcb] at hab; cases hab
    rw [h.incomp_trans a b c hab hba hbc hcb] at hac
    cases hac

end StrictWeakOrder

namespace SymCompare

variable {Element : Type}

theorem equal_iff (sc : SymCompare Element) (a b : Element) :
    sc.equal a b = true ↔ sc.compare a b = false ∧ sc.compare b a = false := by
  unfold equal
  cases sc.compare a b <;> cases sc.compare b a <;> simp

theorem equal_refl (sc : SymCompare Element) (h : StrictWeakOrder sc.compare) (a : Element) :
    sc.equal a a = true := by
  rw [equal_iff]
  exact ⟨h.irrefl a, h.irrefl a⟩

theorem equal_comm (sc : SymCompare Element) {a b : Element} (hab : sc.equal a b = true) :
    sc.equal b a = true := by
  rw [equal_iff] at hab ⊢
  exact ⟨hab.2, hab.1⟩

theorem equal_trans (sc : SymCompare Element) (h : StrictWeakOrder sc.compare)
    {a b c : Element} (hab : sc.equal a b = true) (hbc : sc.equal b c = true) :
    sc.equal a c = true := by
  rw [equal_iff] at hab hbc ⊢
  exact ⟨h.neg_trans hab.1 hbc.1, h.neg_trans hbc.2 hab.2⟩

theorem compare_congr_left (sc : SymCompare Element) (h : StrictWeakOrder sc.compare)
    {a b : Element} (c : Element) (hab : sc.equal a b = true) :
    sc.compare a c = sc.compare b c := by
  rw [equal_iff] at hab
  cases hac : sc.compare a c with
  | false => exact (h.neg_trans hab.2 hac).symm
  | true =>
    cases hbc : sc.compare b c with
    | true => rfl
    | false => rw [h.neg_trans hab.1 hbc] at hac; cases hac

theorem compare_congr_right (sc : SymCompare Element) (h : StrictWeakOrder sc.compare)
    {a b : Element} (c : Element) (hab : sc.equal a b = true) :
    sc.compare c a = sc.compare c b := by
  rw [equal_iff] at hab
  cases hca : sc.compare c a with
  | false => exact (h.neg_trans hca hab.1).symm
  | true =>
    cases hcb : sc.compare c b with
    | true => rfl
    | false => rw [h.neg_trans hcb hab.2] at hca; cases hca

end SymCompare

theorem max_element_from_greatest {α : Type} (comp : α → α → Bool)
    (h : StrictWeakOrder comp) (x : α) (l : List α) :
    ∀ y ∈ x :: l, comp (max_element_from comp x l) y = false := by
  induction l generalizing x with
  | nil =>
    intro y hy
    simp only [List.mem_singleton] at hy
    subst hy
    exact h.irrefl _
  | cons z zs ih =>
    intro y hy
    simp only [max_element_from]
    cases hxz : comp x z with
    | true =>
      simp only [if_true]
      have ih2 := ih z
      rcases List.mem_cons.1 hy with rfl | hy2
      · have hz := ih2 z (List.mem_cons_self _ _)
        exact h.neg_trans hz (h.asymm hxz)
      · exact ih2 y hy2
    | false =>
      simp only [Bool.false_eq_true, if_false]
      have ih2 := ih x
      rcases List.mem_cons.1 hy with rfl | hy2
      · exact ih2 _ (List.mem_cons_self _ _)
      · rcases List.mem_cons.1 hy2 with rfl | hy3
        · exact h.neg_trans (ih2 x (List.mem_cons_self _ _)) hxz
        · exact ih2 y (List.mem_cons_of_mem _ hy3)

theorem max_element_greatest {α : Type} (comp : α → α → Bool) (h : StrictWeakOrder comp)
    (l : List α) (m : α) (hm : max_element comp l = some m) :
    ∀ y ∈ l, comp m y = false := by
  cases l with
  | nil => simp [max_element] at hm
  | cons x xs =>
    simp only [max_element, Option.some.injEq] at hm
    subst hm
    exact max_element_from_greatest comp h x xs

namespace SymSetting

variable {Element Op : Type}

theorem canonical_form_eq_image_to_canonical (S : SymSetting Element Op) (e : Element) :
    S.canonical_form e = (S.to_canonical e).map (S.image e) := by
  unfold canonical_form to_canonical images
  exact max_element_map _ _ _

theorem equal_symm (sc : SymCompare Element) (a b : Element) :
    sc.equal a b = sc.equal b a := by
  unfold SymCompare.equal
  exact Bool.and_comm _ _

theorem prepared_equal_refl (S : SymSetting Element Op) (h : S.CompatibleAction) (a : Element) :
    S.prepared_equal a a = true :=
  S.sym_compare.equal_refl h.swo _

theorem prepared_equal_comm (S : SymSetting Element Op) {a b : Element}
    (hab : S.prepared_equal a b = true) : S.prepared_equal b a = true :=
  S.sym_compare.equal_comm hab

theorem prepared_equal_trans (S : SymSetting Element Op) (h : S.CompatibleAction)
    {a b c : Element} (hab : S.prepared_equal a b = true) (hbc : S.prepared_equal b c = true) :
    S.prepared_equal a c = true :=
  S.sym_compare.equal_trans h.swo hab hbc

theorem equal_of_prepared_equal (S : SymSetting Element Op) (h : S.CompatibleAction)
    (hprep : ∀ a, S.sym_compare.equal (S.sym_compare.prepare a) a = true) {a b : Element}
    (hab : S.prepared_equal a b = true) : S.sym_compare.equal a b = true :=
  S.sym_compare.equal_trans h.swo
    (S.sym_compare.equal_trans h.swo (S.sym_compare.equal_comm (hprep a)) hab) (hprep b)

theorem generating_group_ne_nil (S : SymSetting Element Op) (h : S.IsGroup) :
    S.generating_group ≠ [] :=
  List.ne_nil_of_mem h.identity_mem

theorem to_canonical_mem (S : SymSetting Element Op) (e : Element) (g : Op)
    (h : S.to_canonical e = some g) : g ∈ S.generating_group :=
  max_element_mem _ _ _ h

theorem canonical_form_of_to_canonical (S : SymSetting Element Op) (e : Element) (g : Op)
    (h : S.to_canonical e = some g) : S.canonical_form e = some (S.image e g) := by
  rw [canonical_form_eq_image_to_canonical, h]
  rfl

theorem exists_to_canonical (S : SymSetting Element Op) (e : Element)
    (hne : S.generating_group ≠ []) : ∃ g, S.to_canonical e = some g :=
  max_element_isSome _ _ hne

theorem canonical_form_greatest (S : SymSetting Element Op) (h : S.CompatibleAction)
    (e c : Element) (hc : S.canonical_form e = some c) (g : Op)
    (hg : g ∈ S.generating_group) : S.sym_compare.compare c (S.image e g) = false :=
  max_element_greatest _ h.swo _ _ hc _ (List.mem_map_of_mem _ hg)

/-- The image of an element under the identity equals the element when
comparisons see through prepare. -/
theorem image_identity_equal (S : SymSetting Element Op) (h : S.CompatibleAction)
    (hprep : ∀ a, S.sym_compare.equal (S.sym_compare.prepare a) a = true) (e : Element) :
    S.sym_compare.equal (S.image e S.identity) e = true :=
  S.sym_compare.equal_trans h.swo (h.apply_identity e) (hprep e)

/-- Claim C2. When the generating group is a group, sym_compare is compatible
with the action and comparison is made on prepared forms, from_canonical is
the inverse of the operation t returned by to_canonical, and applying it to
the canonical form c recovers the element:
copy_apply(from_canonical, canonical_form) == d. -/
theorem from_canonical_recovers (S : SymSetting Element Op) (d : Element)
    (hgrp : S.IsGroup) (hcompat : S.CompatibleAction)
    (hprep : ∀ a, S.sym_compare.equal (S.sym_compare.prepare a) a = true) :
    ∃ t c, S.to_canonical d = some t ∧ S.from_canonical d = some (S.inverse t) ∧
      S.canonical_form d = some c ∧
      S.sym_compare.equal (S.copy_apply (S.inverse t) c) d = true := by
  obtain ⟨t, ht⟩ := S.exists_to_canonical d (S.generating_group_ne_nil hgrp)
  refine ⟨t, S.image d t, ht, ?_, S.canonical_form_of_to_canonical d t ht, ?_⟩
  · simp [from_canonical, ht]
  · apply S.equal_of_prepared_equal hcompat hprep
    have h1 : S.prepared_equal (S.image d t) (S.copy_apply t d) = true := hprep _
    have h2 := hcompat.apply_congr (S.inverse t) _ _ h1
    have h3 := hcompat.apply_compose (S.inverse t) t d
    rw [hgrp.inverse_compose] at h3
    have h4 := hcompat.apply_identity d
    exact S.prepared_equal_trans hcompat h2
      (S.prepared_equal_trans hcompat (S.prepared_equal_comm h3) h4)

/-- Claim C3. When the generating group contains the identity, sym_compare is
compatible with the action and comparison is made on prepared forms:
is_canonical holds iff d == canonical_form, and d is not canonical iff
d < canonical_form; the canonical form is the compare-maximum of the orbit. -/
theorem is_canonical_iff (S : SymSetting Element Op) (d : Element)
    (hgrp : S.IsGroup) (hcompat : S.CompatibleAction)
    (hprep : ∀ a, S.sym_compare.equal (S.sym_compare.prepare a) a = true) :
    ∃ c, S.canonical_form d = some c ∧
      (S.is_canonical d = true ↔ S.sym_compare.equal d c = true) ∧
      (S.is_canonical d = false ↔ S.sym_compare.compare d c = true) ∧
      (∀ g ∈ S.generating_group, S.sym_compare.compare c (S.image d g) = false) := by
  obtain ⟨t, ht⟩ := S.exists_to_canonical d (S.generating_group_ne_nil hgrp)
  have hc := S.canonical_form_of_to_canonical d t ht
  have htm := S.to_canonical_mem d t ht
  have hmax := S.canonical_form_greatest hcompat d _ hc
  have hcd : S.sym_compare.compare (S.image d t) d = false := by
    rw [← S.sym_compare.compare_congr_right hcompat.swo _
      (S.image_identity_equal hcompat hprep d)]
    exact hmax _ hgrp.identity_mem
  have hiff : S.is_canonical d = true ↔ S.sym_compare.equal d (S.image d t) = true := by
    unfold is_canonical
    rw [Bool.and_eq_true, List.all_eq_true]
    constructor
    · rintro ⟨-, hall⟩
      rw [SymCompare.equal_iff]
      refine ⟨?_, hcd⟩
      simpa using hall t htm
    · intro heq
      refine ⟨hprep d, fun g hg => ?_⟩
      rw [S.sym_compare.compare_congr_left hcompat.swo _ heq, hmax g hg]
      rfl
  refine ⟨S.image d t, hc, hiff, ?_, hmax⟩
  rw [← Bool.not_eq_true, hiff, SymCompare.equal_iff]
  constructor
  · intro hn
    cases hdc : S.sym_compare.compare d (S.image d t) with
    | true => rfl
    | false => exact absurd ⟨hdc, hcd⟩ hn
  · rintro hdc ⟨hf, -⟩
    rw [hdc] at hf
    cases hf

end SymSetting

theorem Chain3.prepare_equal (a : Chain3.Pair) :
    Chain3.setting.sym_compare.equal (Chain3.setting.sym_compare.prepare a) a = true := by
  revert a
  decide

theorem Chain3.lt_pair_swo : StrictWeakOrder Chain3.lt_pair where
  irrefl := by decide
  trans := by decide
  incomp_trans := by decide

theorem Chain3.isGroup : Chain3.setting.IsGroup where
  nodup := by decide
  identity_mem := by decide
  compose_mem := by decide
  inverse_mem := by decide
  compose_assoc := by decide
  identity_compose := by decide
  inverse_compose := by decide
  compose_inverse := by decide

theorem Chain3.compatible : Chain3.setting.CompatibleAction where
  swo := Chain3.lt_pair_swo
  apply_identity := by decide
  apply_compose := by decide
  apply_congr := by decide

theorem from_canonical_recovers_witness :
    ∃ t c, Chain3.setting.to_canonical (2, 1) = some t ∧
      Chain3.setting.from_canonical (2, 1) = some (Chain3.setting.inverse t) ∧
      Chain3.setting.canonical_form (2, 1) = some c ∧
      Chain3.setting.sym_compare.equal
        (Chain3.setting.copy_apply (Chain3.setting.inverse t) c) (2, 1) = true :=
  SymSetting.from_canonical_recovers Chain3.setting (2, 1) Chain3.isGroup Chain3.compatible
    Chain3.prepare_equal

theorem is_canonical_iff_witness :
    ∃ c, Chain3.setting.canonical_form (1, 0) = some c ∧
      (Chain3.setting.is_canonical (1, 0) = true ↔
        Chain3.setting.sym_compare.equal (1, 0) c = true) ∧
      (Chain3.setting.is_canonical (1, 0) = false ↔
        Chain3.setting.sym_compare.compare (1, 0) c = true) ∧
      (∀ g ∈ Chain3.setting.generating_group,
        Chain3.setting.sym_compare.compare c (Chain3.setting.image (1, 0) g) = false) :=
  SymSetting.is_canonical_iff Chain3.setting (1, 0) Chain3.isGroup Chain3.compatible
    Chain3.prepare_equal

/-- Claim C5, as stated, fails: with a background configuration that every
operation leaves invariant, the generator copies the translation by one
site although it does not leave the pair (0, 1) invariant. -/
theorem diff_trans_subgroup_not_stabilizer :
    ¬ (∀ p ∈ Chain3.all_ops,
        (p ∈ MakeDiffTransInvariantSubgroup (Chain3.config_is_equivalent Chain3.uniform_occ)
            Chain3.lt_pair Chain3.act (0, 1) Chain3.all_ops ↔
          Chain3.pair_compare.equal (Chain3.pair_compare.prepare (Chain3.act p (0, 1)))
            (Chain3.pair_compare.prepare (0, 1)) = true)) := by
  decide

/-- Claim C5, amended. The generator copies, in order, permutations of the
range; it copies every p of the range for which ConfigIsEquivalent of the
background configuration holds, and every p of the range for which
copy_apply(p, diff_trans) and diff_trans are equal under compare; it does
not copy a p for which ConfigIsEquivalent fails and diff_trans is less than
copy_apply(p, diff_trans). -/
theorem diff_trans_subgroup_predicate {DiffTrans Permute : Type} (f : Permute → Bool)
    (compare : DiffTrans → DiffTrans → Bool) (copy_apply : Permute → DiffTrans → DiffTrans)
    (diff_trans : DiffTrans) (range : List Permute) (p : Permute) :
    (MakeDiffTransInvariantSubgroup f compare copy_apply diff_trans range).Sublist range ∧
    ((p ∈ range ∧ f p = true) →
      p ∈ MakeDiffTransInvariantSubgroup f compare copy_apply diff_trans range) ∧
    ((p ∈ range ∧ compare diff_trans (copy_apply p diff_trans) = false ∧
        compare (copy_apply p diff_trans) diff_trans = false) →
      p ∈ MakeDiffTransInvariantSubgroup f compare copy_apply diff_trans range) ∧
    ((f p = false ∧ compare diff_trans (copy_apply p diff_trans) = true) →
      p ∉ MakeDiffTransInvariantSubgroup f compare copy_apply diff_trans range) := by
  unfold MakeDiffTransInvariantSubgroup
  refine ⟨List.filter_sublist _, ?_, ?_, ?_⟩
  · rintro ⟨hp, hf⟩
    exact List.mem_filter.2 ⟨hp, by simp [diff_trans_keeps, hf]⟩
  · rintro ⟨hp, hc, -⟩
    exact List.mem_filter.2 ⟨hp, by simp [diff_trans_keeps, hc]⟩
  · rintro ⟨hf, hc⟩ hmem
    have := (List.mem_filter.1 hmem).2
    simp [diff_trans_keeps, hf, hc] at this

/-- Claim C6, as stated, fails for the generator of DiffTransEnumEquivalents:
on the chain (a group with a compatible comparison) the inversions about
site 0 and about site 1 are both retained for the pair (1, 1) in the
configuration marked at site 0 (the first leaves the configuration invariant,
the second the pair), their composition is not retained. -/
theorem diff_trans_subgroup_not_closed :
    Chain3.setting.IsGroup ∧ Chain3.setting.CompatibleAction ∧
    ¬ (∀ p q,
      p ∈ MakeDiffTransInvariantSubgroup (Chain3.config_is_equivalent Chain3.marked_occ)
        Chain3.setting.sym_compare.compare Chain3.setting.copy_apply (1, 1)
        Chain3.setting.generating_group →
      q ∈ MakeDiffTransInvariantSubgroup (Chain3.config_is_equivalent Chain3.marked_occ)
        Chain3.setting.sym_compare.compare Chain3.setting.copy_apply (1, 1)
        Chain3.setting.generating_group →
      Chain3.setting.compose p q ∈
        MakeDiffTransInvariantSubgroup (Chain3.config_is_equivalent Chain3.marked_occ)
          Chain3.setting.sym_compare.compare Chain3.setting.copy_apply (1, 1)
          Chain3.setting.generating_group) := by
  refine ⟨Chain3.isGroup, Chain3.compatible, fun h => ?_⟩
  exact absurd (h (true, 0) (true, 2) (by decide) (by decide)) (by decide)

namespace SymSetting

variable {Element Op : Type}

theorem leaves_invariant_identity (S : SymSetting Element Op) (h : S.CompatibleAction)
    (e : Element) : S.leaves_invariant e S.identity = true :=
  h.apply_identity e

theorem leaves_invariant_compose (S : SymSetting Element Op) (h : S.CompatibleAction)
    (e : Element) (g k : Op) (hg : S.leaves_invariant e g = true)
    (hk : S.leaves_invariant e k = true) : S.leaves_invariant e (S.compose g k) = true := by
  have h1 := h.apply_compose g k e
  have h2 := h.apply_congr g _ _ hk
  exact S.prepared_equal_trans h h1 (S.prepared_equal_trans h h2 hg)

/-- Claim C6, amended. When the generating group is a group and sym_compare
is compatible with the action, make_invariant_subgroup (the SymGroup variant,
and the range variant over any range that contains the identity and is closed
under composition) contains the identity, is not empty and is closed under
composition; the generator of DiffTransEnumEquivalents retains the identity
(so its result is not empty) when the identity does not raise the
transformation. -/
theorem invariant_subgroup_is_subgroup (S : SymSetting Element Op) (e : Element)
    (f : Op → Bool) (hgrp : S.IsGroup) (hcompat : S.CompatibleAction)
    (hid : S.sym_compare.compare e (S.copy_apply S.identity e) = false) :
    (S.identity ∈ S.make_invariant_subgroup e ∧ S.make_invariant_subgroup e ≠ [] ∧
      ∀ g k, g ∈ S.make_invariant_subgroup e → k ∈ S.make_invariant_subgroup e →
        S.compose g k ∈ S.make_invariant_subgroup e) ∧
    (∀ range : List Op, S.identity ∈ range →
      (∀ g k, g ∈ range → k ∈ range → S.compose g k ∈ range) →
      (S.identity ∈ S.make_invariant_subgroup_range e range ∧
        S.make_invariant_subgroup_range e range ≠ [] ∧
        ∀ g k, g ∈ S.make_invariant_subgroup_range e range →
          k ∈ S.make_invariant_subgroup_range e range →
          S.compose g k ∈ S.make_invariant_subgroup_range e range)) ∧
    (S.identity ∈ MakeDiffTransInvariantSubgroup f S.sym_compare.compare S.copy_apply e
        S.generating_group ∧
      MakeDiffTransInvariantSubgroup f S.sym_compare.compare S.copy_apply e
        S.generating_group ≠ []) := by
  have key : ∀ range : List Op, S.identity ∈ range →
      (∀ g k, g ∈ range → k ∈ range → S.compose g k ∈ range) →
      (S.identity ∈ S.make_invariant_subgroup_range e range ∧
        S.make_invariant_subgroup_range e range ≠ [] ∧
        ∀ g k, g ∈ S.make_invariant_subgroup_range e range →
          k ∈ S.make_invariant_subgroup_range e range →
          S.compose g k ∈ S.make_invariant_subgroup_range e range) := by
    intro range hid_mem hclosed
    have h1 : S.identity ∈ S.make_invariant_subgroup_range e range :=
      List.mem_filter.2 ⟨hid_mem, S.leaves_invariant_identity hcompat e⟩
    refine ⟨h1, List.ne_nil_of_mem h1, fun g k hg hk => ?_⟩
    obtain ⟨hgm, hgi⟩ := List.mem_filter.1 hg
    obtain ⟨hkm, hki⟩ := List.mem_filter.1 hk
    exact List.mem_filter.2 ⟨hclosed g k hgm hkm, S.leaves_invariant_compose hcompat e g k hgi hki⟩
  refine ⟨key S.generating_group hgrp.identity_mem hgrp.compose_mem, key, ?_⟩
  have h2 : S.identity ∈ MakeDiffTransInvariantSubgroup f S.sym_compare.compare S.copy_apply e
      S.generating_group :=
    List.mem_filter.2 ⟨hgrp.identity_mem, by simp [diff_trans_keeps, hid]⟩
  exact ⟨h2, List.ne_nil_of_mem h2⟩

end SymSetting

theorem invariant_subgroup_is_subgroup_witness :
    (Chain3.setting.identity ∈ Chain3.setting.make_invariant_subgroup (1, 1) ∧
      Chain3.setting.make_invariant_subgroup (1, 1) ≠ [] ∧
      ∀ g k, g ∈ Chain3.setting.make_invariant_subgroup (1, 1) →
        k ∈ Chain3.setting.make_invariant_subgroup (1, 1) →
        Chain3.setting.compose g k ∈ Chain3.setting.make_invariant_subgroup (1, 1)) ∧
    (∀ range : List Chain3.ChainOp, Chain3.setting.identity ∈ range →
      (∀ g k, g ∈ range → k ∈ range → Chain3.setting.compose g k ∈ range) →
      (Chain3.setting.identity ∈ Chain3.setting.make_invariant_subgroup_range (1, 1) range ∧
        Chain3.setting.make_invariant_subgroup_range (1, 1) range ≠ [] ∧
        ∀ g k, g ∈ Chain3.setting.make_invariant_subgroup_range (1, 1) range →
          k ∈ Chain3.setting.make_invariant_subgroup_range (1, 1) range →
          Chain3.setting.compose g k ∈
            Chain3.setting.make_invariant_subgroup_range (1, 1) range)) ∧
    (Chain3.setting.identity ∈ MakeDiffTransInvariantSubgroup
        (Chain3.config_is_equivalent Chain3.marked_occ) Chain3.setting.sym_compare.compare
        Chain3.setting.copy_apply (1, 1) Chain3.setting.generating_group ∧
      MakeDiffTransInvariantSubgroup
        (Chain3.config_is_equivalent Chain3.marked_occ) Chain3.setting.sym_compare.compare
        Chain3.setting.copy_apply (1, 1) Chain3.setting.generating_group ≠ []) :=
  SymSetting.invariant_subgroup_is_subgroup Chain3.setting (1, 1)
    (Chain3.config_is_equivalent Chain3.marked_occ) Chain3.isGroup Chain3.compatible
    (by decide)

/-! ## Orbit-stabilizer counting -/

theorem dedup_by_filter {α : Type} (eq : α → α → Bool)
    (htrans : ∀ a b c, eq a b = true → eq b c = true → eq a c = true) (x : α) (l : List α) :
    (dedup_by eq l).filter (fun y => !eq x y) = dedup_by eq (l.filter (fun y => !eq x y)) := by
  induction l with
  | nil => rfl
  | cons y ys ih =>
    cases hxy : eq x y with
    | false =>
      simp only [dedup_by, List.filter_cons, hxy, Bool.not_false, if_true]
      rw [← ih, List.filter_filter, List.filter_filter]
      congr 1
      apply List.filter_congr
      intro z _
      exact Bool.and_comm _ _
    | true =>
      simp only [dedup_by, List.filter_cons, hxy, Bool.not_true, Bool.false_eq_true, if_false]
      rw [← ih, List.filter_filter]
      apply List.filter_congr
      intro z _
      cases hxz : eq x z with
      | true => rfl
      | false =>
        cases hyz : eq y z with
        | false => rfl
        | true => rw [htrans x y z hxy hyz] at hxz; cases hxz

theorem length_eq_mul_dedup_by {α : Type} (eq : α → α → Bool)
    (hrefl : ∀ a, eq a a = true)
    (hsymm : ∀ a b, eq a b = true → eq b a = true)
    (htrans : ∀ a b c, eq a b = true → eq b c = true → eq a c = true) (n : Nat) :
    ∀ (k : Nat) (l : List α), l.length ≤ k →
      (∀ y ∈ l, (l.filter (eq y)).length = n) → l.length = n * (dedup_by eq l).length := by
  intro k
  induction k with
  | zero =>
    intro l hk _
    have : l = [] := List.length_eq_zero.1 (Nat.le_zero.1 hk)
    subst this
    rfl
  | succ k ih =>
    intro l hk hclass
    cases l with
    | nil => rfl
    | cons x xs =>
      have hA := dedup_by_filter eq htrans x xs
      have hlen : (xs.filter (fun y => !eq x y)).length ≤ k :=
        Nat.le_trans (List.length_filter_le _ _) (Nat.le_of_succ_le_succ hk)
      have hclass2 : ∀ y ∈ xs.filter (fun y => !eq x y),
          ((xs.filter (fun y => !eq x y)).filter (eq y)).length = n := by
        intro y hy
        obtain ⟨hyxs, hxy⟩ := List.mem_filter.1 hy
        have hxy2 : eq x y = false := by simpa using hxy
        have hyx : eq y x = false := by
          cases h : eq y x with
          | false => rfl
          | true => rw [hsymm y x h] at hxy2; cases hxy2
        have h1 := hclass y (List.mem_cons_of_mem _ hyxs)
        rw [List.filter_cons, hyx] at h1
        simp only [Bool.false_eq_true, if_false] at h1
        rw [← h1, List.filter_filter]
        congr 1
        apply List.filter_congr
        intro z _
        cases hyz : eq y z with
        | false => rfl
        | true =>
          cases hxz : eq x z with
          | false => rfl
          | true => rw [htrans x z y hxz (hsymm y z hyz)] at hxy2; cases hxy2
      have h2 := ih _ hlen hclass2
      have h3 := hclass x (List.mem_cons_self _ _)
      rw [List.filter_cons, hrefl x] at h3
      simp only [if_true, List.length_cons] at h3
      have h4 : xs.length = (xs.filter (eq x)).length + (xs.filter (fun y => !eq x y)).length := by
        rw [← List.countP_eq_length_filter, ← List.countP_eq_length_filter]
        have := List.length_eq_countP_add_countP (eq x) xs
        simpa using this
      simp only [dedup_by, List.length_cons, hA]
      rw [Nat.mul_succ, ← h2, h4]
      omega

theorem length_filter_le_of_injective {α : Type} (G : List α) (hnd : G.Nodup) (φ : α → α)
    (hinj : Function.Injective φ) (hmem : ∀ h ∈ G, φ h ∈ G) (A B : α → Bool)
    (hAB : ∀ h ∈ G, B h = true → A (φ h) = true) :
    (G.filter B).length ≤ (G.filter A).length := by
  have hnd2 : ((G.filter B).map φ).Nodup := (hnd.filter _).map hinj
  have hsub : (G.filter B).map φ ⊆ G.filter A := by
    intro y hy
    obtain ⟨h, hh, rfl⟩ := List.mem_map.1 hy
    obtain ⟨hG, hB⟩ := List.mem_filter.1 hh
    exact List.mem_filter.2 ⟨hmem h hG, hAB h hG hB⟩
  have := (List.subperm_of_subset hnd2 hsub).length_le
  simpa using this

namespace SymSetting

variable {Element Op : Type}

theorem compose_left_injective (S : SymSetting Element Op) (hgrp : S.IsGroup) (g : Op) :
    Function.Injective (S.compose g) := by
  intro a b hab
  have h : S.compose (S.inverse g) (S.compose g a) = S.compose (S.inverse g) (S.compose g b) :=
    congrArg _ hab
  rw [← hgrp.compose_assoc, ← hgrp.compose_assoc, hgrp.inverse_compose,
    hgrp.identity_compose, hgrp.identity_compose] at h
  exact h

/-- The operations that map the element into the class of the image under g0
are as many as the operations that leave the element invariant. -/
theorem class_size_eq_stabilizer_size (S : SymSetting Element Op) (hgrp : S.IsGroup)
    (hcompat : S.CompatibleAction) (e : Element) (g0 : Op) (hg0 : g0 ∈ S.generating_group) :
    (S.generating_group.filter
      (fun g => S.sym_compare.equal (S.image e g0) (S.image e g))).length =
      (S.make_invariant_subgroup e).length := by
  apply Nat.le_antisymm
  · -- g goes to (inverse g0) ∘ g
    apply length_filter_le_of_injective S.generating_group hgrp.nodup
      (S.compose (S.inverse g0)) (S.compose_left_injective hgrp _)
      (fun h hh => hgrp.compose_mem _ _ (hgrp.inverse_mem g0 hg0) hh)
    intro g _ hg
    have h1 : S.prepared_equal (S.copy_apply g e) (S.copy_apply g0 e) = true :=
      S.sym_compare.equal_comm hg
    have h2 := hcompat.apply_congr (S.inverse g0) _ _ h1
    have h3 := hcompat.apply_compose (S.inverse g0) g e
    have h4 := hcompat.apply_compose (S.inverse g0) g0 e
    rw [hgrp.inverse_compose] at h4
    have h5 := hcompat.apply_identity e
    exact S.prepared_equal_trans hcompat h3 (S.prepared_equal_trans hcompat h2
      (S.prepared_equal_trans hcompat (S.prepared_equal_comm h4) h5))
  · -- h goes to g0 ∘ h
    apply length_filter_le_of_injective S.generating_group hgrp.nodup
      (S.compose g0) (S.compose_left_injective hgrp _)
      (fun h hh => hgrp.compose_mem _ _ hg0 hh)
    intro h _ hh
    have h1 : S.prepared_equal (S.copy_apply h e) e = true := hh
    have h2 := hcompat.apply_congr g0 _ _ h1
    have h3 := hcompat.apply_compose g0 h e
    exact S.prepared_equal_comm (S.prepared_equal_trans hcompat h3 h2)

/-- Claim C7. Orbit-stabilizer law: when the generating group is a group and
sym_compare is compatible with the action, the number of equivalents of
Orbit(prototype, group, sym_compare) times the size of
make_invariant_subgroup(prototype, group, sym_compare) is the size of the
group. -/
theorem orbit_stabilizer (S : SymSetting Element Op) (prototype : Element)
    (hgrp : S.IsGroup) (hcompat : S.CompatibleAction) :
    S.orbit_multiplicity prototype * (S.make_invariant_subgroup prototype).length =
      S.generating_group.length := by
  have hclass : ∀ y ∈ S.images prototype,
      ((S.images prototype).filter (S.sym_compare.equal y)).length =
        (S.make_invariant_subgroup prototype).length := by
    intro y hy
    obtain ⟨g0, hg0, rfl⟩ := List.mem_map.1 hy
    rw [← S.class_size_eq_stabilizer_size hgrp hcompat prototype g0 hg0]
    unfold images
    rw [List.filter_map, List.length_map]
    rfl
  have h := length_eq_mul_dedup_by S.sym_compare.equal
    (S.sym_compare.equal_refl hcompat.swo)
    (fun a b hab => S.sym_compare.equal_comm hab)
    (fun a b c hab hbc => S.sym_compare.equal_trans hcompat.swo hab hbc)
    (S.make_invariant_subgroup prototype).length _ (S.images prototype) (Nat.le_refl _) hclass
  unfold orbit_multiplicity orbit_equivalents sort_by
  rw [List.length_insertionSort, Nat.mul_comm, ← h]
  simp [images]

end SymSetting

theorem orbit_stabilizer_witness :
    Chain3.setting.orbit_multiplicity (2, 1) *
        (Chain3.setting.make_invariant_subgroup (2, 1)).length =
      Chain3.setting.generating_group.length :=
  SymSetting.orbit_stabilizer Chain3.setting (2, 1) Chain3.isGroup Chain3.compatible

/-! ## Search of an orbit in the database -/

theorem find_if_le_length {α : Type} (pred : α → Bool) (l : List α) :
    find_if pred l ≤ l.length := by
  induction l with
  | nil => exact Nat.le_refl _
  | cons x xs ih =>
    simp only [find_if, List.length_cons]
    split
    · exact Nat.zero_le _
    · exact Nat.succ_le_succ ih

theorem find_if_found {α : Type} (pred : α → Bool) (l : List α) (o : α)
    (h : l.get? (find_if pred l) = some o) : pred o = true := by
  induction l with
  | nil => simp [find_if] at h
  | cons x xs ih =>
    simp only [find_if] at h
    split at h
    · simp only [List.get?_cons_zero, Option.some.injEq] at h
      subst h
      assumption
    · exact ih (by simpa using h)

theorem find_if_first {α : Type} (pred : α → Bool) (l : List α) (j : Nat) (o : α)
    (hj : j < find_if pred l) (h : l.get? j = some o) : pred o = false := by
  induction l generalizing j with
  | nil => simp at h
  | cons x xs ih =>
    simp only [find_if] at hj
    split at hj
    · exact absurd hj (Nat.not_lt_zero _)
    · cases j with
      | zero =>
        simp only [List.get?_cons_zero, Option.some.injEq] at h
        subst h
        simpa using ‹¬pred x = true›
      | succ j => exact ih j (Nat.lt_of_succ_lt_succ hj) (by simpa using h)

theorem find_if_eq_length_iff {α : Type} (pred : α → Bool) (l : List α) :
    find_if pred l = l.length ↔ ∀ o ∈ l, pred o = false := by
  induction l with
  | nil => simp [find_if]
  | cons x xs ih =>
    simp only [find_if, List.length_cons, List.forall_mem_cons]
    cases hx : pred x with
    | true => simp
    | false => simp [ih]

theorem find_if_congr {α : Type} (p q : α → Bool) (l : List α) (h : ∀ o ∈ l, p o = q o) :
    find_if p l = find_if q l := by
  induction l with
  | nil => rfl
  | cons x xs ih =>
    simp only [find_if, h x (List.mem_cons_self _ _)]
    rw [ih (fun o ho => h o (List.mem_cons_of_mem _ ho))]

namespace SymSetting

variable {Element Op : Type}

theorem compose_identity (S : SymSetting Element Op) (hgrp : S.IsGroup) (g : Op) :
    S.compose g S.identity = g := by
  rw [← hgrp.inverse_compose g, ← hgrp.compose_assoc, hgrp.compose_inverse,
    hgrp.identity_compose]

/-- Images of a symmetry-equivalent element are images of the element. -/
theorem image_of_equivalent (S : SymSetting Element Op) (hcompat : S.CompatibleAction)
    (e1 e2 : Element) (g : Op) (hrel : S.prepared_equal e2 (S.copy_apply g e1) = true)
    (h : Op) : S.sym_compare.equal (S.image e2 h) (S.image e1 (S.compose h g)) = true := by
  have h1 := hcompat.apply_congr h _ _ hrel
  have h2 := hcompat.apply_compose h g e1
  exact S.prepared_equal_trans hcompat h1 (S.prepared_equal_comm h2)

/-- Orbit independence: two elements of one orbit have equal canonical
forms. -/
theorem canonical_form_orbit_independent (S : SymSetting Element Op) (hgrp : S.IsGroup)
    (hcompat : S.CompatibleAction) (e1 e2 : Element) (g : Op)
    (hg : g ∈ S.generating_group)
    (hrel : S.prepared_equal e2 (S.copy_apply g e1) = true) :
    ∃ c1 c2, S.canonical_form e1 = some c1 ∧ S.canonical_form e2 = some c2 ∧
      S.sym_compare.equal c1 c2 = true := by
  have hne := S.generating_group_ne_nil hgrp
  obtain ⟨t1, ht1⟩ := S.exists_to_canonical e1 hne
  obtain ⟨t2, ht2⟩ := S.exists_to_canonical e2 hne
  have hc1 := S.canonical_form_of_to_canonical e1 t1 ht1
  have hc2 := S.canonical_form_of_to_canonical e2 t2 ht2
  have ht1m := S.to_canonical_mem e1 t1 ht1
  have ht2m := S.to_canonical_mem e2 t2 ht2
  have hmax1 := S.canonical_form_greatest hcompat e1 _ hc1
  have hmax2 := S.canonical_form_greatest hcompat e2 _ hc2
  have himg := S.image_of_equivalent hcompat e1 e2 g hrel
  refine ⟨_, _, hc1, hc2, ?_⟩
  rw [SymCompare.equal_iff]
  constructor
  · rw [S.sym_compare.compare_congr_right hcompat.swo _ (himg t2)]
    exact hmax1 _ (hgrp.compose_mem _ _ ht2m hg)
  · have hk := himg (S.compose t1 (S.inverse g))
    rw [hgrp.compose_assoc, hgrp.inverse_compose, S.compose_identity hgrp] at hk
    rw [← S.sym_compare.compare_congr_right hcompat.swo _ hk]
    exact hmax2 _ (hgrp.compose_mem _ _ ht1m (hgrp.inverse_mem g hg))

theorem canonical_generator_orbit_independent (S : SymSetting Element Op) (hgrp : S.IsGroup)
    (hcompat : S.CompatibleAction) (e1 e2 : Element) (g : Op)
    (hg : g ∈ S.generating_group)
    (hrel : S.prepared_equal e2 (S.copy_apply g e1) = true) :
    S.sym_compare.equal (S.canonical_generator e1) (S.canonical_generator e2) = true := by
  obtain ⟨c1, c2, h1, h2, h⟩ := S.canonical_form_orbit_independent hgrp hcompat e1 e2 g hg hrel
  simpa [canonical_generator, h1, h2] using h

/-- Claim C9. For every database content and every diffusion transformation,
search returns the position of the first stored orbit whose prototype has a
canonical form equal to that of the transformation, and the end position
exactly when no stored orbit has; and when the prim factor group is a group
with a compatible sym_compare, every member of the orbit of the
transformation gives the same result. -/
theorem search_finds_orbit (S : SymSetting Element Op) (m_orbit_list : List (StoredOrbit Element))
    (diff_trans : Element) (hgrp : S.IsGroup) (hcompat : S.CompatibleAction) :
    search S.sym_compare S.canonical_generator m_orbit_list diff_trans ≤ m_orbit_list.length ∧
    (∀ orbit, m_orbit_list.get?
        (search S.sym_compare S.canonical_generator m_orbit_list diff_trans) = some orbit →
      S.sym_compare.equal (S.canonical_generator diff_trans)
        (S.canonical_generator orbit.prototype) = true) ∧
    (∀ j orbit, j < search S.sym_compare S.canonical_generator m_orbit_list diff_trans →
      m_orbit_list.get? j = some orbit →
      S.sym_compare.equal (S.canonical_generator diff_trans)
        (S.canonical_generator orbit.prototype) = false) ∧
    (search S.sym_compare S.canonical_generator m_orbit_list diff_trans = m_orbit_list.length ↔
      ∀ orbit ∈ m_orbit_list, S.sym_compare.equal (S.canonical_generator diff_trans)
        (S.canonical_generator orbit.prototype) = false) ∧
    (∀ g ∈ S.generating_group, ∀ member,
      S.prepared_equal member (S.copy_apply g diff_trans) = true →
      search S.sym_compare S.canonical_generator m_orbit_list member =
        search S.sym_compare S.canonical_generator m_orbit_list diff_trans) := by
  refine ⟨find_if_le_length _ _, fun orbit h => find_if_found _ _ orbit h,
    fun j orbit hj h => find_if_first _ _ j orbit hj h, find_if_eq_length_iff _ _, ?_⟩
  intro g hg member hrel
  apply find_if_congr
  intro orbit _
  have h := S.canonical_generator_orbit_independent hgrp hcompat diff_trans member g hg hrel
  unfold search_matches
  cases h2 : S.sym_compare.equal (S.canonical_generator diff_trans)
      (S.canonical_generator orbit.prototype) with
  | true => exact S.sym_compare.equal_trans hcompat.swo (S.sym_compare.equal_comm h) h2
  | false =>
    cases h3 : S.sym_compare.equal (S.canonical_generator member)
        (S.canonical_generator orbit.prototype) with
    | false => rfl
    | true => rw [S.sym_compare.equal_trans hcompat.swo h h3] at h2; cases h2

end SymSetting

theorem search_finds_orbit_witness :
    search Chain3.setting.sym_compare Chain3.setting.canonical_generator Chain3.orbit_db (2, 1) ≤
      Chain3.orbit_db.length ∧
    (∀ g ∈ Chain3.setting.generating_group, ∀ member,
      Chain3.setting.prepared_equal member (Chain3.setting.copy_apply g (2, 1)) = true →
      search Chain3.setting.sym_compare Chain3.setting.canonical_generator Chain3.orbit_db member =
        search Chain3.setting.sym_compare Chain3.setting.canonical_generator Chain3.orbit_db
          (2, 1)) :=
  ⟨(SymSetting.search_finds_orbit Chain3.setting Chain3.orbit_db (2, 1) Chain3.isGroup
      Chain3.compatible).1,
    (SymSetting.search_finds_orbit Chain3.setting Chain3.orbit_db (2, 1) Chain3.isGroup
      Chain3.compatible).2.2.2.2⟩

/-! ## Ordered sets as sorted lists -/

namespace ConfigOrder

variable {C : Type} {lt : C → C → Bool} {scelname : C → String}

theorem lt_asymm (h : ConfigOrder lt scelname) {a b : C} (hab : lt a b = true) :
    lt b a = false := by
  cases hba : lt b a with
  | false => rfl
  | true =>
    have := h.trans a b a hab hba
    rw [h.irrefl] at this
    cases this

theorem eq_of_not_lt (h : ConfigOrder lt scelname) {a b : C} (hab : lt a b = false)
    (hba : lt b a = false) : a = b := by
  rcases h.total a b with h1 | h1 | h1
  · exact h1
  · rw [h1] at hab; cases hab
  · rw [h1] at hba; cases hba

theorem lt_of_not_lt_of_ne (h : ConfigOrder lt scelname) {a b : C} (hab : lt a b = false)
    (hne : a ≠ b) : lt b a = true := by
  rcases h.total a b with h1 | h1 | h1
  · exact absurd h1 hne
  · rw [h1] at hab; cases hab
  · exact h1

theorem lt_of_lt_of_not_lt (h : ConfigOrder lt scelname) {a b c : C} (hab : lt a b = true)
    (hcb : lt c b = false) : lt a c = true := by
  by_cases hbc : b = c
  · subst hbc; exact hab
  · exact h.trans a b c hab (h.lt_of_not_lt_of_ne hcb (fun e => hbc e.symm))

theorem lt_of_not_lt_of_lt (h : ConfigOrder lt scelname) {a b c : C} (hba : lt b a = false)
    (hbc : lt b c = true) : lt a c = true := by
  by_cases hab : a = b
  · subst hab; exact hbc
  · exact h.trans a b c (h.lt_of_not_lt_of_ne hba (fun e => hab e.symm)) hbc

theorem nodup_of_sorted (h : ConfigOrder lt scelname) {l : List C}
    (hs : l.Pairwise (fun a b => lt a b = true)) : l.Nodup := by
  apply hs.imp
  intro a b hab heq
  subst heq
  rw [h.irrefl] at hab
  cases hab

end ConfigOrder

section SetModelLemmas

variable {C : Type} [DecidableEq C] {lt : C → C → Bool} {scelname : C → String}

theorem next_of_eq_filter (h : ConfigOrder lt scelname) (l : List C)
    (hs : l.Pairwise (fun a b => lt a b = true)) (c : C) (hc : c ∈ l) :
    next_of l c = (l.filter (fun z => lt c z)).head? := by
  induction l with
  | nil => cases hc
  | cons x xs ih =>
    rw [List.pairwise_cons] at hs
    by_cases hx : x = c
    · subst hx
      simp only [next_of, if_true, List.filter_cons, h.irrefl, Bool.false_eq_true, if_false]
      rw [List.filter_eq_self.2 (fun z hz => hs.1 z hz)]
    · have hcx : c ∈ xs := by
        rcases List.mem_cons.1 hc with e | e
        · exact absurd e.symm hx
        · exact e
      simp only [next_of, hx, if_false, List.filter_cons, h.lt_asymm (hs.1 c hcx),
        Bool.false_eq_true]
      exact ih hs.2 hcx

theorem prev_of_eq_none (l : List C) (c : C) (hc : c ∉ l) : prev_of l c = none := by
  induction l with
  | nil => rfl
  | cons x xs ih =>
    cases xs with
    | nil => rfl
    | cons y ys =>
      have hy : y ≠ c := fun e => hc (e ▸ List.mem_cons_of_mem _ (List.mem_cons_self _ _))
      simp only [prev_of, hy, if_false]
      exact ih (fun hm => hc (List.mem_cons_of_mem _ hm))

theorem prev_of_eq_filter (h : ConfigOrder lt scelname) (l : List C)
    (hs : l.Pairwise (fun a b => lt a b = true)) (c : C) (hc : c ∈ l) :
    prev_of l c = (l.filter (fun z => lt z c)).getLast? := by
  induction l with
  | nil => cases hc
  | cons x xs ih =>
    rw [List.pairwise_cons] at hs
    cases xs with
    | nil =>
      have : c = x := by simpa using hc
      subst this
      simp [prev_of, h.irrefl]
    | cons y ys =>
      have hs2 := hs.2
      rw [List.pairwise_cons] at hs2
      by_cases hy : y = c
      · subst hy
        have hxy : lt x y = true := hs.1 y (List.mem_cons_self _ _)
        have hnil : ys.filter (fun z => lt z y) = [] :=
          List.filter_eq_nil_iff.2 (fun z hz => by simp [h.lt_asymm (hs2.1 z hz)])
        simp [prev_of, List.filter_cons, hxy, h.irrefl, hnil]
      · simp only [prev_of, hy, if_false]
        by_cases hx : x = c
        · subst hx
          have hnot : x ∉ y :: ys := fun hm => by
            have := hs.1 x hm
            rw [h.irrefl] at this
            cases this
          rw [prev_of_eq_none _ _ hnot]
          have hnil : (x :: y :: ys).filter (fun z => lt z x) = [] :=
            List.filter_eq_nil_iff.2 (fun z hz => by
              rcases List.mem_cons.1 hz with e | e
              · subst e; simp [h.irrefl]
              · simp [h.lt_asymm (hs.1 z e)])
          rw [hnil]
          rfl
        · have hcx : c ∈ y :: ys := by
            rcases List.mem_cons.1 hc with e | e
            · exact absurd e.symm hx
            · exact e
          rw [ih hs.2 hcx]
          have hxc : lt x c = true := hs.1 c hcx
          have hyc : lt y c = true := by
            rcases List.mem_cons.1 hcx with e | e
            · exact absurd e.symm hy
            · exact hs2.1 c e
          simp only [List.filter_cons, hxc, hyc, if_true]
          rfl

theorem dropWhile_ne_eq_filter (h : ConfigOrder lt scelname) (l : List C)
    (hs : l.Pairwise (fun a b => lt a b = true)) (f : C) (hf : f ∈ l) :
    l.dropWhile (fun x => decide (x ≠ f)) = l.filter (fun x => !lt x f) := by
  induction l with
  | nil => cases hf
  | cons x xs ih =>
    rw [List.pairwise_cons] at hs
    by_cases hx : x = f
    · subst hx
      have hall : xs.filter (fun z => !lt z x) = xs :=
        List.filter_eq_self.2 (fun z hz => by simp [h.lt_asymm (hs.1 z hz)])
      simp [List.dropWhile_cons, List.filter_cons, h.irrefl, hall]
    · have hfx : f ∈ xs := by
        rcases List.mem_cons.1 hf with e | e
        · exact absurd e.symm hx
        · exact e
      simp only [List.dropWhile_cons, ne_eq, hx, not_false_eq_true, decide_True, if_true,
        List.filter_cons, hs.1 f hfx, Bool.not_true, Bool.false_eq_true, if_false]
      exact ih hs.2 hfx

theorem takeWhile_ne_eq_filter (h : ConfigOrder lt scelname) (l : List C)
    (hs : l.Pairwise (fun a b => lt a b = true)) (y : C) (hy : y ∈ l) :
    l.takeWhile (fun x => decide (some x ≠ some y)) = l.filter (fun x => lt x y) := by
  induction l with
  | nil => cases hy
  | cons x xs ih =>
    rw [List.pairwise_cons] at hs
    by_cases hx : x = y
    · subst hx
      have hnil : xs.filter (fun z => lt z x) = [] :=
        List.filter_eq_nil_iff.2 (fun z hz => by simp [h.lt_asymm (hs.1 z hz)])
      simp [List.takeWhile_cons, List.filter_cons, h.irrefl, hnil]
    · have hyx : y ∈ xs := by
        rcases List.mem_cons.1 hy with e | e
        · exact absurd e.symm hx
        · exact e
      have hd : decide (some x ≠ some y) = true := by simp [hx]
      rw [List.takeWhile_cons, List.filter_cons, hd, hs.1 y hyx, ih hs.2 hyx]
      rfl

theorem takeWhile_ne_none (l : List C) :
    l.takeWhile (fun x => decide (some x ≠ (none : Option C))) = l := by
  induction l with
  | nil => rfl
  | cons x xs ih => simp [List.takeWhile_cons, ih]

theorem iterator_range_some (l : List C) (f : C) (e : Option C) :
    iterator_range l (some f) e =
      (l.dropWhile (fun x => decide (x ≠ f))).takeWhile (fun x => decide (some x ≠ e)) :=
  rfl

theorem mem_sorted_insert (c x : C) (l : List C) :
    x ∈ sorted_insert lt c l ↔ x = c ∨ x ∈ l := by
  induction l with
  | nil => simp [sorted_insert]
  | cons y ys ih =>
    simp only [sorted_insert]
    split
    · simp
    · simp only [List.mem_cons, ih]
      tauto

theorem pairwise_sorted_insert (h : ConfigOrder lt scelname) (c : C) (l : List C)
    (hs : l.Pairwise (fun a b => lt a b = true)) (hc : c ∉ l) :
    (sorted_insert lt c l).Pairwise (fun a b => lt a b = true) := by
  induction l with
  | nil => simp [sorted_insert]
  | cons y ys ih =>
    rw [List.pairwise_cons] at hs
    simp only [sorted_insert]
    cases hcy : lt c y with
    | true =>
      simp only [if_true]
      rw [List.pairwise_cons]
      refine ⟨fun z hz => ?_, List.pairwise_cons.2 hs⟩
      rcases List.mem_cons.1 hz with e | e
      · subst e; exact hcy
      · exact h.trans c y z hcy (hs.1 z e)
    | false =>
      simp only [Bool.false_eq_true, if_false]
      rw [List.pairwise_cons]
      have hyc : lt y c = true :=
        h.lt_of_not_lt_of_ne hcy (fun e => hc (e ▸ List.mem_cons_self _ _))
      refine ⟨fun z hz => ?_, ih hs.2 (fun hm => hc (List.mem_cons_of_mem _ hm))⟩
      rcases (mem_sorted_insert c z ys).1 hz with e | e
      · subst e; exact hyc
      · exact hs.1 z e

theorem set_inserts_iff (h : ConfigOrder lt scelname) (c : C) (l : List C) :
    set_inserts lt c l = true ↔ c ∉ l := by
  unfold set_inserts
  rw [Bool.not_eq_true', List.any_eq_false]
  constructor
  · intro hall hc
    have := hall c hc
    simp [h.irrefl] at this
  · intro hc x hx hboth
    simp only [Bool.and_eq_true, Bool.not_eq_true'] at hboth
    exact hc (h.eq_of_not_lt hboth.1 hboth.2 ▸ hx)

end SetModelLemmas

section SetModelOrder

variable {C : Type} [DecidableEq C] {lt : C → C → Bool} {scelname : C → String}

theorem head_eq_some_iff_least {r : C → C → Prop} (hirr : ∀ a, ¬ r a a)
    (hasym : ∀ a b, r a b → ¬ r b a) (L : List C) (hs : L.Pairwise r) (y : C) :
    L.head? = some y ↔ y ∈ L ∧ ∀ z ∈ L, ¬ r z y := by
  cases L with
  | nil => simp
  | cons a as =>
    rw [List.pairwise_cons] at hs
    simp only [List.head?_cons, Option.some.injEq]
    constructor
    · rintro rfl
      refine ⟨List.mem_cons_self _ _, fun z hz => ?_⟩
      rcases List.mem_cons.1 hz with e | e
      · subst e; exact hirr _
      · exact hasym _ _ (hs.1 z e)
    · rintro ⟨hy, hmin⟩
      rcases List.mem_cons.1 hy with e | e
      · exact e.symm
      · exact absurd (hs.1 y e) (hmin a (List.mem_cons_self _ _))

theorem next_of_eq_some_iff (h : ConfigOrder lt scelname) (l : List C)
    (hs : l.Pairwise (fun a b => lt a b = true)) (c : C) (hc : c ∈ l) (y : C) :
    next_of l c = some y ↔
      y ∈ l ∧ lt c y = true ∧ ∀ z ∈ l, lt c z = true → lt z y = false := by
  rw [next_of_eq_filter h l hs c hc,
    head_eq_some_iff_least (r := fun a b => lt a b = true)
      (fun a => by simp [h.irrefl]) (fun a b hab => by simp [h.lt_asymm hab]) _ (hs.filter _)]
  simp only [List.mem_filter, Bool.not_eq_true]
  constructor
  · rintro ⟨⟨hy, hcy⟩, hmin⟩
    exact ⟨hy, hcy, fun z hz hcz => hmin z ⟨hz, hcz⟩⟩
  · rintro ⟨hy, hcy, hmin⟩
    exact ⟨⟨hy, hcy⟩, fun z hz => hmin z hz.1 hz.2⟩

theorem next_of_eq_none_iff (h : ConfigOrder lt scelname) (l : List C)
    (hs : l.Pairwise (fun a b => lt a b = true)) (c : C) (hc : c ∈ l) :
    next_of l c = none ↔ ∀ z ∈ l, lt c z = false := by
  rw [next_of_eq_filter h l hs c hc, List.head?_eq_none_iff, List.filter_eq_nil_iff]
  simp

theorem prev_of_eq_some_iff (h : ConfigOrder lt scelname) (l : List C)
    (hs : l.Pairwise (fun a b => lt a b = true)) (c : C) (hc : c ∈ l) (y : C) :
    prev_of l c = some y ↔
      y ∈ l ∧ lt y c = true ∧ ∀ z ∈ l, lt z c = true → lt y z = false := by
  have hrev : ((l.filter (fun z => lt z c)).reverse).Pairwise (fun a b => lt b a = true) :=
    List.pairwise_reverse.2 (hs.filter _)
  rw [prev_of_eq_filter h l hs c hc, ← List.head?_reverse,
    head_eq_some_iff_least (r := fun a b => lt b a = true)
      (fun a => by simp [h.irrefl]) (fun a b hab => by simp [h.lt_asymm hab]) _ hrev]
  simp only [List.mem_reverse, List.mem_filter, Bool.not_eq_true]
  constructor
  · rintro ⟨⟨hy, hyc⟩, hmax⟩
    exact ⟨hy, hyc, fun z hz hzc => hmax z ⟨hz, hzc⟩⟩
  · rintro ⟨hy, hyc, hmax⟩
    exact ⟨⟨hy, hyc⟩, fun z hz => hmax z hz.1 hz.2⟩

theorem prev_of_eq_none_iff (h : ConfigOrder lt scelname) (l : List C)
    (hs : l.Pairwise (fun a b => lt a b = true)) (c : C) (hc : c ∈ l) :
    prev_of l c = none ↔ ∀ z ∈ l, lt z c = false := by
  rw [prev_of_eq_filter h l hs c hc, List.getLast?_eq_none_iff, List.filter_eq_nil_iff]
  simp

/-- The old begin of a range is std::next of a new element exactly when the
new element is less than it. -/
theorem begin_eq_next_iff (h : ConfigOrder lt scelname) (l : List C)
    (hs : l.Pairwise (fun a b => lt a b = true)) (c f : C) (hc : c ∈ l) (hf : f ∈ l)
    (hname : scelname f = scelname c)
    (hmin : ∀ x ∈ l, x ≠ c → scelname x = scelname c → lt x f = false) :
    some f = next_of l c ↔ lt c f = true := by
  rw [eq_comm, next_of_eq_some_iff h l hs c hc]
  constructor
  · exact fun hx => hx.2.1
  · intro hcf
    refine ⟨hf, hcf, fun z hz hcz => ?_⟩
    cases hzf : lt z f with
    | false => rfl
    | true =>
      have hzn : scelname z = scelname c := h.contiguous c z f hcz hzf hname.symm
      have hzc : z ≠ c := fun e => by
        subst e
        rw [h.irrefl] at hcz
        cases hcz
      rw [hmin z hz hzc hzn] at hzf
      cases hzf

/-- The old last element of a range is std::prev of a new element exactly when
it is less than the new element. -/
theorem last_eq_prev_iff (h : ConfigOrder lt scelname) (l : List C)
    (hs : l.Pairwise (fun a b => lt a b = true)) (c s : C) (hc : c ∈ l) (hsl : s ∈ l)
    (hname : scelname s = scelname c)
    (hmax : ∀ x ∈ l, x ≠ c → scelname x = scelname c → lt s x = false) :
    some s = prev_of l c ↔ lt s c = true := by
  rw [eq_comm, prev_of_eq_some_iff h l hs c hc]
  constructor
  · exact fun hx => hx.2.1
  · intro hsc
    refine ⟨hsl, hsc, fun z hz hzc => ?_⟩
    cases hsz : lt s z with
    | false => rfl
    | true =>
      have hzn : scelname z = scelname s := h.contiguous s z c hsz hzc hname
      have hzne : z ≠ c := fun e => by
        subst e
        rw [h.irrefl] at hzc
        cases hzc
      rw [hmax z hz hzne (hzn.trans hname)] at hsz
      cases hsz

end SetModelOrder

/-! ## The range invariant of jsonDatabase<Configuration> -/

namespace ConfigDatabase

variable {C : Type} [DecidableEq C] {lt : C → C → Bool} {scelname : C → String}

theorem rangeOk_of_mem_iff (l l2 : List C) (n : String) (r : Option (Option C × Option C))
    (hmem : ∀ x, scelname x = n → (x ∈ l2 ↔ x ∈ l)) (hr : RangeOk lt scelname l n r) :
    RangeOk lt scelname l2 n r := by
  match r, hr with
  | none, hr => exact fun x hx hn => hr x ((hmem x hn).1 hx) hn
  | some (some f, some s), hr =>
    obtain ⟨hf, hs, hfn, hsn, hall⟩ := hr
    exact ⟨(hmem f hfn).2 hf, (hmem s hsn).2 hs, hfn, hsn,
      fun x hx hn => hall x ((hmem x hn).1 hx) hn⟩

theorem inv_empty : Inv lt scelname (ConfigDatabase.empty : ConfigDatabase C) where
  sorted := List.Pairwise.nil
  ranges := fun _ x hx => by cases hx

theorem inv_insert (h : ConfigOrder lt scelname) (db : ConfigDatabase C) (config : C)
    (hinv : Inv lt scelname db) : Inv lt scelname (db.insert lt scelname config) := by
  unfold insert
  cases hins : set_inserts lt config db.m_config_list with
  | false => simpa using hinv
  | true =>
    simp only [if_true]
    have hc : config ∉ db.m_config_list := (set_inserts_iff h config _).1 hins
    have hs2 := pairwise_sorted_insert h config _ hinv.sorted hc
    have hmem : ∀ x, x ∈ sorted_insert lt config db.m_config_list ↔
        x = config ∨ x ∈ db.m_config_list := fun x => mem_sorted_insert config x _
    have hcm : config ∈ sorted_insert lt config db.m_config_list := (hmem _).2 (Or.inl rfl)
    refine ⟨hs2, fun n => ?_⟩
    by_cases hn : n = scelname config
    · subst hn
      simp only [map_set, if_true]
      have hold := hinv.ranges (scelname config)
      match hr : db.m_scel_range (scelname config), hold with
      | none, hold =>
        refine ⟨hcm, hcm, rfl, rfl, fun x hx hxn => ?_⟩
        rcases (hmem x).1 hx with e | e
        · subst e; exact ⟨h.irrefl _, h.irrefl _⟩
        · exact absurd hxn (hold x e)
      | some (some f, some s), hold =>
        obtain ⟨hf, hsl, hfn, hsn, hall⟩ := hold
        have hf2 : f ∈ sorted_insert lt config db.m_config_list := (hmem _).2 (Or.inr hf)
        have hs3 : s ∈ sorted_insert lt config db.m_config_list := (hmem _).2 (Or.inr hsl)
        have hmin : ∀ x ∈ sorted_insert lt config db.m_config_list, x ≠ config →
            scelname x = scelname config → lt x f = false := fun x hx hne hxn =>
          (hall x (((hmem x).1 hx).resolve_left hne) hxn).1
        have hmax : ∀ x ∈ sorted_insert lt config db.m_config_list, x ≠ config →
            scelname x = scelname config → lt s x = false := fun x hx hne hxn =>
          (hall x (((hmem x).1 hx).resolve_left hne) hxn).2
        have hb := begin_eq_next_iff h _ hs2 config f hcm hf2 hfn hmin
        have hl := last_eq_prev_iff h _ hs2 config s hcm hs3 hsn hmax
        have hsf : lt s f = false := (hall s hsl hsn).1
        simp only [range_after_insert, std_next, std_prev, Option.some_bind]
        cases hcf : lt config f with
        | true =>
          rw [if_pos (hb.2 hcf)]
          refine ⟨hcm, hs3, rfl, hsn, fun x hx hxn => ?_⟩
          rcases (hmem x).1 hx with e | e
          · subst e
            refine ⟨h.irrefl _, ?_⟩
            cases hsc : lt s x with
            | false => rfl
            | true => rw [h.trans s x f hsc hcf] at hsf; cases hsf
          · refine ⟨?_, (hall x e hxn).2⟩
            cases hxc : lt x config with
            | false => rfl
            | true =>
              have := (hall x e hxn).1
              rw [h.trans x config f hxc hcf] at this
              cases this
        | false =>
          rw [if_neg (fun e => by rw [hb.1 e] at hcf; cases hcf)]
          cases hsc : lt s config with
          | true =>
            rw [if_pos (hl.2 hsc)]
            refine ⟨hf2, hcm, hfn, rfl, fun x hx hxn => ?_⟩
            rcases (hmem x).1 hx with e | e
            · subst e; exact ⟨hcf, h.irrefl _⟩
            · refine ⟨(hall x e hxn).1, ?_⟩
              cases hcx : lt config x with
              | false => rfl
              | true =>
                have := (hall x e hxn).2
                rw [h.trans s config x hsc hcx] at this
                cases this
          | false =>
            rw [if_neg (fun e => by rw [hl.1 e] at hsc; cases hsc)]
            refine ⟨hf2, hs3, hfn, hsn, fun x hx hxn => ?_⟩
            rcases (hmem x).1 hx with e | e
            · subst e; exact ⟨hcf, hsc⟩
            · exact hall x e hxn
    · simp only [map_set, if_neg hn]
      apply rangeOk_of_mem_iff _ _ n _ _ (hinv.ranges n)
      intro x hxn
      rw [hmem x]
      constructor
      · rintro (e | e)
        · subst e; exact absurd hxn.symm hn
        · exact e
      · exact Or.inr

end ConfigDatabase

namespace ConfigDatabase

variable {C : Type} [DecidableEq C] {lt : C → C → Bool} {scelname : C → String}

theorem inv_erase (h : ConfigOrder lt scelname) (db : ConfigDatabase C) (base_it : C)
    (hinv : Inv lt scelname db) (hc : base_it ∈ db.m_config_list) :
    Inv lt scelname (db.erase scelname base_it) := by
  have hnd := h.nodup_of_sorted hinv.sorted
  have hmem : ∀ x, x ∈ db.m_config_list.erase base_it ↔ x ≠ base_it ∧ x ∈ db.m_config_list :=
    fun x => hnd.mem_erase_iff
  have hs2 : (db.m_config_list.erase base_it).Pairwise (fun a b => lt a b = true) :=
    hinv.sorted.sublist (List.erase_sublist _ _)
  have hother : ∀ n, n ≠ scelname base_it →
      RangeOk lt scelname (db.m_config_list.erase base_it) n (db.m_scel_range n) := by
    intro n hn
    apply rangeOk_of_mem_iff _ _ n _ _ (hinv.ranges n)
    intro x hxn
    rw [hmem x]
    exact ⟨fun hx => hx.2, fun hx => ⟨fun e => hn (by rw [← hxn, e]), hx⟩⟩
  have hold := hinv.ranges (scelname base_it)
  unfold erase
  refine ⟨hs2, fun n => ?_⟩
  match hr : db.m_scel_range (scelname base_it), hold with
  | none, hold => exact absurd rfl (hold base_it hc)
  | some (some f, some s), hold =>
    obtain ⟨hf, hsl, hfn, hsn, hall⟩ := hold
    simp only [range_after_erase, Option.some.injEq, std_next, std_prev, Option.some_bind]
    by_cases hfs : f = s
    · subst hfs
      simp only [if_true]
      by_cases hn : n = scelname base_it
      · subst hn
        simp only [map_erase, if_true]
        intro x hx hxn
        have hx2 := (hmem x).1 hx
        have e1 : x = f := h.eq_of_not_lt (hall x hx2.2 hxn).1 (hall x hx2.2 hxn).2
        have e2 : base_it = f := h.eq_of_not_lt (hall _ hc rfl).1 (hall _ hc rfl).2
        exact hx2.1 (e1.trans e2.symm)
      · simp only [map_erase, if_neg hn]
        exact hother n hn
    · simp only [if_neg hfs]
      have hfs_lt : lt f s = true :=
        h.lt_of_not_lt_of_ne (hall s hsl hsn).1 (fun e => hfs e.symm)
      by_cases hfc : f = base_it
      · subst hfc
        simp only [if_true]
        by_cases hn : n = scelname f
        · subst hn
          simp only [map_set, if_true]
          cases hnx : next_of db.m_config_list f with
          | none =>
            have := (next_of_eq_none_iff h _ hinv.sorted f hc).1 hnx s hsl
            rw [hfs_lt] at this
            cases this
          | some y =>
            obtain ⟨hy, hfy, hmin⟩ := (next_of_eq_some_iff h _ hinv.sorted f hc y).1 hnx
            have hyf : y ≠ f := fun e => by
              subst e
              rw [h.irrefl] at hfy
              cases hfy
            have hsy : lt s y = false := hmin s hsl hfs_lt
            have hyn : scelname y = scelname f := by
              by_cases hys : y = s
              · subst hys; exact hsn
              · exact h.contiguous f y s hfy (h.lt_of_not_lt_of_ne hsy (fun e => hys e.symm))
                  hsn.symm
            refine ⟨(hmem y).2 ⟨hyf, hy⟩, (hmem s).2 ⟨fun e => hfs e.symm, hsl⟩, hyn, hsn,
              fun x hx hxn => ?_⟩
            have hx2 := (hmem x).1 hx
            have hfx : lt f x = true :=
              h.lt_of_not_lt_of_ne (hall x hx2.2 hxn).1 hx2.1
            exact ⟨hmin x hx2.2 hfx, (hall x hx2.2 hxn).2⟩
        · simp only [map_set, if_neg hn]
          exact hother n hn
      · simp only [if_neg hfc]
        by_cases hsc : s = base_it
        · subst hsc
          simp only [if_true]
          by_cases hn : n = scelname s
          · subst hn
            simp only [map_set, if_true]
            cases hpx : prev_of db.m_config_list s with
            | none =>
              have := (prev_of_eq_none_iff h _ hinv.sorted s hc).1 hpx f hf
              rw [hfs_lt] at this
              cases this
            | some y =>
              obtain ⟨hy, hys, hmax⟩ := (prev_of_eq_some_iff h _ hinv.sorted s hc y).1 hpx
              have hyne : y ≠ s := fun e => by
                subst e
                rw [h.irrefl] at hys
                cases hys
              have hyf : lt y f = false := hmax f hf hfs_lt
              have hyn : scelname y = scelname s := by
                by_cases hyf2 : y = f
                · subst hyf2; exact hfn
                · exact (h.contiguous f y s (h.lt_of_not_lt_of_ne hyf hyf2) hys
                    (hfn.trans hsn.symm)).trans hfn
              refine ⟨(hmem f).2 ⟨hfc, hf⟩, (hmem y).2 ⟨hyne, hy⟩, hfn, hyn,
                fun x hx hxn => ?_⟩
              have hx2 := (hmem x).1 hx
              have hxs : lt x s = true :=
                h.lt_of_not_lt_of_ne (hall x hx2.2 hxn).2 (fun e => hx2.1 e.symm)
              exact ⟨(hall x hx2.2 hxn).1, hmax x hx2.2 hxs⟩
          · simp only [map_set, if_neg hn]
            exact hother n hn
        · simp only [if_neg hsc]
          by_cases hn : n = scelname base_it
          · subst hn
            simp only [map_set, if_true]
            exact ⟨(hmem f).2 ⟨hfc, hf⟩, (hmem s).2 ⟨hsc, hsl⟩, hfn, hsn,
              fun x hx hxn => hall x ((hmem x).1 hx).2 hxn⟩
          · simp only [map_set, if_neg hn]
            exact hother n hn

theorem inv_of_reachable (h : ConfigOrder lt scelname) (db : ConfigDatabase C)
    (hr : Reachable lt scelname db) : Inv lt scelname db := by
  induction hr with
  | empty => exact inv_empty
  | insert db config _ ih => exact inv_insert h db config ih
  | erase db base_it _ hmem ih => exact inv_erase h db base_it ih hmem

theorem scel_range_eq_of_inv (h : ConfigOrder lt scelname) (db : ConfigDatabase C)
    (hinv : Inv lt scelname db) (name : String) :
    db.scel_range name = db.m_config_list.filter (fun x => decide (scelname x = name)) := by
  have hold := hinv.ranges name
  unfold scel_range
  match hr : db.m_scel_range name, hold with
  | none, hold =>
    symm
    rw [List.filter_eq_nil_iff]
    intro x hx
    simpa using hold x hx
  | some (some f, some s), hold =>
    obtain ⟨hf, hsl, hfn, hsn, hall⟩ := hold
    have hbetween : ∀ x, lt x f = false → lt s x = false → scelname x = name := by
      intro x hxf hsx
      by_cases e1 : x = f
      · subst e1; exact hfn
      · by_cases e2 : x = s
        · subst e2; exact hsn
        · exact (h.contiguous f x s (h.lt_of_not_lt_of_ne hxf e1)
            (h.lt_of_not_lt_of_ne hsx (fun e => e2 e.symm)) (hfn.trans hsn.symm)).trans hfn
    show iterator_range db.m_config_list (some f) (std_next db.m_config_list (some s)) = _
    rw [iterator_range_some,
      show std_next db.m_config_list (some s) = next_of db.m_config_list s from rfl,
      dropWhile_ne_eq_filter h _ hinv.sorted f hf]
    cases hnx : next_of db.m_config_list s with
    | none =>
      have hnone := (next_of_eq_none_iff h _ hinv.sorted s hsl).1 hnx
      rw [takeWhile_ne_none]
      apply List.filter_congr
      intro x hx
      cases hxf : lt x f with
      | true =>
        have hne : scelname x ≠ name := fun e => by
          rw [(hall x hx e).1] at hxf
          cases hxf
        simp [hne]
      | false => simp [hbetween x hxf (hnone x hx)]
    | some y =>
      obtain ⟨hy, hsy, hmin⟩ := (next_of_eq_some_iff h _ hinv.sorted s hsl y).1 hnx
      have hyf : lt y f = false := by
        cases hyf : lt y f with
        | false => rfl
        | true =>
          have := (hall s hsl hsn).1
          rw [h.trans s y f hsy hyf] at this
          cases this
      rw [takeWhile_ne_eq_filter h _ (hinv.sorted.filter _) y
        (List.mem_filter.2 ⟨hy, by simp [hyf]⟩), List.filter_filter]
      apply List.filter_congr
      intro x hx
      cases hxn : decide (scelname x = name) with
      | true =>
        have hxn2 : scelname x = name := by simpa using hxn
        have hxy : lt x y = true := h.lt_of_not_lt_of_lt (hall x hx hxn2).2 hsy
        simp [hxy, (hall x hx hxn2).1]
      | false =>
        have hxn2 : scelname x ≠ name := by simpa using hxn
        cases hxy : lt x y with
        | false => simp
        | true =>
          cases hxf : lt x f with
          | true => simp
          | false =>
            have hsx : lt s x = false := by
              cases hsx : lt s x with
              | false => rfl
              | true => rw [hmin x hx hsx] at hxy; cases hxy
            exact absurd (hbetween x hxf hsx) hxn2

/-- Claim C14. After any sequence of insert and erase operations on
jsonDatabase<Configuration>, the order of configurations keeping the
configurations of one supercell contiguous, scel_range(name) is the range of
exactly the stored configurations whose supercell name is name, in order;
when there is none the map has no entry for the name and the range is the
empty range (end, end). -/
theorem scel_range_exact (lt : C → C → Bool) (scelname : C → String)
    (h : ConfigOrder lt scelname) (db : ConfigDatabase C)
    (hr : Reachable lt scelname db) (name : String) :
    db.scel_range name = db.m_config_list.filter (fun x => decide (scelname x = name)) ∧
    ((∀ x ∈ db.m_config_list, scelname x ≠ name) →
      db.m_scel_range name = none ∧ db.scel_range name = []) := by
  have hinv := inv_of_reachable h db hr
  have heq := scel_range_eq_of_inv h db hinv name
  refine ⟨heq, fun hnone => ?_⟩
  have hold := hinv.ranges name
  match hrr : db.m_scel_range name, hold with
  | none, _ =>
    refine ⟨rfl, ?_⟩
    unfold scel_range
    rw [hrr]
  | some (some f, some s), hold => exact absurd hold.2.2.1 (hnone f hold.1)

end ConfigDatabase

theorem SmallDatabase.config_order :
    ConfigOrder SmallDatabase.config_lt SmallDatabase.config_scelname where
  irrefl := by decide
  trans := by decide
  total := by decide
  contiguous := by decide

theorem SmallDatabase.config_db_reachable :
    ConfigDatabase.Reachable SmallDatabase.config_lt SmallDatabase.config_scelname
      SmallDatabase.config_db :=
  ConfigDatabase.Reachable.erase _ _
    (ConfigDatabase.Reachable.insert _ _
      (ConfigDatabase.Reachable.insert _ _
        (ConfigDatabase.Reachable.insert _ _
          (ConfigDatabase.Reachable.insert _ _ ConfigDatabase.Reachable.empty))))
    (by decide)

theorem scel_range_exact_witness :
    SmallDatabase.config_db.scel_range "SCEL1_1_1_1_0_0_0" =
        SmallDatabase.config_db.m_config_list.filter
          (fun x => decide (SmallDatabase.config_scelname x = "SCEL1_1_1_1_0_0_0")) ∧
      ((∀ x ∈ SmallDatabase.config_db.m_config_list,
          SmallDatabase.config_scelname x ≠ "SCEL1_1_1_1_0_0_0") →
        SmallDatabase.config_db.m_scel_range "SCEL1_1_1_1_0_0_0" = none ∧
          SmallDatabase.config_db.scel_range "SCEL1_1_1_1_0_0_0" = []) :=
  ConfigDatabase.scel_range_exact SmallDatabase.config_lt SmallDatabase.config_scelname
    SmallDatabase.config_order SmallDatabase.config_db SmallDatabase.config_db_reachable
    "SCEL1_1_1_1_0_0_0"

/-- Claim C13 fails on the code: orbit_scel_range never reads its supercell
name (it searches the inner map with the orbit name), so for every database
the result is the same for every supercell name; after the insertion of a
DiffTransConfiguration of orbit "diff_trans/0" in supercell
"SCEL1_1_1_1_0_0_0" the range for these names is empty although the
DiffTransConfiguration is stored. -/
theorem orbit_scel_range_ignores_scelname :
    (∀ (db : DiffTransConfigDatabase SmallDatabase.StoredDTC) (O S1 S2 : String),
      db.orbit_scel_range O S1 = db.orbit_scel_range O S2) ∧
    SmallDatabase.dtc_db.m_diff_trans_config_list =
      [("diff_trans/0", "SCEL1_1_1_1_0_0_0", 0)] ∧
    SmallDatabase.dtc_db.orbit_scel_range "diff_trans/0" "SCEL1_1_1_1_0_0_0" = [] := by
  refine ⟨fun _ _ _ _ => rfl, by decide, by decide⟩

/-! ## Equivalence of lattices -/

/-- Claim C15 fails on the code: operator()(A, B, other) builds the object on
copy_apply(A, lat) and does not use it, so for every A it returns what
operator()(B, other) returns; for the lattice (1,0,0), (0,2,0), (0,0,1), A
the quarter turn, B the identity and other the rotated lattice it returns
false, while LatticeIsEquivalent(copy_apply(A, lat))(copy_apply(B, other))
is true. -/
theorem lattice_is_equivalent_ignores_A :
    (∀ (SymOp : Type) (is_unimodular : Matrix3d → ℚ → Bool)
        (copy_apply : SymOp → Lattice → Lattice) (uninitialized : Matrix3d)
        (self : LatticeIsEquivalent) (A B : SymOp) (other : Lattice),
      LatticeIsEquivalent.call_op_op_lattice is_unimodular copy_apply uninitialized self A B
          other =
        LatticeIsEquivalent.call_op_lattice is_unimodular copy_apply self B other) ∧
    (LatticeIsEquivalent.call_op_op_lattice SmallLattice.is_unimodular SmallLattice.copy_apply
        Matrix3d.identity (LatticeIsEquivalent.construct SmallLattice.lat Matrix3d.identity)
        SmallLattice.rot Matrix3d.identity SmallLattice.rotated).1 = false ∧
    (LatticeIsEquivalent.call_lattice SmallLattice.is_unimodular
        (LatticeIsEquivalent.construct
          (SmallLattice.copy_apply SmallLattice.rot SmallLattice.lat) Matrix3d.identity)
        (SmallLattice.copy_apply Matrix3d.identity SmallLattice.rotated)).1 = true := by
  refine ⟨fun _ _ _ _ _ _ _ _ => rfl, by decide!, by decide!⟩

/-- Claim C16 fails on the code: operator()(other) leaves the member m_U as
it was, so U() after the call is the value m_U had before, whatever other
is; for the lattice (1,0,0), (0,2,0), (0,0,1) checked against the rotated
lattice, the matrix of the check is not the identity, and U() returns the
identity the object was built with. -/
theorem lattice_is_equivalent_U_unchanged :
    (∀ (is_unimodular : Matrix3d → ℚ → Bool) (self : LatticeIsEquivalent) (other : Lattice),
      (LatticeIsEquivalent.call_lattice is_unimodular self other).2.U = self.U) ∧
    (LatticeIsEquivalent.call_lattice SmallLattice.is_unimodular
        (LatticeIsEquivalent.construct SmallLattice.lat Matrix3d.identity)
        SmallLattice.rotated).2.U = Matrix3d.identity ∧
    Matrix3d.mul (Matrix3d.inverse SmallLattice.rotated.lat_column_mat)
        SmallLattice.lat.lat_column_mat =
      ![![0, 2, 0], ![-1 / 2, 0, 0], ![0, 0, 1]] := by
  refine ⟨fun _ _ _ => rfl, rfl, by decide!⟩

/-! ## Iteration over the orbits of a ClexBasis -/

/-- Claim C17 fails on the code: end() and cend() return m_bset_tree.cbegin(),
so the range [begin(), end()) visits no orbit, whatever the ClexBasis holds;
with one orbit stored, bset_orbit(0) is there and is not visited. -/
theorem clex_basis_range_empty :
    (∀ (BasisSet : Type) (c : ClexBasis BasisSet),
      c.visited c.begin c.end_ = [] ∧ c.visited c.cbegin c.cend = []) ∧
    (ClexBasis.mk [[(0 : Nat)]]).bset_orbit 0 = some [0] ∧
    (ClexBasis.mk [[(0 : Nat)]]).visited (ClexBasis.mk [[(0 : Nat)]]).begin
      (ClexBasis.mk [[(0 : Nat)]]).end_ = [] := by
  refine ⟨fun _ c => ⟨?_, ?_⟩, rfl, rfl⟩ <;> simp [ClexBasis.visited, ClexBasis.begin,
    ClexBasis.end_, ClexBasis.cbegin, ClexBasis.cend]

/-! ## Reading a ChemicalReferenceState -/

theorem from_json_state_loop_error_iff (is_vacancy : String → Bool)
    (get_double : Json → Except String ℚ) (ms : List (String × Json))
    (st : ChemicalReferenceState × Bool) :
    (∃ e, from_json_state_loop is_vacancy get_double ms st = Except.error e) ↔
      ∃ m ∈ ms, (m.1 ≠ "energy_per_species" ∧ is_vacancy m.1 = true) ∨
        ((m.1 = "energy_per_species" ∨ is_vacancy m.1 = false) ∧
          ∃ e, get_double m.2 = Except.error e) := by
  induction ms generalizing st with
  | nil => simp [from_json_state_loop]
  | cons m rest ih =>
    obtain ⟨name, value⟩ := m
    obtain ⟨ref_state, found_value⟩ := st
    have hrest : ∀ st2, from_json_state_loop is_vacancy get_double ((name, value) :: rest)
          (ref_state, found_value) = from_json_state_loop is_vacancy get_double rest st2 →
        (∀ e, get_double value ≠ Except.error e) →
        (name ≠ "energy_per_species" → is_vacancy name = false) →
        ((∃ e, from_json_state_loop is_vacancy get_double ((name, value) :: rest)
            (ref_state, found_value) = Except.error e) ↔
          ∃ m ∈ (name, value) :: rest, (m.1 ≠ "energy_per_species" ∧ is_vacancy m.1 = true) ∨
            ((m.1 = "energy_per_species" ∨ is_vacancy m.1 = false) ∧
              ∃ e, get_double m.2 = Except.error e)) := by
      intro st2 hl hread hnovac
      rw [hl, ih]
      constructor
      · rintro ⟨m, hm, h⟩
        exact ⟨m, List.mem_cons_of_mem _ hm, h⟩
      · rintro ⟨m, hm, h⟩
        rcases List.mem_cons.1 hm with rfl | hm
        · rcases h with ⟨hne, hv⟩ | ⟨-, e, he⟩
          · rw [hnovac hne] at hv
            cases hv
          · exact absurd he (hread e)
        · exact ⟨m, hm, h⟩
    by_cases hE : name = "energy_per_species"
    · cases hx : get_double value with
      | error e =>
        refine iff_of_true ⟨e, ?_⟩
          ⟨(name, value), List.mem_cons_self _ _, Or.inr ⟨Or.inl hE, e, hx⟩⟩
        simp [from_json_state_loop, hE, hx]
      | ok x =>
        refine hrest ({ ref_state with energy_per_species := x }, true) ?_ ?_
          (fun hne => absurd hE hne)
        · simp [from_json_state_loop, hE, hx]
        · intro e he
          rw [hx] at he
          cases he
    · cases hvac : is_vacancy name with
      | true =>
        refine iff_of_true
          ⟨"Error reading chemical reference: Input should not include vacancies", ?_⟩
          ⟨(name, value), List.mem_cons_self _ _, Or.inl ⟨hE, hvac⟩⟩
        simp [from_json_state_loop, hE, hvac]
      | false =>
        cases hx : get_double value with
        | error e =>
          refine iff_of_true ⟨e, ?_⟩
            ⟨(name, value), List.mem_cons_self _ _, Or.inr ⟨Or.inr hvac, e, hx⟩⟩
          simp [from_json_state_loop, hE, hvac, hx]
        | ok x =>
          refine hrest ({ ref_state with
            species_num := map_set ref_state.species_num name x }, found_value) ?_ ?_
            (fun _ => hvac)
          · simp [from_json_state_loop, hE, hvac, hx]
          · intro e he
            rw [hx] at he
            cases he

theorem from_json_state_loop_ok (is_vacancy : String → Bool)
    (get_double : Json → Except String ℚ) (ms : List (String × Json))
    (hnodup : (ms.map Prod.fst).Nodup)
    (st st2 : ChemicalReferenceState) (fd fd2 : Bool)
    (hok : from_json_state_loop is_vacancy get_double ms (st, fd) = Except.ok (st2, fd2)) :
    fd2 = (fd || ms.any (fun m => decide (m.1 = "energy_per_species"))) ∧
    (∀ k, (k = "energy_per_species" ∨ ∀ v, (k, v) ∉ ms) →
      st2.species_num k = st.species_num k) ∧
    (∀ k v, (k, v) ∈ ms → k ≠ "energy_per_species" →
      ∃ x, get_double v = Except.ok x ∧ st2.species_num k = some x) ∧
    (∀ v, ("energy_per_species", v) ∈ ms →
      get_double v = Except.ok st2.energy_per_species) ∧
    ((∀ v, ("energy_per_species", v) ∉ ms) →
      st2.energy_per_species = st.energy_per_species) := by
  induction ms generalizing st fd with
  | nil =>
    simp only [from_json_state_loop, Except.ok.injEq, Prod.mk.injEq] at hok
    obtain ⟨rfl, rfl⟩ := hok
    simp
  | cons m rest ih =>
    obtain ⟨name, value⟩ := m
    simp only [List.map_cons, List.nodup_cons, List.mem_map, Prod.exists, exists_and_right,
      exists_eq_right, not_exists] at hnodup
    obtain ⟨hfresh, hnd⟩ := hnodup
    by_cases hE : name = "energy_per_species"
    · subst hE
      simp only [from_json_state_loop, if_true] at hok
      cases hx : get_double value with
      | error e => rw [hx] at hok; cases hok
      | ok x =>
        rw [hx] at hok
        obtain ⟨h1, h2, h3, -, h5⟩ := ih hnd _ _ hok
        refine ⟨by simp [h1], fun k hk => ?_, fun k v hkv hne => ?_, fun v hv => ?_,
          fun hnone => absurd (List.mem_cons_self _ _) (hnone value)⟩
        · rw [h2 k (hk.imp id (fun hk v hv => hk v (List.mem_cons_of_mem _ hv)))]
        · rcases List.mem_cons.1 hkv with e | e
          · exact absurd (congrArg Prod.fst e) hne
          · exact h3 k v e hne
        · rcases List.mem_cons.1 hv with e | e
          · rw [(Prod.mk.inj e).2, hx, h5 (fun v hv => hfresh v hv)]
          · exact absurd e (hfresh v)
    · by_cases hvac : is_vacancy name = true
      · simp [from_json_state_loop, hE, hvac] at hok
      · simp only [from_json_state_loop, hE, if_false, hvac, Bool.false_eq_true] at hok
        cases hx : get_double value with
        | error e => rw [hx] at hok; cases hok
        | ok x =>
          rw [hx] at hok
          obtain ⟨h1, h2, h3, h4, h5⟩ := ih hnd _ _ hok
          refine ⟨?_, fun k hk => ?_, fun k v hkv hne => ?_, fun v hv => ?_, fun hnone => ?_⟩
          · simp [h1, hE]
          · rw [h2 k (hk.imp id (fun hk v hv => hk v (List.mem_cons_of_mem _ hv)))]
            have hkn : k ≠ name := by
              rcases hk with e | e
              · exact fun e2 => hE (e2 ▸ e)
              · exact fun e2 => e value (e2 ▸ List.mem_cons_self _ _)
            simp [map_set, hkn]
          · rcases List.mem_cons.1 hkv with e | e
            · obtain ⟨rfl, rfl⟩ := Prod.mk.inj e
              refine ⟨x, hx, ?_⟩
              rw [h2 k (Or.inr (fun v hv => hfresh v hv))]
              simp [map_set]
            · exact h3 k v e hne
          · rcases List.mem_cons.1 hv with e | e
            · exact absurd (congrArg Prod.fst e).symm hE
            · exact h4 v e
          · rw [h5 (fun v hv => hnone v (List.mem_cons_of_mem _ hv))]

/-- Claim C18, as stated, fails: the object {"A": "x", "energy_per_species": 2}
has an "energy_per_species" member and no member with a vacancy name, and
reading it throws, because the value of "A" does not read as a number. -/
theorem from_json_state_unreadable_member :
    (∃ e, from_json_ChemicalReferenceState SmallJson.is_vacancy SmallJson.get_double 0
        (Json.object SmallJson.unreadable_state_members) = Except.error e) ∧
    ¬ ((∀ v, ("energy_per_species", v) ∉ SmallJson.unreadable_state_members) ∨
      ∃ m ∈ SmallJson.unreadable_state_members, SmallJson.is_vacancy m.1 = true) := by
  refine ⟨⟨_, rfl⟩, ?_⟩
  rintro (h | h)
  · exact h (Json.number 2) (by simp [SmallJson.unreadable_state_members])
  · revert h
    decide

/-- Claim C18, amended. Reading a ChemicalReferenceState from a JSON object
(one member per name, "energy_per_species" being no vacancy name) throws if
and only if the object has no "energy_per_species" member, or has a member
whose name is a vacancy name, or has a member whose value does not read as a
number; otherwise the state has the value of that member as
energy_per_species, and species_num maps every other member name to its
value and no other name. -/
theorem from_json_state_spec (is_vacancy : String → Bool)
    (get_double : Json → Except String ℚ) (uninitialized : ℚ) (members : List (String × Json))
    (hv : is_vacancy "energy_per_species" = false)
    (hnodup : (members.map Prod.fst).Nodup) :
    ((∃ e, from_json_ChemicalReferenceState is_vacancy get_double uninitialized
          (Json.object members) = Except.error e) ↔
      ((∀ v, ("energy_per_species", v) ∉ members) ∨
        (∃ m ∈ members, is_vacancy m.1 = true) ∨
        (∃ m ∈ members, ∃ e, get_double m.2 = Except.error e))) ∧
    (∀ st, from_json_ChemicalReferenceState is_vacancy get_double uninitialized
        (Json.object members) = Except.ok st →
      (∀ v, ("energy_per_species", v) ∈ members →
        get_double v = Except.ok st.energy_per_species) ∧
      (∀ k v, (k, v) ∈ members → k ≠ "energy_per_species" →
        ∃ x, get_double v = Except.ok x ∧ st.species_num k = some x) ∧
      (∀ k, (k = "energy_per_species" ∨ ∀ v, (k, v) ∉ members) → st.species_num k = none)) := by
  have hloop_iff : (∃ e, from_json_state_loop is_vacancy get_double members
        ({ species_num := fun _ => none, energy_per_species := uninitialized }, false) =
          Except.error e) ↔
      ((∃ m ∈ members, is_vacancy m.1 = true) ∨
        (∃ m ∈ members, ∃ e, get_double m.2 = Except.error e)) := by
    rw [from_json_state_loop_error_iff]
    constructor
    · rintro ⟨m, hm, ⟨-, h⟩ | ⟨-, h⟩⟩
      · exact Or.inl ⟨m, hm, h⟩
      · exact Or.inr ⟨m, hm, h⟩
    · rintro (⟨m, hm, h⟩ | ⟨m, hm, h⟩)
      · refine ⟨m, hm, Or.inl ⟨fun e => ?_, h⟩⟩
        rw [e, hv] at h
        cases h
      · by_cases hE : m.1 = "energy_per_species"
        · exact ⟨m, hm, Or.inr ⟨Or.inl hE, h⟩⟩
        · cases hvac : is_vacancy m.1 with
          | true => exact ⟨m, hm, Or.inl ⟨hE, hvac⟩⟩
          | false => exact ⟨m, hm, Or.inr ⟨Or.inr hvac, h⟩⟩
  have hany : ∀ ms : List (String × Json),
      ms.any (fun m => decide (m.1 = "energy_per_species")) = false ↔
        ∀ v, ("energy_per_species", v) ∉ ms := by
    intro ms
    rw [List.any_eq_false]
    constructor
    · intro h v hvm
      simpa using h _ hvm
    · intro h m hm
      obtain ⟨k, v⟩ := m
      simp only [decide_eq_true_eq]
      rintro rfl
      exact h v hm
  unfold from_json_ChemicalReferenceState
  simp only [Json.members]
  cases hloop : from_json_state_loop is_vacancy get_double members
      ({ species_num := fun _ => none, energy_per_species := uninitialized }, false) with
  | error e =>
    have := hloop_iff.1 ⟨e, hloop⟩
    simp only [reduceCtorEq, false_implies, implies_true, and_true]
    exact iff_of_true ⟨e, rfl⟩ (Or.inr this)
  | ok res =>
    obtain ⟨st2, fd2⟩ := res
    have hnoerr : ¬ ((∃ m ∈ members, is_vacancy m.1 = true) ∨
        (∃ m ∈ members, ∃ e, get_double m.2 = Except.error e)) := fun hex => by
      obtain ⟨e, he⟩ := hloop_iff.2 hex
      rw [hloop] at he
      cases he
    obtain ⟨h1, h2, h3, h4, -⟩ := from_json_state_loop_ok is_vacancy get_double members hnodup
      _ st2 false fd2 hloop
    simp only [Bool.false_or] at h1
    cases hfd : fd2 with
    | false =>
      rw [hfd] at h1
      have hnoE := (hany members).1 h1.symm
      simp only [Bool.not_false, if_true, reduceCtorEq, false_implies, implies_true, and_true]
      exact iff_of_true ⟨_, rfl⟩ (Or.inl hnoE)
    | true =>
      rw [hfd] at h1
      have hE : ¬ ∀ v, ("energy_per_species", v) ∉ members := fun hn => by
        rw [(hany members).2 hn] at h1
        cases h1
      simp only [Bool.not_true, Bool.false_eq_true, if_false, reduceCtorEq, exists_false,
        false_iff, Except.ok.injEq]
      refine ⟨fun h => h.elim hE hnoerr, ?_⟩
      rintro st rfl
      exact ⟨h4, h3, fun k hk => by rw [h2 k hk]⟩

theorem from_json_state_spec_witness :
    ((∃ e, from_json_ChemicalReferenceState SmallJson.is_vacancy SmallJson.get_double 0
          (Json.object SmallJson.state_members) = Except.error e) ↔
      ((∀ v, ("energy_per_species", v) ∉ SmallJson.state_members) ∨
        (∃ m ∈ SmallJson.state_members, SmallJson.is_vacancy m.1 = true) ∨
        (∃ m ∈ SmallJson.state_members, ∃ e, SmallJson.get_double m.2 = Except.error e))) ∧
    (∀ st, from_json_ChemicalReferenceState SmallJson.is_vacancy SmallJson.get_double 0
        (Json.object SmallJson.state_members) = Except.ok st →
      (∀ v, ("energy_per_species", v) ∈ SmallJson.state_members →
        SmallJson.get_double v = Except.ok st.energy_per_species) ∧
      (∀ k v, (k, v) ∈ SmallJson.state_members → k ≠ "energy_per_species" →
        ∃ x, SmallJson.get_double v = Except.ok x ∧ st.species_num k = some x) ∧
      (∀ k, (k = "energy_per_species" ∨ ∀ v, (k, v) ∉ SmallJson.state_members) →
        st.species_num k = none)) :=
  from_json_state_spec SmallJson.is_vacancy SmallJson.get_double 0 SmallJson.state_members
    (by decide) (by decide)

/-! ## Reading one chemical reference -/

theorem map_for_loop_other_container {V A : Type} (container : Nat) (stop : MapIterator)
    (hne : stop.container ≠ container) (body : String × V → A → A) (entries : List (String × V))
    (position : Nat) (acc : A) :
    map_for_loop container stop body position entries acc =
      Except.error "undefined: end() of the map dereferenced" := by
  have hstop : ∀ p, MapIterator.mk container p ≠ stop := fun p e => hne (by rw [← e])
  induction entries generalizing position acc with
  | nil => simp [map_for_loop, hstop]
  | cons entry rest ih => simp [map_for_loop, hstop, ih]

theorem map_for_loop_own_end {V A : Type} (container : Nat) (body : String × V → A → A)
    (entries : List (String × V)) (position : Nat) (acc : A) :
    map_for_loop container ⟨container, position + entries.length⟩ body position entries acc =
      Except.ok (entries.foldl (fun a e => body e a) acc) := by
  induction entries generalizing position acc with
  | nil => simp [map_for_loop]
  | cons entry rest ih =>
    have hne : MapIterator.mk container position ≠
        ⟨container, position + (entry :: rest).length⟩ := by
      intro e
      have := congrArg MapIterator.position e
      simp at this
    have hlen : position + (entry :: rest).length = position + 1 + rest.length := by
      simp only [List.length_cons]
      omega
    rw [map_for_loop, if_neg hne, hlen, ih]
    rfl

/-- Claim C20 fails on the code: the loop that writes "config" runs over
ref.config() and is ended by comparison with ref.supercell().end(), an
iterator of another map, so it never ends at the end of ref.config(): for
every ChemicalReference it goes past the last entry and no JSON is produced;
the loop that writes "supercell" ends at the end of its own map and writes one
member per key. -/
theorem to_json_config_loop_overruns :
    (∀ (to_json_names : List String → Json) (to_json_vector : List ℚ → Json)
        (to_json_states : List ChemicalReferenceState → Json) (ref : ChemicalReference),
      ChemicalReference.to_json to_json_names to_json_vector to_json_states ref =
        Except.error "undefined: end() of the map dereferenced") ∧
    (∀ (to_json_vector : List ℚ → Json) (to_json_states : List ChemicalReferenceState → Json)
        (ref : ChemicalReference),
      map_for_loop ChemicalReference.supercell_map
          ⟨ChemicalReference.supercell_map, ref.supercell.length⟩
          (ChemicalReference.write_entry to_json_vector to_json_states ref.supercell_ref_states)
          0 ref.supercell [] =
        Except.ok (ref.supercell.foldl (fun a e =>
          ChemicalReference.write_entry to_json_vector to_json_states ref.supercell_ref_states
            e a) [])) ∧
    ChemicalReference.to_json (fun _ => Json.null) (fun _ => Json.null) (fun _ => Json.null)
        SmallJson.plain_reference =
      Except.error "undefined: end() of the map dereferenced" := by
  have hsup : ∀ (to_json_vector : List ℚ → Json)
      (to_json_states : List ChemicalReferenceState → Json) (ref : ChemicalReference),
      map_for_loop ChemicalReference.supercell_map
          ⟨ChemicalReference.supercell_map, ref.supercell.length⟩
          (ChemicalReference.write_entry to_json_vector to_json_states ref.supercell_ref_states)
          0 ref.supercell [] =
        Except.ok (ref.supercell.foldl (fun a e =>
          ChemicalReference.write_entry to_json_vector to_json_states ref.supercell_ref_states
            e a) []) := by
    intro to_json_vector to_json_states ref
    have := map_for_loop_own_end ChemicalReference.supercell_map
      (ChemicalReference.write_entry to_json_vector to_json_states ref.supercell_ref_states)
      ref.supercell 0 []
    simpa using this
  have hall : ∀ (to_json_names : List String → Json) (to_json_vector : List ℚ → Json)
      (to_json_states : List ChemicalReferenceState → Json) (ref : ChemicalReference),
      ChemicalReference.to_json to_json_names to_json_vector to_json_states ref =
        Except.error "undefined: end() of the map dereferenced" := by
    intro to_json_names to_json_vector to_json_states ref
    unfold ChemicalReference.to_json
    rw [hsup]
    simp only
    have hne : (MapIterator.mk ChemicalReference.supercell_map ref.supercell.length).container ≠
        ChemicalReference.config_map := by
      show ChemicalReference.supercell_map ≠ ChemicalReference.config_map
      decide
    rw [map_for_loop_other_container ChemicalReference.config_map _ hne]
  exact ⟨hall, hsup, hall _ _ _ _⟩

/-! ## std::next_permutation: every step goes up in the lexicographic order -/

section NextPermutation

variable {α : Type} {lt : α → α → Bool}

theorem swap_last_greater_spec (x : α) :
    ∀ (ys : List α) (z : α) (ys' : List α), swap_last_greater lt x ys = some (z, ys') →
      lt x z = true ∧ (z :: ys').Perm (x :: ys) := by
  intro ys
  induction ys with
  | nil => intro z ys' h; simp [swap_last_greater] at h
  | cons y ys ih =>
    intro z ys' h
    simp only [swap_last_greater] at h
    cases hrec : swap_last_greater lt x ys with
    | some p =>
      obtain ⟨z1, ys1⟩ := p
      rw [hrec] at h
      simp only [Option.some.injEq, Prod.mk.injEq] at h
      obtain ⟨rfl, rfl⟩ := h
      obtain ⟨hlt, hperm⟩ := ih z1 ys1 hrec
      refine ⟨hlt, ?_⟩
      exact (List.Perm.swap y z1 ys1).trans ((hperm.cons y).trans (List.Perm.swap x y ys))
    | none =>
      rw [hrec] at h
      by_cases hxy : lt x y = true
      · simp only [hxy, if_true, Option.some.injEq, Prod.mk.injEq] at h
        obtain ⟨rfl, rfl⟩ := h
        exact ⟨hxy, List.Perm.swap x y ys⟩
      · simp [hxy] at h

theorem next_permutation_step_spec :
    ∀ (l l' : List α), next_permutation_step lt l = some l' →
      l'.Perm l ∧ List.Lex (fun a b => lt a b = true) l l' := by
  intro l
  induction l with
  | nil => intro l' h; simp [next_permutation_step] at h
  | cons x rest ih =>
    intro l' h
    simp only [next_permutation_step] at h
    cases hrec : next_permutation_step lt rest with
    | some rest' =>
      rw [hrec] at h
      simp only [Option.some.injEq] at h
      subst h
      obtain ⟨hp, hl⟩ := ih rest' hrec
      exact ⟨hp.cons x, List.Lex.cons hl⟩
    | none =>
      rw [hrec] at h
      cases rest with
      | nil => simp at h
      | cons y ys =>
        simp only at h
        by_cases hxy : lt x y = true
        · simp only [hxy, if_true] at h
          cases hsw : swap_last_greater lt x (y :: ys) with
          | none => rw [hsw] at h; simp at h
          | some p =>
            obtain ⟨z, rest'⟩ := p
            rw [hsw] at h
            simp only [Option.some.injEq] at h
            subst h
            obtain ⟨hlt, hperm⟩ := swap_last_greater_spec x (y :: ys) z rest' hsw
            refine ⟨?_, List.Lex.rel hlt⟩
            exact ((List.reverse_perm rest').cons z).trans hperm
        · simp [hxy] at h

theorem lex_lt_trans (htrans : ∀ a b c, lt a b = true → lt b c = true → lt a c = true) :
    ∀ {l1 l2 l3 : List α}, List.Lex (fun a b => lt a b = true) l1 l2 →
      List.Lex (fun a b => lt a b = true) l2 l3 → List.Lex (fun a b => lt a b = true) l1 l3 := by
  intro l1 l2 l3 h12
  induction h12 generalizing l3 with
  | nil => intro h23; cases h23 <;> exact List.Lex.nil
  | cons h ih =>
    intro h23
    cases h23 with
    | cons h' => exact List.Lex.cons (ih h')
    | rel h' => exact List.Lex.rel h'
  | rel h =>
    intro h23
    cases h23 with
    | cons h' => exact List.Lex.rel h
    | rel h' => exact List.Lex.rel (htrans _ _ _ h h')

theorem lex_lt_irrefl (hirr : ∀ a, lt a a = false) :
    ∀ (l : List α), ¬ List.Lex (fun a b => lt a b = true) l l := by
  intro l
  induction l with
  | nil => intro h; cases h
  | cons a l ih =>
    intro h
    cases h with
    | cons h' => exact ih h'
    | rel h' => rw [hirr a] at h'; cases h'

/-- Induction along std::next_permutation: a property that holds of a range
as soon as it holds of its next permutation (when there is one) holds of
every range. This is what makes a loop over next_permutation end. -/
theorem next_permutation_induction (hlt : StrictWeakOrder lt) (P : List α → Prop)
    (step : ∀ l, (∀ l', next_permutation_step lt l = some l' → P l') → P l) :
    ∀ l, P l := by
  intro l0
  haveI : IsStrictOrder (List α) (fun a b => List.Lex (fun a b => lt a b = true) b a) :=
    { irrefl := fun l => lex_lt_irrefl hlt.irrefl l
      trans := fun _ _ _ h1 h2 => lex_lt_trans hlt.trans h2 h1 }
  have hfin : {l | l ∈ l0.permutations}.Finite := List.finite_toSet _
  have hwf := Set.Finite.wellFoundedOn
    (r := fun a b => List.Lex (fun a b => lt a b = true) b a) hfin
  refine hwf.induction (P := P) (x := l0) ?_ ?_
  · show l0 ∈ l0.permutations
    exact List.mem_permutations.2 (List.Perm.refl _)
  · intro y hy ih
    apply step
    intro l' hl'
    obtain ⟨hp, hlex⟩ := next_permutation_step_spec y l' hl'
    have hy' : y.Perm l0 := List.mem_permutations.1 hy
    exact ih l' (List.mem_permutations.2 (hp.trans hy')) hlex

end NextPermutation
/-! ## DiffusionTransformationEnum: the current transformation is valid -/

namespace Kinetics

namespace DiffusionTransformationEnum

variable {κ : Type} {E : Collaborators κ}

theorem update_occ_from_idem (values : List Nat) (N : Nat) :
    ∀ (l : List OccupationTransformation) (i : Nat),
      update_occ_from values N i (update_occ_from values N i l) = update_occ_from values N i l := by
  intro l
  induction l with
  | nil => intro i; rfl
  | cons t rest ih => intro i; simp only [update_occ_from, ih]

theorem update_occ_from_zero (N : Nat) (k : Nat) :
    ∀ (l : List OccupationTransformation) (i : Nat),
      ∀ t ∈ update_occ_from (List.replicate k 0) N i l, t.from_value = t.to_value := by
  have hget : ∀ j, (List.replicate k 0).getD j 0 = 0 := by
    intro j
    rw [List.getD_eq_getElem?_getD]
    by_cases hj : j < k
    · simp [List.getElem?_replicate, hj]
    · simp [List.getElem?_replicate, hj]
  intro l
  induction l with
  | nil => intro i t ht; simp [update_occ_from] at ht
  | cons a rest ih =>
    intro i t ht
    simp only [update_occ_from, List.mem_cons] at ht
    rcases ht with rfl | ht
    · simp [hget]
    · exact ih (i + 1) t ht

/-- The inner loop of increment ends: it returns the same state for every
bound from some point on, with the counter not valid or the occupation
transform valid. -/
theorem next_occ_values_returns (hE : E.Lawful) (remaining : κ → Nat)
    (hrem : ∀ c, E.counter_valid c = true → remaining (E.counter_incr c) < remaining c) :
    ∀ (n : Nat) (e : DiffusionTransformationEnum κ),
      remaining (E.counter_incr e.m_occ_counter) ≤ n →
      ∃ e1, (∀ fuel, n + 1 ≤ fuel → next_occ_values E fuel e = some e1) ∧
        e1.m_valid = e.m_valid ∧ e1.m_cluster = e.m_cluster ∧
        (E.counter_valid e1.m_occ_counter = true →
          E.is_valid_occ_transform e1.m_current.occ_transform = true) ∧
        (E.counter_valid e.m_occ_counter = true →
          remaining e1.m_occ_counter < remaining e.m_occ_counter) ∧
        (E.counter_valid e.m_occ_counter = false → E.counter_valid e1.m_occ_counter = false) ∧
        (update_current_occ_transform E e1).m_current.occ_transform =
          e1.m_current.occ_transform := by
  intro n
  induction n with
  | zero =>
    intro e hn
    by_cases hc : (E.counter_valid (E.counter_incr e.m_occ_counter) &&
        !E.is_valid_occ_transform (update_current_occ_transform E
          { e with m_occ_counter := E.counter_incr e.m_occ_counter }).m_current.occ_transform) = true
    · exfalso
      simp only [Bool.and_eq_true] at hc
      have := hrem _ hc.1
      omega
    · refine ⟨update_current_occ_transform E
        { e with m_occ_counter := E.counter_incr e.m_occ_counter }, ?_, rfl, rfl, ?_, ?_, ?_, ?_⟩
      · intro fuel hfuel
        obtain ⟨m, rfl⟩ : ∃ m, fuel = m + 1 := ⟨fuel - 1, by omega⟩
        simp only [next_occ_values]
        rw [if_neg]
        simpa [update_current_occ_transform] using hc
      · intro hv
        simp only [update_current_occ_transform] at hv hc ⊢
        simpa [hv] using hc
      · intro hv; exact hrem _ hv
      · intro hv; exact hE.counter_stays_invalid _ hv
      · simp only [update_current_occ_transform]
        exact update_occ_from_idem _ _ _ _
  | succ n ih =>
    intro e hn
    by_cases hc : (E.counter_valid (E.counter_incr e.m_occ_counter) &&
        !E.is_valid_occ_transform (update_current_occ_transform E
          { e with m_occ_counter := E.counter_incr e.m_occ_counter }).m_current.occ_transform) = true
    · have hv1 : E.counter_valid (E.counter_incr e.m_occ_counter) = true := by
        simp only [Bool.and_eq_true] at hc; exact hc.1
      have hlt := hrem _ hv1
      obtain ⟨e1, hret, hval, hcl, hocc, hdec, hstay, hfix⟩ :=
        ih (update_current_occ_transform E
          { e with m_occ_counter := E.counter_incr e.m_occ_counter })
          (by show remaining (E.counter_incr (E.counter_incr e.m_occ_counter)) ≤ n; omega)
      refine ⟨e1, ?_, hval, hcl, hocc, ?_, ?_, hfix⟩
      · intro fuel hfuel
        obtain ⟨m, rfl⟩ : ∃ m, fuel = m + 1 := ⟨fuel - 1, by omega⟩
        simp only [next_occ_values]
        rw [if_pos (by simpa [update_current_occ_transform] using hc)]
        exact hret m (by omega)
      · intro hv
        have h1 := hdec hv1
        have h2 := hrem _ hv
        show remaining e1.m_occ_counter < remaining e.m_occ_counter
        have h1' : remaining e1.m_occ_counter <
            remaining (E.counter_incr e.m_occ_counter) := h1
        omega
      · intro hv
        have := hE.counter_stays_invalid _ hv
        rw [this] at hv1
        cases hv1
    · refine ⟨update_current_occ_transform E
        { e with m_occ_counter := E.counter_incr e.m_occ_counter }, ?_, rfl, rfl, ?_, ?_, ?_, ?_⟩
      · intro fuel hfuel
        obtain ⟨m, rfl⟩ : ∃ m, fuel = m + 1 := ⟨fuel - 1, by omega⟩
        simp only [next_occ_values]
        rw [if_neg]
        simpa [update_current_occ_transform] using hc
      · intro hv
        simp only [update_current_occ_transform] at hv hc ⊢
        simpa [hv] using hc
      · intro hv; exact hrem _ hv
      · intro hv; exact hE.counter_stays_invalid _ hv
      · simp only [update_current_occ_transform]
        exact update_occ_from_idem _ _ _ _

end DiffusionTransformationEnum

end Kinetics
namespace Kinetics

namespace DiffusionTransformationEnum

variable {κ : Type} {E : Collaborators κ}

/-- The loop of increment ends: it returns the same state for every bound
from some point on. Either the enumerator was invalidated with the counter
used up, or the loop was left with a valid specie trajectory, the flag of
the enumerator untouched, and a valid occupation transform if it was valid
before. -/
theorem increment_returns (hE : E.Lawful) (remaining : κ → Nat)
    (hrem : ∀ c, E.counter_valid c = true → remaining (E.counter_incr c) < remaining c) :
    ∀ (n : Nat) (e : DiffusionTransformationEnum κ), remaining e.m_occ_counter ≤ n →
      ∃ e1, (∃ N, ∀ fuel, N ≤ fuel → increment E fuel e = some e1) ∧
        ((e1.m_valid = false ∧ E.counter_valid e1.m_occ_counter = false) ∨
          (e1.m_valid = e.m_valid ∧ E.is_valid_specie_traj e1.m_current = true ∧
            (E.is_valid_occ_transform e.m_current.occ_transform = true →
              E.is_valid_occ_transform e1.m_current.occ_transform = true))) := by
  intro n
  induction n using Nat.strong_induction_on with
  | _ n IH =>
  intro e hn
  have key : ∀ (l : List SpecieLocation) (e : DiffusionTransformationEnum κ), e.m_to_loc = l →
      remaining e.m_occ_counter ≤ n →
      ∃ e1, (∃ N, ∀ fuel, N ≤ fuel → increment E fuel e = some e1) ∧
        ((e1.m_valid = false ∧ E.counter_valid e1.m_occ_counter = false) ∨
          (e1.m_valid = e.m_valid ∧ E.is_valid_specie_traj e1.m_current = true ∧
            (E.is_valid_occ_transform e.m_current.occ_transform = true →
              E.is_valid_occ_transform e1.m_current.occ_transform = true))) := by
    intro l
    induction l using next_permutation_induction hE.loc_lt_strict with
    | _ l ihl =>
    intro e hl hn
    cases hstep : next_permutation_step E.loc_lt l with
    | some l' =>
      have hperm : next_permutation E.loc_lt e.m_to_loc = (true, l') := by
        simp [next_permutation, hl, hstep]
      by_cases htraj : E.is_valid_specie_traj (take_permutation e l').m_current = true
      · refine ⟨increment_step (take_permutation e l'), ⟨1, ?_⟩, Or.inr ⟨rfl, htraj, fun h => h⟩⟩
        intro fuel hfuel
        obtain ⟨m, rfl⟩ : ∃ m, fuel = m + 1 := ⟨fuel - 1, by omega⟩
        simp [increment, hperm, htraj]
      · obtain ⟨e1, ⟨N, hN⟩, hpost⟩ := ihl l' hstep (take_permutation e l') rfl hn
        refine ⟨e1, ⟨N + 1, ?_⟩, ?_⟩
        · intro fuel hfuel
          obtain ⟨m, rfl⟩ : ∃ m, fuel = m + 1 := ⟨fuel - 1, by omega⟩
          simp only [increment, hperm, if_true]
          rw [if_neg htraj]
          exact hN m (by omega)
        · rcases hpost with h | ⟨h1, h2, h3⟩
          · exact Or.inl h
          · exact Or.inr ⟨h1, h2, h3⟩
    | none =>
      have hperm : next_permutation E.loc_lt e.m_to_loc = (false, l.reverse) := by
        simp [next_permutation, hl, hstep]
      obtain ⟨e1, hret, hval, hcl, hocc, hdec, hstay, hfix⟩ :=
        next_occ_values_returns hE remaining hrem (remaining (E.counter_incr e.m_occ_counter))
          { e with m_to_loc := l.reverse } (le_refl _)
      by_cases hv1 : E.counter_valid e1.m_occ_counter = true
      · have hvc : E.counter_valid e.m_occ_counter = true := by
          by_contra hcon
          have := hstay (by simpa using hcon)
          rw [this] at hv1
          cases hv1
        have hlt : remaining e1.m_occ_counter < remaining e.m_occ_counter := hdec hvc
        have hocc2 : E.is_valid_occ_transform (take_occ_values E e1).m_current.occ_transform
            = true := by
          have : (take_occ_values E e1).m_current.occ_transform = e1.m_current.occ_transform :=
            hfix
          rw [this]
          exact hocc hv1
        by_cases htraj : E.is_valid_specie_traj (take_occ_values E e1).m_current = true
        · refine ⟨increment_step (take_occ_values E e1),
            ⟨remaining (E.counter_incr e.m_occ_counter) + 2, ?_⟩,
            Or.inr ⟨hval, htraj, fun _ => hocc2⟩⟩
          intro fuel hfuel
          obtain ⟨m, rfl⟩ : ∃ m, fuel = m + 1 := ⟨fuel - 1, by omega⟩
          simp only [increment, hperm]
          rw [hret m (by omega)]
          simp [hv1, htraj]
        · obtain ⟨e2, ⟨N, hN⟩, hpost⟩ :=
            IH (remaining e1.m_occ_counter) (by omega) (take_occ_values E e1) (le_refl _)
          refine ⟨e2, ⟨max (N + 1) (remaining (E.counter_incr e.m_occ_counter) + 2), ?_⟩, ?_⟩
          · intro fuel hfuel
            obtain ⟨m, rfl⟩ : ∃ m, fuel = m + 1 := ⟨fuel - 1, by omega⟩
            simp only [increment, hperm]
            rw [hret m (by omega)]
            simp only [hv1, if_true]
            rw [if_neg htraj]
            exact hN m (by omega)
          · rcases hpost with h | ⟨h1, h2, h3⟩
            · exact Or.inl h
            · exact Or.inr ⟨h1.trans hval, h2, fun _ => h3 hocc2⟩
      · refine ⟨invalidate e1, ⟨remaining (E.counter_incr e.m_occ_counter) + 2, ?_⟩,
          Or.inl ⟨rfl, by simpa using hv1⟩⟩
        intro fuel hfuel
        obtain ⟨m, rfl⟩ : ∃ m, fuel = m + 1 := ⟨fuel - 1, by omega⟩
        simp only [increment, hperm]
        rw [hret m (by omega)]
        simp [hv1]
  exact key e.m_to_loc e rfl hn

end DiffusionTransformationEnum

end Kinetics
namespace Kinetics

namespace DiffusionTransformationEnum

variable {κ : Type}

/-- Claim C21. Construction from a cluster returns, and what it returns has
been invalidated (exactly when the from/to occupation counter is used up) or
has a valid current DiffusionTransformation. A call of increment on an
enumerator in such a state returns, and leaves it in such a state again: an
enumerator that is valid before the call is invalidated only with the
counter used up. The counter, the comparison of locations and the validity
checks are collaborators with the properties of Lawful. -/
theorem current_ok_after_every_call (E : Collaborators κ) (hE : E.Lawful)
    (clust : IntegralCluster) :
    (∃ e, (∃ N, ∀ fuel, N ≤ fuel → construct E fuel clust = some e) ∧ current_ok E e ∧
      (e.m_valid = false ↔ E.counter_valid e.m_occ_counter = false)) ∧
    (∀ e : DiffusionTransformationEnum κ, current_ok E e →
      ∃ e1, (∃ N, ∀ fuel, N ≤ fuel → increment E fuel e = some e1) ∧ current_ok E e1 ∧
        (e1.m_valid = false → e.m_valid = false ∨ E.counter_valid e1.m_occ_counter = false)) := by
  obtain ⟨remaining, hrem⟩ := hE.counter_exhausts
  constructor
  · have hocc0 : E.is_valid_occ_transform
        (update_occ_from (E.counter_value (init_occ_counter E clust)) clust.length 0
          (clust.map (fun uccoord => OccupationTransformation.mk uccoord 0 0))) = true := by
      apply hE.unchanged_is_valid
      have hv : E.counter_value (init_occ_counter E clust) = List.replicate (clust.length * 2) 0 :=
        hE.counter_initial _ _ _
      rw [hv]
      exact update_occ_from_zero _ _ _ _
    by_cases hvalid : (first_current E clust).m_current.is_valid E = true
    · by_cases hc : E.counter_valid (init_occ_counter E clust) = true
      · refine ⟨set_step 0 (init_current (first_current E clust)), ⟨0, fun fuel _ => ?_⟩, ?_, ?_⟩
        · simp only [construct, hvalid, if_true]
          rw [if_pos (by exact hc)]
        · exact Or.inr hvalid
        · show (true = false ↔ E.counter_valid (init_occ_counter E clust) = false)
          simp [hc]
      · refine ⟨invalidate (first_current E clust), ⟨0, fun fuel _ => ?_⟩, ?_, ?_⟩
        · simp only [construct, hvalid, if_true]
          rw [if_neg (by exact hc)]
        · exact Or.inl rfl
        · show (false = false ↔ E.counter_valid (init_occ_counter E clust) = false)
          simpa using hc
    · obtain ⟨e1, ⟨N, hN⟩, hpost⟩ := increment_returns hE remaining hrem _ (first_current E clust) (le_refl _)
      by_cases hc : E.counter_valid e1.m_occ_counter = true
      · refine ⟨set_step 0 (init_current e1), ⟨N, fun fuel hfuel => ?_⟩, ?_, ?_⟩
        · simp only [construct]
          rw [if_neg hvalid, hN fuel hfuel]
          simp [hc]
        · rcases hpost with ⟨_, h⟩ | ⟨_, htraj, hocc⟩
          · rw [h] at hc; cases hc
          · refine Or.inr ?_
            show (E.is_valid_occ_transform e1.m_current.occ_transform &&
              E.is_valid_specie_traj e1.m_current) = true
            rw [hocc hocc0, htraj]
            rfl
        · show (true = false ↔ E.counter_valid e1.m_occ_counter = false)
          simp [hc]
      · refine ⟨invalidate e1, ⟨N, fun fuel hfuel => ?_⟩, Or.inl rfl, ?_⟩
        · simp only [construct]
          rw [if_neg hvalid, hN fuel hfuel]
          simp [hc]
        · show (false = false ↔ E.counter_valid e1.m_occ_counter = false)
          simpa using hc
  · intro e hok
    obtain ⟨e1, hret, hpost⟩ := increment_returns hE remaining hrem _ e (le_refl _)
    refine ⟨e1, hret, ?_, ?_⟩
    · rcases hpost with ⟨h, _⟩ | ⟨hv, htraj, hocc⟩
      · exact Or.inl h
      · rcases hok with h | h
        · exact Or.inl (hv.trans h)
        · refine Or.inr ?_
          have h' : (E.is_valid_occ_transform e.m_current.occ_transform &&
              E.is_valid_specie_traj e.m_current) = true := h
          simp only [Bool.and_eq_true] at h'
          show (E.is_valid_occ_transform e1.m_current.occ_transform &&
            E.is_valid_specie_traj e1.m_current) = true
          rw [hocc h'.1, htraj]
          rfl
    · intro h1
      rcases hpost with ⟨_, h⟩ | ⟨hv, _, _⟩
      · exact Or.inr h
      · exact Or.inl (hv.symm.trans h1)

end DiffusionTransformationEnum

end Kinetics
namespace Kinetics

theorem specie_location_lt_strict : StrictWeakOrder SpecieLocation.lt := by
  refine ⟨?_, ?_, ?_⟩
  · intro a
    simp [SpecieLocation.lt, lex_site_lt]
  · intro a b c
    simp only [SpecieLocation.lt, lex_site_lt, Bool.or_eq_true, Bool.and_eq_true,
      decide_eq_true_eq, Bool.not_eq_true', Bool.or_eq_false_iff, Bool.and_eq_false_imp,
      decide_eq_false_iff_not]
    omega
  · intro a b c
    simp only [SpecieLocation.lt, lex_site_lt, Bool.or_eq_true, Bool.and_eq_true,
      decide_eq_true_eq, Bool.not_eq_true', Bool.or_eq_false_iff, Bool.and_eq_false_imp,
      decide_eq_false_iff_not]
    omega

namespace PairHop

theorem incr_digits_lt : ∀ (cs fs d : List Nat), incr_digits cs fs = some d →
    digits_left d fs < digits_left cs fs := by
  intro cs
  induction cs with
  | nil => intro fs d h; simp [incr_digits] at h
  | cons c cs ih =>
    intro fs d h
    cases fs with
    | nil => simp [incr_digits] at h
    | cons f fs =>
      simp only [incr_digits] at h
      by_cases hc : c + 1 ≤ f
      · rw [if_pos hc] at h
        simp only [Option.some.injEq] at h
        subst h
        simp only [digits_left]
        omega
      · rw [if_neg hc] at h
        cases hrec : incr_digits cs fs with
        | none => rw [hrec] at h; simp at h
        | some d' =>
          rw [hrec] at h
          simp only [Option.map_some', Option.some.injEq] at h
          subst h
          have h1 := ih fs d' hrec
          have h2 : (f + 1) * (digits_left d' fs + 1) ≤ (f + 1) * digits_left cs fs :=
            Nat.mul_le_mul_left _ h1
          simp only [digits_left]
          rw [Nat.mul_add, Nat.mul_one] at h2
          omega

theorem remaining_decreases (c : UnitCounter) (h : c.m_is_valid = true) :
    (UnitCounter.incr c).remaining < c.remaining := by
  simp only [UnitCounter.incr, h, if_true]
  cases hd : incr_digits c.m_current c.m_final with
  | none => simp [UnitCounter.remaining, h]
  | some d =>
    have := incr_digits_lt _ _ _ hd
    simp only [UnitCounter.remaining, h, if_true]
    omega

theorem conserves_species_unchanged (ot : List OccupationTransformation)
    (h : ∀ t ∈ ot, t.from_value = t.to_value) : conserves_species ot = true := by
  have hmap : ot.map (fun t => t.from_value) = ot.map (fun t => t.to_value) :=
    List.map_congr_left h
  simp [conserves_species, hmap]

theorem pair_hop_lawful : env.Lawful where
  counter_initial := fun _ _ _ => rfl
  counter_stays_invalid := by
    intro c hc
    have hc' : c.m_is_valid = false := hc
    show (UnitCounter.incr c).m_is_valid = false
    simp [UnitCounter.incr, hc']
  counter_exhausts := ⟨UnitCounter.remaining, remaining_decreases⟩
  loc_lt_strict := specie_location_lt_strict
  unchanged_is_valid := conserves_species_unchanged

end PairHop

theorem current_ok_after_every_call_witness :
    (∃ e, (∃ N, ∀ fuel, N ≤ fuel →
        DiffusionTransformationEnum.construct PairHop.env fuel PairHop.pair = some e) ∧
      DiffusionTransformationEnum.current_ok PairHop.env e ∧
      (e.m_valid = false ↔ PairHop.env.counter_valid e.m_occ_counter = false)) ∧
    (∀ e : DiffusionTransformationEnum PairHop.UnitCounter,
      DiffusionTransformationEnum.current_ok PairHop.env e →
      ∃ e1, (∃ N, ∀ fuel, N ≤ fuel →
          DiffusionTransformationEnum.increment PairHop.env fuel e = some e1) ∧
        DiffusionTransformationEnum.current_ok PairHop.env e1 ∧
        (e1.m_valid = false →
          e.m_valid = false ∨ PairHop.env.counter_valid e1.m_occ_counter = false)) :=
  DiffusionTransformationEnum.current_ok_after_every_call PairHop.env PairHop.pair_hop_lawful PairHop.pair

end Kinetics
namespace Kinetics

namespace PairHop

/-- On the pair the enumerator starts with both atoms exchanged, the counter
at its first values. -/
theorem pair_hop_construct :
    (DiffusionTransformationEnum.construct env 1 pair).map
        (fun e => (e.m_valid, e.m_step, e.m_occ_counter.m_current,
          e.m_current.is_valid env)) =
      some (true, 0, [0, 0, 0, 0], true) := by
  decide

/-- The second transformation on the pair exchanges an atom of each species. -/
theorem pair_hop_increment :
    ((DiffusionTransformationEnum.construct env 1 pair).bind
        (DiffusionTransformationEnum.increment env 8)).map
        (fun e => (e.m_valid, e.m_step, e.m_occ_counter.m_current,
          e.m_current.is_valid env)) =
      some (true, 1, [0, 1, 1, 0], true) := by
  decide

end PairHop

end Kinetics

/-! ## dependency_neighborhood: the keys are in the canonical translation unit -/

theorem map_set_insert_other (result : NeighborhoodMap) (key value k : UnitCellCoord)
    (h : k ≠ key) : map_set_insert result key value k = result k := by
  simp [map_set_insert, h]

theorem map_set_insert_key (result : NeighborhoodMap) (key value : UnitCellCoord) :
    ∃ s, map_set_insert result key value key = some s ∧ value ∈ s ∧
      ∀ s0, result key = some s0 → ∀ x ∈ s0, x ∈ s := by
  by_cases hv : value ∈ (result key).getD []
  · refine ⟨(result key).getD [], by simp [map_set_insert, hv], hv, ?_⟩
    intro s0 hs0 x hx
    simpa [hs0] using hx
  · refine ⟨(result key).getD [] ++ [value], by simp [map_set_insert, hv], by simp, ?_⟩
    intro s0 hs0 x hx
    simp [hs0, hx]

theorem insert_translated_other (key : UnitCellCoord) (trans : UnitCell) (k : UnitCellCoord)
    (h : k ≠ key) : ∀ (sites : List UnitCellCoord) (result : NeighborhoodMap),
      insert_translated key trans sites result k = result k := by
  intro sites
  induction sites with
  | nil => intro result; rfl
  | cons ucc2 rest ih =>
    intro result
    simp only [insert_translated]
    rw [ih, map_set_insert_other _ _ _ _ h]

theorem insert_translated_keeps (key : UnitCellCoord) (trans : UnitCell) :
    ∀ (sites : List UnitCellCoord) (result : NeighborhoodMap) (s0 : List UnitCellCoord)
      (x : UnitCellCoord), result key = some s0 → x ∈ s0 →
      ∃ s, insert_translated key trans sites result key = some s ∧ x ∈ s := by
  intro sites
  induction sites with
  | nil => intro result s0 x hs0 hx; exact ⟨s0, hs0, hx⟩
  | cons ucc2 rest ih =>
    intro result s0 x hs0 hx
    obtain ⟨s1, hs1, _, hsub⟩ :=
      map_set_insert_key result key (UnitCellCoord.translate trans ucc2)
    simp only [insert_translated]
    exact ih _ s1 x hs1 (hsub s0 hs0 x hx)

theorem insert_translated_key (key : UnitCellCoord) (trans : UnitCell) :
    ∀ (sites : List UnitCellCoord) (result : NeighborhoodMap), ∀ ucc2 ∈ sites,
      ∃ s, insert_translated key trans sites result key = some s ∧
        UnitCellCoord.translate trans ucc2 ∈ s := by
  intro sites
  induction sites with
  | nil => intro result ucc2 h; cases h
  | cons a rest ih =>
    intro result ucc2 h
    simp only [insert_translated]
    rcases List.mem_cons.1 h with rfl | h
    · obtain ⟨s1, hs1, hmem, _⟩ :=
        map_set_insert_key result key (UnitCellCoord.translate trans ucc2)
      exact insert_translated_keeps key trans rest _ s1 _ hs1 hmem
    · exact ih _ ucc2 h

theorem translate_back (ucc : UnitCellCoord) (trans : UnitCell) :
    UnitCellCoord.translate ((UnitCellCoord.translate trans ucc).unitcell - ucc.unitcell) ucc =
      UnitCellCoord.translate trans ucc := by
  simp [UnitCellCoord.translate]

/-- One pass of the loop over sites keeps the property of the keys: a key is
a member of its set and is the first site of its own prepared one-site
cluster. -/
theorem site_step_keys (orbits : List ClusterOrbit) (orbit : ClusterOrbit)
    (horbit : orbit ∈ orbits) (hP : PreparesSites orbit.sym_compare)
    (equiv : IntegralCluster) (ucc : UnitCellCoord) (hucc : ucc ∈ equiv)
    (result : NeighborhoodMap)
    (hgood : ∀ k s, result k = some s → k ∈ s ∧
      ∃ o ∈ orbits, (o.sym_compare.prepare [k]).head? = some k) :
    ∃ result', site_step [] orbit equiv ucc result = some result' ∧
      ∀ k s, result' k = some s → k ∈ s ∧
        ∃ o ∈ orbits, (o.sym_compare.prepare [k]).head? = some k := by
  obtain ⟨trans, htrans⟩ := hP.prepare_site ucc
  refine ⟨insert_translated (UnitCellCoord.translate trans ucc)
    ((UnitCellCoord.translate trans ucc).unitcell - ucc.unitcell) equiv result, ?_, ?_⟩
  · simp [site_step, htrans]
  · intro k s hk
    by_cases hkey : k = UnitCellCoord.translate trans ucc
    · subst hkey
      obtain ⟨s', hs', hmem⟩ := insert_translated_key (UnitCellCoord.translate trans ucc)
        ((UnitCellCoord.translate trans ucc).unitcell - ucc.unitcell) equiv result ucc hucc
      rw [hs'] at hk
      simp only [Option.some.injEq] at hk
      subst hk
      rw [translate_back] at hmem
      refine ⟨hmem, orbit, horbit, ?_⟩
      have h1 := hP.prepare_idem ucc
      rw [htrans] at h1
      rw [h1]
      rfl
    · rw [insert_translated_other _ _ _ hkey] at hk
      exact hgood k s hk

theorem sites_loop_keys (orbits : List ClusterOrbit) (orbit : ClusterOrbit)
    (horbit : orbit ∈ orbits) (hP : PreparesSites orbit.sym_compare)
    (equiv : IntegralCluster) :
    ∀ (sites : List UnitCellCoord), (∀ ucc ∈ sites, ucc ∈ equiv) →
    ∀ (result : NeighborhoodMap),
    (∀ k s, result k = some s → k ∈ s ∧
      ∃ o ∈ orbits, (o.sym_compare.prepare [k]).head? = some k) →
    ∃ result', sites_loop [] orbit equiv sites result = some result' ∧
      ∀ k s, result' k = some s → k ∈ s ∧
        ∃ o ∈ orbits, (o.sym_compare.prepare [k]).head? = some k := by
  intro sites
  induction sites with
  | nil => intro _ result hgood; exact ⟨result, rfl, hgood⟩
  | cons ucc rest ih =>
    intro hsub result hgood
    obtain ⟨r1, hr1, hgood1⟩ := site_step_keys orbits orbit horbit hP equiv ucc
      (hsub ucc (List.mem_cons_self _ _)) result hgood
    obtain ⟨r2, hr2, hgood2⟩ := ih (fun u hu => hsub u (List.mem_cons_of_mem _ hu)) r1 hgood1
    exact ⟨r2, by simp only [sites_loop, hr1, hr2], hgood2⟩

theorem equivalents_loop_keys (orbits : List ClusterOrbit) (orbit : ClusterOrbit)
    (horbit : orbit ∈ orbits) (hP : PreparesSites orbit.sym_compare) :
    ∀ (equivs : List IntegralCluster) (result : NeighborhoodMap),
    (∀ k s, result k = some s → k ∈ s ∧
      ∃ o ∈ orbits, (o.sym_compare.prepare [k]).head? = some k) →
    ∃ result', equivalents_loop [] orbit equivs result = some result' ∧
      ∀ k s, result' k = some s → k ∈ s ∧
        ∃ o ∈ orbits, (o.sym_compare.prepare [k]).head? = some k := by
  intro equivs
  induction equivs with
  | nil => intro result hgood; exact ⟨result, rfl, hgood⟩
  | cons equiv rest ih =>
    intro result hgood
    obtain ⟨r1, hr1, hgood1⟩ :=
      sites_loop_keys orbits orbit horbit hP equiv equiv (fun _ h => h) result hgood
    obtain ⟨r2, hr2, hgood2⟩ := ih r1 hgood1
    exact ⟨r2, by simp only [equivalents_loop, hr1, hr2], hgood2⟩

theorem orbits_loop_keys (orbits : List ClusterOrbit)
    (h : ∀ orbit ∈ orbits, PreparesSites orbit.sym_compare) :
    ∀ (range : List ClusterOrbit), (∀ orbit ∈ range, orbit ∈ orbits) →
    ∀ (result : NeighborhoodMap),
    (∀ k s, result k = some s → k ∈ s ∧
      ∃ o ∈ orbits, (o.sym_compare.prepare [k]).head? = some k) →
    ∃ result', orbits_loop [] range result = some result' ∧
      ∀ k s, result' k = some s → k ∈ s ∧
        ∃ o ∈ orbits, (o.sym_compare.prepare [k]).head? = some k := by
  intro range
  induction range with
  | nil => intro _ result hgood; exact ⟨result, rfl, hgood⟩
  | cons orbit rest ih =>
    intro hsub result hgood
    have horbit := hsub orbit (List.mem_cons_self _ _)
    obtain ⟨r1, hr1, hgood1⟩ :=
      equivalents_loop_keys orbits orbit horbit (h orbit horbit) orbit.equivalents result hgood
    obtain ⟨r2, hr2, hgood2⟩ := ih (fun o ho => hsub o (List.mem_cons_of_mem _ ho)) r1 hgood1
    exact ⟨r2, by simp only [orbits_loop, hr1, hr2], hgood2⟩

theorem first_site_of_equivalents_none :
    ∀ (equivs : List IntegralCluster), (∀ equiv ∈ equivs, equiv = []) →
      first_site_of_equivalents equivs = none := by
  intro equivs
  induction equivs with
  | nil => intro _; rfl
  | cons equiv rest ih =>
    intro h
    have h0 := h equiv (List.mem_cons_self _ _)
    subst h0
    simp only [first_site_of_equivalents]
    exact ih (fun e he => h e (List.mem_cons_of_mem _ he))

theorem first_site_none :
    ∀ (orbits : List ClusterOrbit),
      (∀ orbit ∈ orbits, ∀ equiv ∈ orbit.equivalents, equiv = []) → first_site orbits = none := by
  intro orbits
  induction orbits with
  | nil => intro _; rfl
  | cons orbit rest ih =>
    intro h
    simp only [first_site]
    rw [first_site_of_equivalents_none _ (h orbit (List.mem_cons_self _ _))]
    exact ih (fun o ho => h o (List.mem_cons_of_mem _ ho))

/-- Claim C22. For a range of cluster orbits whose sym_compare prepares a
one-site cluster by a lattice translation, to a cluster that it prepares to
itself, and leaves the empty cluster empty: dependency_neighborhood returns
a map in which every key k is a member of the set stored under k and is the
first site of sym_compare.prepare of the one-site cluster of k, for the
sym_compare of an orbit of the range; for an empty range, and for a range
without sites, the map is empty. -/
theorem dependency_neighborhood_keys (orbits : List ClusterOrbit)
    (h : ∀ orbit ∈ orbits, PreparesSites orbit.sym_compare) :
    ∃ result, dependency_neighborhood orbits = some result ∧
      (∀ k s, result k = some s → k ∈ s ∧
        ∃ orbit ∈ orbits, (orbit.sym_compare.prepare [k]).head? = some k) ∧
      (orbits = [] → ∀ k, result k = none) ∧
      ((∀ orbit ∈ orbits, ∀ equiv ∈ orbit.equivalents, equiv = []) → ∀ k, result k = none) := by
  cases orbits with
  | nil =>
    refine ⟨fun _ => none, rfl, ?_, fun _ _ => rfl, fun _ _ => rfl⟩
    intro k s hk
    cases hk
  | cons first rest =>
    cases hfirst : first_site (first :: rest) with
    | none =>
      refine ⟨fun _ => none, by simp only [dependency_neighborhood, hfirst], ?_,
        fun _ _ => rfl, fun _ _ => rfl⟩
      intro k s hk
      cases hk
    | some ucc =>
      have hproto : empty_orbit_prototype first.sym_compare = [] :=
        (h first (List.mem_cons_self _ _)).prepare_nil
      obtain ⟨result, hres, hgood⟩ := orbits_loop_keys (first :: rest) h (first :: rest)
        (fun _ ho => ho) (fun _ => none) (by intro k s hk; cases hk)
      refine ⟨result, by simp only [dependency_neighborhood, hfirst, hproto, hres], hgood, ?_, ?_⟩
      · intro hnil
        cases hnil
      · intro hempty
        rw [first_site_none _ hempty] at hfirst
        cases hfirst

theorem prim_periodic_prepares_sites (site_lt : UnitCellCoord → UnitCellCoord → Bool)
    (compare : IntegralCluster → IntegralCluster → Bool) :
    PreparesSites (PrimPeriodicSymCompare site_lt compare) := by
  have hone : ∀ ucc, (PrimPeriodicSymCompare site_lt compare).prepare [ucc] =
      [UnitCellCoord.translate (-ucc.unitcell) ucc] := by
    intro ucc
    simp [SymCompare.prepare, PrimPeriodicSymCompare, prim_periodic_spatial_prepare,
      cluster_translate, cluster_sort, sort_by]
  refine ⟨?_, fun ucc => ⟨-ucc.unitcell, hone ucc⟩, ?_⟩
  · simp [SymCompare.prepare, PrimPeriodicSymCompare, prim_periodic_spatial_prepare,
      cluster_sort, sort_by]
  · intro ucc
    rw [hone ucc, hone]
    simp [UnitCellCoord.translate]

theorem dependency_neighborhood_keys_witness :
    ∃ result, dependency_neighborhood [pair_orbit] = some result ∧
      (∀ k s, result k = some s → k ∈ s ∧
        ∃ orbit ∈ [pair_orbit], (orbit.sym_compare.prepare [k]).head? = some k) ∧
      ([pair_orbit] = [] → ∀ k, result k = none) ∧
      ((∀ orbit ∈ [pair_orbit], ∀ equiv ∈ orbit.equivalents, equiv = []) →
        ∀ k, result k = none) :=
  dependency_neighborhood_keys [pair_orbit] (by
    intro orbit ho
    rw [List.mem_singleton] at ho
    subst ho
    exact prim_periodic_prepares_sites lex_site_lt lex_cluster_lt)

/-- On the example the two keys are the two sites of the origin cell; the set
of the first holds the pair and its translated image. -/
theorem pair_orbit_neighborhood :
    (dependency_neighborhood [pair_orbit]).map (fun result =>
        (result { sublat := 0, unitcell := (0, 0, 0) },
          (result { sublat := 1, unitcell := (0, 0, 0) }).isSome,
          result { sublat := 0, unitcell := (3, 0, 0) })) =
      some (some [{ sublat := 0, unitcell := (0, 0, 0) }, { sublat := 1, unitcell := (0, 0, 0) },
          { sublat := 1, unitcell := (-1, 0, 0) }], true, none) := by
  decide

end CASM
